import Mathlib

/-!
# shallow: reflective struct diff and merge

A shallow embedding of `shallow.go` (package `shallow`): the public entry points
`Diff` and `Merge`, the validation in `process`, and the field traversal
`processStructs`.

Modelling decisions, all visible in the definitions below:

* A Go type is a finite tree (`GoType`); a struct type lists its fields in
  declaration order, each with its `reflect.StructField` data (`Name`,
  `Anonymous`, parsed `Tag`) and its type.
* A Go value is a tree (`Value`).  A pointer is either `nil` or carries its
  referent, so two distinct pointer fields never share a referent, and
  `reflect.DeepEqual` on two values of one static type is a structural
  comparison (`deepEqual`).  A `float64` is either `NaN` or a number; a `NaN`
  and a non-nil func are deeply equal to nothing, themselves included, so
  `deepEqual` is not reflexive.
* The side effects of `processStructs` on the target are made explicit: the
  traversal returns the field values of the target after the call together with
  the accumulated key list and the way the call ended (`Exit`).  The source is
  only ever read by the Go code (every `Set` call is on the target side), so it
  is not part of the returned state.
* A panic of the `reflect` package is an `Exit.panic`; it is distinct from a
  returned `error`.
* In `processStructs` struct fields are taken to be exported, so that
  `Interface` and `Set` are permitted on them.
* A second embedding, `processStructsOnHeap`, keeps the two records on a heap
  (`Heap`): pointers are addresses, two pointers may lead to one referent, a
  `Set` on the target is seen through every pointer to the written cell, and
  `Interface` panics on an unexported field.  It serves the statements about
  shared referents and unexported fields.
-/

namespace Shallow

/-! ## Types and values -/

/-- The part of `reflect.StructField` that the traversal reads: the field name,
whether the field is embedded, and its struct tag parsed into
`(namespace, value)` pairs in the order they are written. -/
structure StructField where
  Name : String
  Anonymous : Bool
  Tag : List (String × String)
deriving DecidableEq, Repr

/-- A `float64` as far as the operator `==` tells values apart: `NaN`, which
`==` holds equal to nothing, itself included, and `num k`, the `float64` whose
value is the integer `k` (the two zeros are one value for `==`). -/
inductive Float64 where
  | NaN
  | num (k : Int)
deriving DecidableEq, Repr

/-- The operator `==` on two `float64` values. -/
def Float64.eq : Float64 → Float64 → Bool
  | .num a, .num b => a == b
  | _, _ => false

/-- Go types: four basic types, pointers, named struct types with their fields
in declaration order, and function types (their signature plays no part). -/
inductive GoType where
  | bool
  | int
  | string
  | ptr (elem : GoType)
  | struct (name : String) (fields : List (StructField × GoType))
  | float64
  | func
deriving Repr

/-- Go values; `nil` is the nil pointer or the nil func, `ptr v` a non-nil
pointer whose referent is `v`, and `func id` a non-nil func value. -/
inductive Value where
  | bool (b : Bool)
  | int (n : Int)
  | string (s : String)
  | nil
  | ptr (v : Value)
  | struct (fields : List Value)
  | float64 (f : Float64)
  | func (id : Nat)
deriving Repr

/-- The values of `reflect.Kind` that occur in the model. -/
inductive Kind where
  | Invalid
  | Bool
  | Int
  | String
  | Ptr
  | Struct
  | Float64
  | Func
deriving DecidableEq, Repr

/-- Kind of a valid `reflect.Value` whose static type is the given one. -/
def GoType.Kind : GoType → Kind
  | .bool => .Bool
  | .int => .Int
  | .string => .String
  | .ptr _ => .Ptr
  | .struct _ _ => .Struct
  | .float64 => .Float64
  | .func => .Func

/-- Kind of `v.Elem()` for a pointer-kinded `reflect.Value` of static type `ty`
holding `v`: the element type's kind for a non-nil pointer, and `Invalid` for a
nil pointer, whose `Elem` is the zero `reflect.Value`. -/
def elemKind (ty : GoType) (v : Value) : Kind :=
  match ty, v with
  | .ptr e, .ptr _ => e.Kind
  | _, _ => .Invalid

/-- Whether a pointer value is nil (`reflect.Value.IsNil`). -/
def Value.IsNil : Value → Bool
  | .nil => true
  | _ => false

mutual
/-- Structural type equality, the identity test behind `Type() != Type()`. -/
def GoType.beq : GoType → GoType → Bool
  | .bool, .bool => true
  | .int, .int => true
  | .string, .string => true
  | .ptr a, .ptr b => GoType.beq a b
  | .struct n fs, .struct m gs => n == m && GoType.beqFields fs gs
  | .float64, .float64 => true
  | .func, .func => true
  | _, _ => false
/-- Field-wise type equality of two field lists. -/
def GoType.beqFields : List (StructField × GoType) → List (StructField × GoType) → Bool
  | [], [] => true
  | (f, a) :: fs, (g, b) :: gs => decide (f = g) && GoType.beq a b && GoType.beqFields fs gs
  | _, _ => false
end

mutual
/-- The zero value of a type, as produced by `reflect.New(t).Elem()`. -/
def zeroValue : GoType → Value
  | .bool => .bool false
  | .int => .int 0
  | .string => .string ""
  | .ptr _ => .nil
  | .struct _ fs => .struct (zeroFields fs)
  | .float64 => .float64 (.num 0)
  | .func => .nil
/-- The zero values of the fields of a struct type. -/
def zeroFields : List (StructField × GoType) → List Value
  | [] => []
  | (_, t) :: rest => zeroValue t :: zeroFields rest
end

mutual
/-- Typing of values: `hasType v t` holds when `v` is a value of type `t`. -/
def hasType : Value → GoType → Bool
  | .bool _, .bool => true
  | .int _, .int => true
  | .string _, .string => true
  | .nil, .ptr _ => true
  | .ptr v, .ptr t => hasType v t
  | .struct vs, .struct _ fs => hasTypeFields vs fs
  | .float64 _, .float64 => true
  | .nil, .func => true
  | .func _, .func => true
  | _, _ => false
/-- Typing of the field values of a struct against its field list. -/
def hasTypeFields : List Value → List (StructField × GoType) → Bool
  | [], [] => true
  | v :: vs, (_, t) :: fs => hasType v t && hasTypeFields vs fs
  | _, _ => false
end

mutual
/-- The comparison `reflect.DeepEqual` performs on two values of one static
type: basic values are compared with `==` (so a `NaN` is deeply equal to
nothing, itself included), two pointers are equal when both are nil or both are
non-nil with deeply equal referents, two structs are equal when their
corresponding fields are, and two func values are equal only when both are
nil. -/
def deepEqual : Value → Value → Bool
  | .bool a, .bool b => a == b
  | .int a, .int b => a == b
  | .string a, .string b => a == b
  | .nil, .nil => true
  | .ptr a, .ptr b => deepEqual a b
  | .struct fs, .struct gs => deepEqualFields fs gs
  | .float64 a, .float64 b => Float64.eq a b
  | .func _, .func _ => false
  | _, _ => false
/-- Field-wise `deepEqual`. -/
def deepEqualFields : List Value → List Value → Bool
  | [], [] => true
  | a :: as, b :: bs => deepEqual a b && deepEqualFields as bs
  | _, _ => false
end

/-! ## Tags, options and results -/

/-- The lookup `reflect.StructTag.Get`: the value stored under the namespace
`key`, or the empty string when the tag has no such namespace. -/
def StructTagGet (tagPairs : List (String × String)) (key : String) : String :=
  match tagPairs.find? (fun p => p.1 == key) with
  | some p => p.2
  | none => ""

/-- The expression `strings.SplitN(s, ",", 2)[0]`: the part of `s` before its
first comma, all of `s` when it has none. -/
def splitFirst (s : String) : String :=
  String.mk (s.data.takeWhile (fun c => c != ','))

/-- The `options` struct of the source. -/
structure options where
  tag : String
deriving DecidableEq, Repr

/-- The functional option type (`Option` in the source). -/
abbrev Opt := options → options

/-- UseTag can be used to use struct tags other than json. -/
def UseTag (tag : String) : Opt :=
  fun o => { o with tag := tag }

/-- The `keys` argument, a `map[string]interface{}`: `none` is the nil map and
`some ks` a non-nil map whose key set is `ks` (the mapped values are never
read). -/
abbrev KeyMap := Option (List String)

/-- The test `_, ok := keys[tagVal]` guarded by `keys != nil`: `true` when the
field with key `tagVal` is to be skipped. -/
def filteredOut (keys : KeyMap) (tagVal : String) : Bool :=
  match keys with
  | none => false
  | some ks => !(ks.contains tagVal)

/-- The ways a call ends: normally with a nil error, with a returned error, or
with a panic raised by the `reflect` package. -/
inductive Exit where
  | ok
  | error (msg : String)
  | panic (msg : String)
deriving DecidableEq, Repr

/-- The error raised for an embedded field of unsupported kind. -/
def errAnonym : String :=
  "this method only handles anonym fields of kind struct or pointer to struct"

/-- The error raised by the argument validation of `process`. -/
def errArgs : String :=
  "target and source must be a non-nil pointer to a struct with the same type"

/-- The state after a `processStructs` call: the field values of `targetV`,
the contents of `*processedKeys`, and how the call ended. -/
structure Walk where
  target : List Value
  processedKeys : List String
  exit : Exit
deriving Repr

/-! ## The traversal -/

mutual
/-- The body of the `if ft.Anonymous` branch of `processStructs` (lines 83 to
105 of the source) for an embedded field of static type `ty` whose target and
source values are `destAVal` and `upAVal`: it returns the value of the target
field afterwards, the key list, and whether the loop goes on (`Exit.ok`, the
`continue` at the end of the branch) or `processStructs` returns.  A value whose
shape does not fit the static type cannot be built in Go; the `reflect` calls on
it are modelled as a panic. -/
def processAnonym (tag : String) (keys : KeyMap) (merge : Bool) :
    GoType → Value → Value → List String → Value × List String × Exit
  | ty, destAVal, upAVal, processedKeys =>
    if ty.Kind = .Struct then
      match ty, destAVal, upAVal with
      | .struct _ fs, .struct tfs, .struct sfs =>
        let w := processStructs tag keys merge fs tfs sfs processedKeys
        (.struct w.target, w.processedKeys, w.exit)
      | _, _, _ => (destAVal, processedKeys, .panic "reflect: value does not fit its type")
    else if ty.Kind = .Ptr ∧ elemKind ty destAVal = .Struct then
      if upAVal.IsNil then
        (destAVal, processedKeys, .ok)
      else
        let dest : Value :=
          if destAVal.IsNil then
            match ty with
            | .ptr e => .ptr (zeroValue e)
            | _ => destAVal
          else destAVal
        match ty, dest, upAVal with
        | .ptr (.struct _ fs), .ptr (.struct tfs), .ptr (.struct sfs) =>
          let w := processStructs tag keys merge fs tfs sfs processedKeys
          (.ptr (.struct w.target), w.processedKeys, w.exit)
        | _, _, _ => (dest, processedKeys, .panic "reflect: value does not fit its type")
    else
      (destAVal, processedKeys, .error errAnonym)
termination_by structural ty => ty
/-- The function `processStructs` of the source.  The `for` loop over the fields
of `sourceV` is the recursion over the field list; each iteration computes the
new value of the target field, the new key list and whether the loop goes on
(`Exit.ok`) or the function returns. -/
def processStructs (tag : String) (keys : KeyMap) (merge : Bool) :
    List (StructField × GoType) → List Value → List Value → List String → Walk
  | [], targetV, _, processedKeys => ⟨targetV, processedKeys, .ok⟩
  | (ft, ty) :: rest, destAVal :: targetV, upAVal :: sourceV, processedKeys =>
    let step : Value × List String × Exit :=
      if ft.Anonymous then
        processAnonym tag keys merge ty destAVal upAVal processedKeys
      else
        let tagVal := splitFirst (StructTagGet ft.Tag tag)
        if tagVal = "" then
          (destAVal, processedKeys, .ok)
        else if filteredOut keys tagVal then
          (destAVal, processedKeys, .ok)
        else if deepEqual destAVal upAVal then
          (destAVal, processedKeys, .ok)
        else
          (if merge then upAVal else destAVal, processedKeys ++ [tagVal], .ok)
    match step with
    | (v, ks, .ok) =>
      let w := processStructs tag keys merge rest targetV sourceV ks
      ⟨v :: w.target, w.processedKeys, w.exit⟩
    | (v, ks, e) => ⟨v :: targetV, ks, e⟩
  | _ :: _, targetV, _, processedKeys =>
    ⟨targetV, processedKeys, .panic "reflect: Field index out of range"⟩
termination_by structural fs => fs
end

/-! ## The entry points -/

/-- An `interface{}` argument as `reflect.ValueOf` sees it: `none` is the nil
interface, whose `reflect.Value` is the zero Value, and `some (t, v)` holds the
value `v` of dynamic type `t`. -/
abbrev Iface := Option (GoType × Value)

/-- The method `Kind` on `reflect.ValueOf x`; the zero Value has kind `Invalid`. -/
def valueKind : Iface → Kind
  | none => .Invalid
  | some (t, _) => t.Kind

/-- The kind of `reflect.ValueOf(x).Elem()` for a pointer-kinded `x`. -/
def valueElemKind : Iface → Kind
  | none => .Invalid
  | some (t, v) => elemKind t v

/-- What a call of `Diff` or `Merge` leaves behind: the target argument after
the call, the returned key slice (`none` is the nil slice) and how the call
ended. -/
structure Call where
  target : Iface
  keys : Option (List String)
  exit : Exit
deriving Repr

/-- The function `process` of the source: argument validation, option
handling, then the traversal of the two pointees. -/
def process (target source : Iface) (keys : KeyMap) (merge : Bool) (opts : List Opt) : Call :=
  if valueKind target ≠ .Ptr ∨ valueElemKind target ≠ .Struct then
    ⟨target, none, .error errArgs⟩
  else
    match target, source with
    | none, _ => ⟨target, none, .error errArgs⟩
    | some _, none =>
      ⟨target, none, .panic "reflect: call of reflect.Value.Type on zero Value"⟩
    | some (tt, tv), some (st, sv) =>
      if !(GoType.beq tt st) then
        ⟨target, none, .error errArgs⟩
      else if tv.IsNil || sv.IsNil then
        ⟨target, none, .error errArgs⟩
      else
        let o : options := opts.foldl (fun o opt => opt o) { tag := "json" }
        match tt, tv, sv with
        | .ptr (.struct _ fs), .ptr (.struct tfs), .ptr (.struct sfs) =>
          let w := processStructs o.tag keys merge fs tfs sfs []
          match w.exit with
          | .ok => ⟨some (tt, .ptr (.struct w.target)), some w.processedKeys, .ok⟩
          | e => ⟨some (tt, .ptr (.struct w.target)), none, e⟩
        | _, _, _ => ⟨target, none, .panic "reflect: value does not fit its type"⟩

/-- Diff compares the two structs and returns the list of diff keys. -/
def Diff (first second : Iface) (keys : KeyMap) (opts : List Opt) : Call :=
  process first second keys false opts

/-- Merge copies the update struct into the dest struct and returns the list of
updated keys. -/
def Merge (dest update : Iface) (keys : KeyMap) (opts : List Opt) : Call :=
  process dest update keys true opts

/-! ## Vocabulary of the specification -/

/-- The tag name a call works with: `"json"` unless an option overrides it. -/
def effectiveTag (opts : List Opt) : String :=
  (opts.foldl (fun o opt => opt o) ({ tag := "json" } : options)).tag

/-- The Field Key of a non-embedded field under the tag name `tag`. -/
def fieldKey (tag : String) (ft : StructField) : String :=
  splitFirst (StructTagGet ft.Tag tag)

/-- A traversed non-embedded field: its key and its values on the two sides. -/
structure Leaf where
  key : String
  target : Value
  source : Value
deriving Repr

mutual
/-- The traversed fields below an embedded field: those of the embedded record
when it is present on both sides, none otherwise. -/
def leavesAnonym (tag : String) : GoType → Value → Value → List Leaf
  | .struct _ fs, .struct tfs, .struct sfs => leaves tag fs tfs sfs
  | .ptr (.struct _ fs), .ptr (.struct tfs), .ptr (.struct sfs) => leaves tag fs tfs sfs
  | _, _, _ => []
/-- The traversed non-embedded fields of a record pair, in declaration order,
descending depth-first into embedded records. -/
def leaves (tag : String) : List (StructField × GoType) → List Value → List Value → List Leaf
  | (ft, ty) :: rest, tv :: tvs, sv :: svs =>
    (if ft.Anonymous then leavesAnonym tag ty tv sv else [⟨fieldKey tag ft, tv, sv⟩])
      ++ leaves tag rest tvs svs
  | _, _, _ => []
end

/-- A traversed field is reported when its key is non-empty, passes the key
filter, and its two values are not deeply equal. -/
def Leaf.reported (keys : KeyMap) (l : Leaf) : Bool :=
  l.key != "" && !filteredOut keys l.key && !deepEqual l.target l.source

/-- One iteration of the loop of `processStructs`, for the field `(ft, ty)`. -/
def fieldStep (tag : String) (keys : KeyMap) (merge : Bool) (ft : StructField) (ty : GoType)
    (tv sv : Value) (pk : List String) : Value × List String × Exit :=
  if ft.Anonymous then
    processAnonym tag keys merge ty tv sv pk
  else if (Leaf.mk (fieldKey tag ft) tv sv).reported keys then
    (if merge then sv else tv, pk ++ [fieldKey tag ft], .ok)
  else (tv, pk, .ok)

/-- The keys of the reported fields among a list of traversed fields, in order. -/
def reportedKeys (keys : KeyMap) (ls : List Leaf) : List String :=
  (ls.filter (fun l => l.reported keys)).map (fun l => l.key)

/-- The traversed fields contributed by one field of the record. -/
def stepLeaves (tag : String) (ft : StructField) (ty : GoType) (tv sv : Value) : List Leaf :=
  if ft.Anonymous then leavesAnonym tag ty tv sv else [⟨fieldKey tag ft, tv, sv⟩]

mutual
/-- The non-embedded fields below an embedded field of a record, when the
embedded record is present. -/
def fieldsOfAnonym (tag : String) : GoType → Value → List (String × Value)
  | .struct _ fs, .struct tfs => fieldsOf tag fs tfs
  | .ptr (.struct _ fs), .ptr (.struct tfs) => fieldsOf tag fs tfs
  | _, _ => []
/-- Every non-embedded field of a record with its key and value, in declaration
order, including the fields of the embedded records that are present. -/
def fieldsOf (tag : String) : List (StructField × GoType) → List Value → List (String × Value)
  | (ft, ty) :: rest, tv :: tvs =>
    (if ft.Anonymous then fieldsOfAnonym tag ty tv else [(fieldKey tag ft, tv)])
      ++ fieldsOf tag rest tvs
  | _, _ => []
end

/-- The relation between a field of the target before and after a call: the key
is the same, and the value is the same unless the key is non-empty, passes the
filter and is among `reportedSoFar`. -/
def Framed (keys : KeyMap) (reportedSoFar : List String) (before after : String × Value) : Prop :=
  before.1 = after.1 ∧
    (before.2 ≠ after.2 →
      before.1 ≠ "" ∧ filteredOut keys before.1 = false ∧ before.1 ∈ reportedSoFar)

/-- A non-nil pointer to a record: the struct type is named `n` and has the
fields `fs`, and the pointee holds the field values `vs`. -/
def record (n : String) (fs : List (StructField × GoType)) (vs : List Value) : Iface :=
  some (.ptr (.struct n fs), .ptr (.struct vs))

/-! ## Example records, after the types of the test files -/

/-- The struct type `Anonym` reduced to one field. -/
def exAnonym : GoType :=
  .struct "Anonym" [(⟨"AnonymBool", false, [("json", "anonym_bool")]⟩, .bool)]

/-- The struct type `AnonymPtr` reduced to one field. -/
def exAnonymPtr : GoType :=
  .struct "AnonymPtr" [(⟨"AnonymPtrString", false, [("json", "anonym_ptr_string")]⟩, .string)]

/-- The leading fields of the struct type `test`. -/
def exPre : List (StructField × GoType) :=
  [(⟨"String", false, [("json", "string")]⟩, .string),
   (⟨"Bool", false, [("json", "bool,omitempty")]⟩, .bool),
   (⟨"Anonym", true, []⟩, exAnonym)]

/-- The embedded field `*AnonymPtr` of the struct type `test`. -/
def exPtrField : StructField := ⟨"AnonymPtr", true, []⟩

/-- The fields of the struct type `test`: two keyed fields, an embedded struct
and an embedded pointer to a struct. -/
def exFields : List (StructField × GoType) :=
  exPre ++ [(exPtrField, .ptr exAnonymPtr)]

/-- A current record of type `test`. -/
def exCurrent : List Value :=
  [.string "string_val", .bool true, .struct [.bool true],
   .ptr (.struct [.string "anonym_ptr_string_val"])]

/-- An update that changes `string`, `anonym_bool` and `anonym_ptr_string`. -/
def exUpdate : List Value :=
  [.string "test2", .bool true, .struct [.bool false], .ptr (.struct [.string "test3"])]

/-- The fields of a struct type with a keyed field `X` followed by an embedded
`int`: `struct { X int "json:x"; int }`. -/
def exBadFields : List (StructField × GoType) :=
  [(⟨"X", false, [("json", "x")]⟩, .int), (⟨"int", true, []⟩, .int)]

/-- The field values of a pointer to a record, the empty list for anything else. -/
def recordFields : Iface → List Value
  | some (_, .ptr (.struct vs)) => vs
  | _ => []

/-- The incoming record of the test case `string_same`: it repeats the current
value of the field `string`. -/
def exSame : List Value :=
  [.string "string_val", .bool false, .struct [.bool false], .nil]

/-- A second struct type, with one keyed field. -/
def exOtherFields : List (StructField × GoType) :=
  [(⟨"Y", false, [("json", "y")]⟩, .int)]

/-- The struct type `Nested` reduced to two fields. -/
def exNested : GoType :=
  .struct "Nested" [(⟨"String", false, [("json", "string,omitempty")]⟩, .string),
    (⟨"Bool", false, [("json", "bool")]⟩, .bool)]

/-- The field `String` of the struct type `test`. -/
def exStringField : List (StructField × GoType) :=
  [(⟨"String", false, [("json", "string")]⟩, .string)]

/-- The non-embedded field `Nested Nested` of the struct type `test`. -/
def exNestedField : StructField := ⟨"Nested", false, [("json", "nested")]⟩

/-- A traversed field seen from the other side: target and source exchanged. -/
def Leaf.swap (l : Leaf) : Leaf :=
  ⟨l.key, l.source, l.target⟩

/-- A record of type `test` whose embedded `*AnonymPtr` is nil. -/
def exAbsent : List Value :=
  [.string "string_val", .bool true, .struct [.bool true], .nil]

/-- An update of type `test` whose embedded `*AnonymPtr` is nil and that changes
`string` and `anonym_bool`. -/
def exAbsentUpdate : List Value :=
  [.string "test2", .bool true, .struct [.bool false], .nil]

mutual
/-- The field keys below an embedded field, from its type alone: those of the
fields of an embedded struct or pointer-to-struct type. -/
def typeKeysAnonym (tag : String) : GoType → List String
  | .struct _ fs => typeKeys tag fs
  | .ptr (.struct _ fs) => typeKeys tag fs
  | _ => []
/-- The sequence of field keys obtained by walking a struct type in field
declaration order, descending depth-first into each embedded record at the
position where it is declared. -/
def typeKeys (tag : String) : List (StructField × GoType) → List String
  | (ft, ty) :: rest =>
    (if ft.Anonymous then typeKeysAnonym tag ty else [fieldKey tag ft]) ++ typeKeys tag rest
  | [] => []
end

/-- The struct type `testWithTags` of `TestUseTag`. -/
def exTagFields : List (StructField × GoType) :=
  [(⟨"String1", false, [("taga", "taga_string1"), ("tagb", "tagb_string1")]⟩, .string),
   (⟨"String2", false, [("taga", "taga_string2")]⟩, .string),
   (⟨"String3", false, [("tagb", "tagb_string3")]⟩, .string)]

mutual
/-- The embedded pointer fields met below an embedded field: the field itself
when its type is a pointer, followed by those met in its record when the walk
descends into it (the record is present on both sides). -/
def embeddedPointersAnonym : GoType → Value → Value → List (Value × Value)
  | .struct _ fs, .struct tfs, .struct sfs => embeddedPointers fs tfs sfs
  | .ptr (.struct _ fs), .ptr (.struct tfs), .ptr (.struct sfs) =>
    (.ptr (.struct tfs), .ptr (.struct sfs)) :: embeddedPointers fs tfs sfs
  | .ptr _, tv, sv => [(tv, sv)]
  | _, _, _ => []
/-- The target and source values of the embedded pointer fields that a walk of
the record pair meets, in declaration order, descending into the embedded
records that are present on both sides. -/
def embeddedPointers : List (StructField × GoType) → List Value → List Value →
    List (Value × Value)
  | (ft, ty) :: rest, tv :: tvs, sv :: svs =>
    (if ft.Anonymous then embeddedPointersAnonym ty tv sv else [])
      ++ embeddedPointers rest tvs svs
  | _, _, _ => []
end

/-- A non-embedded field whose tag value starts with a comma:
`Extra string "json:,omitempty"`. -/
def exCommaField : StructField := ⟨"Extra", false, [("json", ",omitempty")]⟩

/-- An embedded struct field that carries a tag of its own:
`Anonym "json:anon"`. -/
def exTaggedAnonym : StructField := ⟨"Anonym", true, [("json", "anon")]⟩

mutual
/-- Whether the record below an embedded field is present at every level: the
field's type is a struct or a pointer to a struct, a pointer is non-nil, and the
same holds for the embedded fields of the record. -/
def fullyPresentAnonym : GoType → Value → Bool
  | .struct _ fs, .struct vs => fullyPresent fs vs
  | .ptr (.struct _ fs), .ptr (.struct vs) => fullyPresent fs vs
  | _, _ => false
/-- Whether every embedded sub-record of a record is present, at every level of
embedding. -/
def fullyPresent : List (StructField × GoType) → List Value → Bool
  | [], [] => true
  | (ft, ty) :: rest, v :: vs =>
    (if ft.Anonymous then fullyPresentAnonym ty v else true) && fullyPresent rest vs
  | _, _ => false
end

/-- A struct type with two levels of embedded pointers:
`String`, `*AnonymPtr { AnonymPtrString; *AnonymPtr2 { AnonymPtr2String } }`. -/
def exDeepFields : List (StructField × GoType) :=
  [(⟨"String", false, [("json", "string")]⟩, .string),
   (⟨"AnonymPtr", true, []⟩, .ptr (.struct "AnonymPtr"
     [(⟨"AnonymPtrString", false, [("json", "anonym_ptr_string")]⟩, .string),
      (⟨"AnonymPtr2", true, []⟩, .ptr (.struct "AnonymPtr2"
        [(⟨"AnonymPtr2String", false, [("json", "anonym_ptr2_string")]⟩, .string)]))]))]

/-- A record of the type with two levels of embedded pointers, all present. -/
def exDeepCurrent : List Value :=
  [.string "string_val",
   .ptr (.struct [.string "anonym_ptr_string_val",
     .ptr (.struct [.string "anonym_ptr_string_val"])])]

/-- The same record with the deepest field changed. -/
def exDeepUpdate : List Value :=
  [.string "string_val",
   .ptr (.struct [.string "anonym_ptr_string_val", .ptr (.struct [.string "test2"])])]

mutual
/-- Whether a value holds a `NaN` or a non-nil func, at any depth. -/
def holdsNaNOrFunc : Value → Bool
  | .float64 f => decide (f = .NaN)
  | .func _ => true
  | .ptr v => holdsNaNOrFunc v
  | .struct fs => holdsNaNOrFuncFields fs
  | _ => false
/-- Whether one of the field values holds a `NaN` or a non-nil func. -/
def holdsNaNOrFuncFields : List Value → Bool
  | [] => false
  | v :: vs => holdsNaNOrFunc v || holdsNaNOrFuncFields vs
end

/-- The relation between a traversed field before and after a `Merge` traversal
that ended normally: the key and update's value are the same, and dest holds
update's value when the field was reported and its old value otherwise. -/
def Leaf.written (keys : KeyMap) (before after : Leaf) : Prop :=
  after.key = before.key ∧ after.source = before.source ∧
    after.target = if before.reported keys then before.source else before.target

/-- The fields of `type F struct { V float64 "json:v" }`. -/
def exFloatFields : List (StructField × GoType) :=
  [(⟨"V", false, [("json", "v")]⟩, .float64)]

/-- The record `F{1}`. -/
def exFloatCurrent : List Value :=
  [.float64 (.num 1)]

/-- The record `F{math.NaN()}`. -/
def exFloatUpdate : List Value :=
  [.float64 .NaN]

/-! ## Records on a heap

The definitions above take two records that share nothing and whose fields are
all exported.  The definitions of this section drop both assumptions: pointers
are addresses of heap cells, so that dest and update may share a referent and a
`Set` on the target is visible through every pointer to the written cell, and
`Interface` panics on an unexported field. -/

/-- Go values with pointers as addresses: `ptr a` is a non-nil pointer to the
heap cell `a`; `nil` is the nil pointer or the nil func and `func id` a non-nil
func value. -/
inductive HValue where
  | bool (b : Bool)
  | int (n : Int)
  | string (s : String)
  | nil
  | ptr (addr : Nat)
  | struct (fields : List HValue)
  | float64 (f : Float64)
  | func (id : Nat)
deriving Repr

/-- The heap: the cell at address `a` holds the value `h[a]`. -/
abbrev Heap := List HValue

/-- An addressable `reflect.Value`: the heap cell it lies in and the field
indices that lead from the cell's value down to it. -/
structure Loc where
  addr : Nat
  path : List Nat
deriving DecidableEq, Repr

/-- The method `Field` on an addressable struct value. -/
def Loc.Field (l : Loc) (i : Nat) : Loc :=
  ⟨l.addr, l.path ++ [i]⟩

/-- The part of a value reached by a path of field indices. -/
def HValue.sub : HValue → List Nat → Option HValue
  | v, [] => some v
  | .struct fs, i :: p =>
    match fs[i]? with
    | some f => f.sub p
    | none => none
  | _, _ :: _ => none

/-- The value with the part at a path of field indices replaced. -/
def HValue.update : HValue → List Nat → HValue → HValue
  | _, [], new => new
  | .struct fs, i :: p, new =>
    match fs[i]? with
    | some f => .struct (fs.set i (f.update p new))
    | none => .struct fs
  | v, _ :: _, _ => v

/-- The value currently held at a location. -/
def load (h : Heap) (l : Loc) : Option HValue :=
  match h[l.addr]? with
  | some c => c.sub l.path
  | none => none

/-- The heap after `Set` on a location. -/
def store (h : Heap) (l : Loc) (v : HValue) : Heap :=
  match h[l.addr]? with
  | some c => h.set l.addr (c.update l.path v)
  | none => h

mutual
/-- The zero value of a type, with pointers as addresses. -/
def zeroHValue : GoType → HValue
  | .bool => .bool false
  | .int => .int 0
  | .string => .string ""
  | .ptr _ => .nil
  | .struct _ fs => .struct (zeroHFields fs)
  | .float64 => .float64 (.num 0)
  | .func => .nil
/-- The zero values of the fields of a struct type. -/
def zeroHFields : List (StructField × GoType) → List HValue
  | [] => []
  | (_, t) :: rest => zeroHValue t :: zeroHFields rest
end

mutual
/-- The comparison `reflect.DeepEqual` on two values of static type `ty` that
live on the heap `h`: two pointers are deeply equal when they are the same
pointer or both are non-nil and their referents are deeply equal, two func
values only when both are nil. -/
def deepEqualOnHeap (h : Heap) : GoType → HValue → HValue → Bool
  | .bool, .bool a, .bool b => a == b
  | .int, .int a, .int b => a == b
  | .string, .string a, .string b => a == b
  | .float64, .float64 a, .float64 b => Float64.eq a b
  | .func, .nil, .nil => true
  | .ptr _, .nil, .nil => true
  | .ptr e, .ptr a, .ptr b =>
    a == b ||
      match h[a]?, h[b]? with
      | some x, some y => deepEqualOnHeap h e x y
      | _, _ => false
  | .struct _ fs, .struct xs, .struct ys => deepEqualFieldsOnHeap h fs xs ys
  | _, _, _ => false
/-- Field-wise `deepEqualOnHeap`. -/
def deepEqualFieldsOnHeap (h : Heap) :
    List (StructField × GoType) → List HValue → List HValue → Bool
  | [], [], [] => true
  | (_, t) :: fs, x :: xs, y :: ys =>
    deepEqualOnHeap h t x y && deepEqualFieldsOnHeap h fs xs ys
  | _, _, _ => false
end

/-- The method `IsExported` of `reflect.StructField`: the field name starts with
an upper-case letter. -/
def StructField.IsExported (ft : StructField) : Bool :=
  match ft.Name.data with
  | c :: _ => c.isUpper
  | [] => false

/-- The panic of `reflect.Value.Interface` on an unexported field. -/
def panicInterface : String :=
  "reflect.Value.Interface: cannot return value obtained from unexported field or method"

/-- Kind of `v.Elem()` for the pointer-kinded value of static type `ty` at
location `l`. -/
def elemKindAt (h : Heap) (ty : GoType) (l : Loc) : Kind :=
  match ty, load h l with
  | .ptr e, some (.ptr _) => e.Kind
  | _, _ => .Invalid

/-- The method `Elem` on the pointer-kinded value at location `l`: the location
of the referent.  For a value that is no non-nil pointer the result is a
location outside the heap. -/
def elemAt (h : Heap) (l : Loc) : Loc :=
  match load h l with
  | some (.ptr a) => ⟨a, []⟩
  | _ => ⟨h.length, []⟩

/-- Whether the pointer at a location is nil. -/
def isNilAt (h : Heap) (l : Loc) : Bool :=
  match load h l with
  | some .nil => true
  | _ => false

/-- The state after a `processStructs` call on the heap: the heap, the contents
of `*processedKeys`, and how the call ended. -/
structure HeapWalk where
  heap : Heap
  processedKeys : List String
  exit : Exit
deriving Repr

mutual
/-- The body of the `if ft.Anonymous` branch of `processStructs` (lines 83 to
105 of the source) for an embedded field of static type `ty`, with `destAVal`
and `upAVal` given by their locations. -/
def processAnonymOnHeap (tag : String) (keys : KeyMap) (merge : Bool) :
    GoType → Loc → Loc → Heap → List String → HeapWalk
  | ty, destAVal, upAVal, h, processedKeys =>
    if ty.Kind = .Struct then
      match ty with
      | .struct _ fs =>
        processStructsOnHeap tag keys merge fs destAVal upAVal 0 h processedKeys
      | _ => ⟨h, processedKeys, .panic "reflect: value does not fit its type"⟩
    else if ty.Kind = .Ptr ∧ elemKindAt h ty destAVal = .Struct then
      if isNilAt h upAVal then
        ⟨h, processedKeys, .ok⟩
      else
        let h1 : Heap :=
          if isNilAt h destAVal then
            match ty with
            | .ptr e => store (h ++ [zeroHValue e]) destAVal (.ptr h.length)
            | _ => h
          else h
        match ty with
        | .ptr (.struct _ fs) =>
          processStructsOnHeap tag keys merge fs (elemAt h1 destAVal) (elemAt h1 upAVal) 0 h1
            processedKeys
        | _ => ⟨h1, processedKeys, .panic "reflect: value does not fit its type"⟩
    else
      ⟨h, processedKeys, .error errAnonym⟩
termination_by structural ty => ty
/-- The function `processStructs` of the source on the heap: `targetV` and
`sourceV` are the locations of the two structs, the field list holds the fields
from index `i` on, and the `for` loop is the recursion over it.  The filter test
(lines 115 to 119) comes before `Interface` is called on the two fields (line
121), which panics when the field is unexported. -/
def processStructsOnHeap (tag : String) (keys : KeyMap) (merge : Bool) :
    List (StructField × GoType) → Loc → Loc → Nat → Heap → List String → HeapWalk
  | [], _, _, _, h, processedKeys => ⟨h, processedKeys, .ok⟩
  | (ft, ty) :: rest, targetV, sourceV, i, h, processedKeys =>
    let step : HeapWalk :=
      if ft.Anonymous then
        processAnonymOnHeap tag keys merge ty (targetV.Field i) (sourceV.Field i) h
          processedKeys
      else
        let tagVal := splitFirst (StructTagGet ft.Tag tag)
        if tagVal = "" then
          ⟨h, processedKeys, .ok⟩
        else if filteredOut keys tagVal then
          ⟨h, processedKeys, .ok⟩
        else if !ft.IsExported then
          ⟨h, processedKeys, .panic panicInterface⟩
        else
          match load h (targetV.Field i), load h (sourceV.Field i) with
          | some tv, some sv =>
            if deepEqualOnHeap h ty tv sv then
              ⟨h, processedKeys, .ok⟩
            else
              ⟨if merge then store h (targetV.Field i) sv else h,
                processedKeys ++ [tagVal], .ok⟩
          | _, _ => ⟨h, processedKeys, .panic "reflect: Field index out of range"⟩
    match step.exit with
    | .ok =>
      processStructsOnHeap tag keys merge rest targetV sourceV (i + 1) step.heap
        step.processedKeys
    | _ => step
termination_by structural fs => fs
end

/-- What a call of `Diff` or `Merge` on two records on the heap leaves behind:
the heap, the returned key slice and how the call ended. -/
structure HeapCall where
  heap : Heap
  keys : Option (List String)
  exit : Exit
deriving Repr

/-- The function `process` of the source for two arguments that pass its
validation: `target` and `source` are the addresses of two records of the struct
type with the fields `fs`, both passed as non-nil pointers. -/
def processOnHeap (fs : List (StructField × GoType)) (h : Heap) (target source : Nat)
    (keys : KeyMap) (merge : Bool) (opts : List Opt) : HeapCall :=
  let o : options := opts.foldl (fun o opt => opt o) { tag := "json" }
  let w := processStructsOnHeap o.tag keys merge fs ⟨target, []⟩ ⟨source, []⟩ 0 h []
  match w.exit with
  | .ok => ⟨w.heap, some w.processedKeys, .ok⟩
  | e => ⟨w.heap, none, e⟩

/-- The function `Diff` of the source on two records on the heap. -/
def DiffOnHeap (fs : List (StructField × GoType)) (h : Heap) (first second : Nat)
    (keys : KeyMap) (opts : List Opt) : HeapCall :=
  processOnHeap fs h first second keys false opts

/-- The function `Merge` of the source on two records on the heap. -/
def MergeOnHeap (fs : List (StructField × GoType)) (h : Heap) (dest update : Nat)
    (keys : KeyMap) (opts : List Opt) : HeapCall :=
  processOnHeap fs h dest update keys true opts

/-- The struct type `A` with one keyed field `X int "json:x"`. -/
def exA : GoType :=
  .struct "A" [(⟨"X", false, [("json", "x")]⟩, .int)]

/-- The fields of `type T struct { *A; P *A "json:p" }`. -/
def exSharedFields : List (StructField × GoType) :=
  [(⟨"A", true, []⟩, .ptr exA), (⟨"P", false, [("json", "p")]⟩, .ptr exA)]

/-- A heap with dest `T{&a1, &a3}` at address 0 and update `T{&a2, &a1}` at
address 1, where `a1 = A{1}`, `a2 = A{2}` and `a3 = A{2}` lie at the addresses
2, 3 and 4: the field `P` of update points to the record embedded in dest. -/
def exSharedHeap : Heap :=
  [.struct [.ptr 2, .ptr 4], .struct [.ptr 3, .ptr 2],
   .struct [.int 1], .struct [.int 2], .struct [.int 2]]

/-- The fields of `type P struct { x int "json:x" }`, whose one field is
unexported. -/
def exUnexportedFields : List (StructField × GoType) :=
  [(⟨"x", false, [("json", "x")]⟩, .int)]

/-- A heap with the records `P{1}` at address 0 and `P{2}` at address 1. -/
def exUnexportedHeap : Heap :=
  [.struct [.int 1], .struct [.int 2]]

/-- One iteration of the loop of `processStructsOnHeap`, for the field
`(ft, ty)` at index `i`. -/
def fieldStepOnHeap (tag : String) (keys : KeyMap) (merge : Bool) (ft : StructField)
    (ty : GoType) (targetV sourceV : Loc) (i : Nat) (h : Heap) (processedKeys : List String) :
    HeapWalk :=
  if ft.Anonymous then
    processAnonymOnHeap tag keys merge ty (targetV.Field i) (sourceV.Field i) h
      processedKeys
  else
    let tagVal := splitFirst (StructTagGet ft.Tag tag)
    if tagVal = "" then
      ⟨h, processedKeys, .ok⟩
    else if filteredOut keys tagVal then
      ⟨h, processedKeys, .ok⟩
    else if !ft.IsExported then
      ⟨h, processedKeys, .panic panicInterface⟩
    else
      match load h (targetV.Field i), load h (sourceV.Field i) with
      | some tv, some sv =>
        if deepEqualOnHeap h ty tv sv then
          ⟨h, processedKeys, .ok⟩
        else
          ⟨if merge then store h (targetV.Field i) sv else h,
            processedKeys ++ [tagVal], .ok⟩
      | _, _ => ⟨h, processedKeys, .panic "reflect: Field index out of range"⟩

/-- Whether a call ended with a panic. -/
def Exit.isPanic : Exit → Bool
  | .panic _ => true
  | _ => false

/-- The records `exCurrent` (address 0) and `exUpdate` (address 1) of type
`test` on a heap, their embedded `*AnonymPtr` referents at the addresses 2 and
3. -/
def exHeap : Heap :=
  [.struct [.string "string_val", .bool true, .struct [.bool true], .ptr 2],
   .struct [.string "test2", .bool true, .struct [.bool false], .ptr 3],
   .struct [.string "anonym_ptr_string_val"],
   .struct [.string "test3"]]

/-! ## Locations read and written on the heap -/

/-- Two locations overlap when they lie in one heap cell and the path of one
leads through the other: a write to one is then seen by a read of the other. -/
def Loc.overlaps (a b : Loc) : Bool :=
  decide (a.addr = b.addr) && (decide (a.path <+: b.path) || decide (b.path <+: a.path))

mutual
/-- The addresses of the heap cells that `reflect.DeepEqual` may visit from a
value of static type `ty`: the referents of its pointers, at any depth. -/
def reach (h : Heap) : GoType → HValue → List Nat
  | .ptr e, .ptr a =>
    a :: (match h[a]? with
      | some x => reach h e x
      | none => [])
  | .struct _ fs, .struct xs => reachFields h fs xs
  | _, _ => []
/-- The cells that `reflect.DeepEqual` may visit from the fields of a struct. -/
def reachFields (h : Heap) : List (StructField × GoType) → List HValue → List Nat
  | (_, t) :: fs, x :: xs => reach h t x ++ reachFields h fs xs
  | _, _ => []
end

/-- The whole cells a comparison of the non-embedded field of type `ty` at
location `l` may read besides the field itself. -/
def reachAt (h : Heap) (ty : GoType) (l : Loc) : List Loc :=
  match load h l with
  | some v => (reach h ty v).map (fun c => ⟨c, []⟩)
  | none => []

mutual
/-- The locations the embedded-field branch may read. -/
def readLocsAnonym (h : Heap) : GoType → Loc → Loc → List Loc
  | .struct _ fs, d, u => readLocs h fs d u 0
  | .ptr (.struct _ fs), d, u => d :: u :: readLocs h fs (elemAt h d) (elemAt h u) 0
  | _, d, u => [d, u]
/-- The locations a traversal of the fields from index `i` on may read: the
non-embedded fields of the two structs with the cells their pointers lead to,
the embedded pointers, and what the traversal of the embedded records reads. -/
def readLocs (h : Heap) : List (StructField × GoType) → Loc → Loc → Nat → List Loc
  | [], _, _, _ => []
  | (ft, ty) :: rest, T, S, i =>
    (if ft.Anonymous then readLocsAnonym h ty (T.Field i) (S.Field i)
      else T.Field i :: S.Field i :: (reachAt h ty (T.Field i) ++ reachAt h ty (S.Field i)))
      ++ readLocs h rest T S (i + 1)
end

mutual
/-- The locations the embedded-field branch may assign to. -/
def writeLocsAnonym (h : Heap) : GoType → Loc → List Loc
  | .struct _ fs, d => writeLocs h fs d 0
  | .ptr (.struct _ fs), d => writeLocs h fs (elemAt h d) 0
  | _, _ => []
/-- The locations a merging traversal of the fields from index `i` on may assign
to: the non-embedded fields of the target struct and of its embedded records. -/
def writeLocs (h : Heap) : List (StructField × GoType) → Loc → Nat → List Loc
  | [], _, _ => []
  | (ft, ty) :: rest, T, i =>
    (if ft.Anonymous then writeLocsAnonym h ty (T.Field i) else [T.Field i])
      ++ writeLocs h rest T (i + 1)
end

mutual
/-- The condition `separate` for the records of an embedded field. -/
def separateAnonym (h : Heap) : GoType → Loc → Loc → Bool
  | .struct _ fs, d, u => separate h fs d u 0
  | .ptr (.struct _ fs), d, u => separate h fs (elemAt h d) (elemAt h u) 0
  | _, _, _ => true
/-- No location that the traversal may assign to at one field overlaps a
location that it may read at a later field: nothing `Merge` writes is shared
with what it has yet to read. -/
def separate (h : Heap) : List (StructField × GoType) → Loc → Loc → Nat → Bool
  | [], _, _, _ => true
  | (ft, ty) :: rest, T, S, i =>
    (if ft.Anonymous then separateAnonym h ty (T.Field i) (S.Field i) else true) &&
      ((if ft.Anonymous then writeLocsAnonym h ty (T.Field i) else [T.Field i]).all
        (fun w => (readLocs h rest T S (i + 1)).all (fun r => !w.overlaps r))) &&
      separate h rest T S (i + 1)
end

/-- The locations one iteration of the loop may read. -/
def stepReadLocs (h : Heap) (ft : StructField) (ty : GoType) (T S : Loc) (i : Nat) : List Loc :=
  if ft.Anonymous then readLocsAnonym h ty (T.Field i) (S.Field i)
  else T.Field i :: S.Field i :: (reachAt h ty (T.Field i) ++ reachAt h ty (S.Field i))

/-- The locations one iteration of the loop may assign to. -/
def stepWriteLocs (h : Heap) (ft : StructField) (ty : GoType) (T : Loc) (i : Nat) : List Loc :=
  if ft.Anonymous then writeLocsAnonym h ty (T.Field i) else [T.Field i]

/-- Two heaps on which the comparing traversal of the fields from index `i` on
reads the same: it may read and assign to the same locations, the condition
`separate` has the same value, and `Diff` collects the same keys and ends the
same way. -/
def sameReading (h h2 : Heap) (fs : List (StructField × GoType)) (T S : Loc) (i : Nat) :
    Prop :=
  readLocs h2 fs T S i = readLocs h fs T S i ∧
  writeLocs h2 fs T i = writeLocs h fs T i ∧
  separate h2 fs T S i = separate h fs T S i ∧
  ∀ (tag : String) (keys : KeyMap) (pk : List String),
    (processStructsOnHeap tag keys false fs T S i h2 pk).processedKeys =
      (processStructsOnHeap tag keys false fs T S i h pk).processedKeys ∧
    (processStructsOnHeap tag keys false fs T S i h2 pk).exit =
      (processStructsOnHeap tag keys false fs T S i h pk).exit

/-- The same for one iteration of the loop. -/
def sameReadingStep (h h2 : Heap) (ft : StructField) (ty : GoType) (T S : Loc) (i : Nat) :
    Prop :=
  stepReadLocs h2 ft ty T S i = stepReadLocs h ft ty T S i ∧
  stepWriteLocs h2 ft ty T i = stepWriteLocs h ft ty T i ∧
  (if ft.Anonymous then separateAnonym h2 ty (T.Field i) (S.Field i) else true) =
    (if ft.Anonymous then separateAnonym h ty (T.Field i) (S.Field i) else true) ∧
  ∀ (tag : String) (keys : KeyMap) (pk : List String),
    (fieldStepOnHeap tag keys false ft ty T S i h2 pk).processedKeys =
      (fieldStepOnHeap tag keys false ft ty T S i h pk).processedKeys ∧
    (fieldStepOnHeap tag keys false ft ty T S i h2 pk).exit =
      (fieldStepOnHeap tag keys false ft ty T S i h pk).exit

/-- What a merging traversal of the fields from index `i` on, started on the
heap `h`, has in common with the comparing traversal: the collected keys and the
way it ends; and what it leaves of the heap: its length, and every location that
overlaps none of the locations it may assign to. -/
def mergesLikeDiff (tag : String) (keys : KeyMap) (fs : List (StructField × GoType))
    (T S : Loc) (i : Nat) (h : Heap) (pk : List String) : Prop :=
  (processStructsOnHeap tag keys true fs T S i h pk).processedKeys =
    (processStructsOnHeap tag keys false fs T S i h pk).processedKeys ∧
  (processStructsOnHeap tag keys true fs T S i h pk).exit =
    (processStructsOnHeap tag keys false fs T S i h pk).exit ∧
  (processStructsOnHeap tag keys true fs T S i h pk).heap.length = h.length ∧
  ∀ l : Loc, (∀ w ∈ writeLocs h fs T i, w.overlaps l = false) →
    load (processStructsOnHeap tag keys true fs T S i h pk).heap l = load h l

/-! ## Basic facts -/

/-- Induction over the field list of a struct type, with the induction
hypothesis available for the field lists of embedded struct and
pointer-to-struct fields. -/
theorem fields_induction {P : List (StructField × GoType) → Prop}
    (hnil : P [])
    (hcons : ∀ (ft : StructField) (ty : GoType) (rest : List (StructField × GoType)),
      (∀ n fs, ty = .struct n fs → P fs) → (∀ n fs, ty = .ptr (.struct n fs) → P fs) →
      P rest → P ((ft, ty) :: rest)) :
    ∀ fs, P fs := by
  intro fs
  refine @GoType.rec_1
    (fun ty => (∀ n fs, ty = .struct n fs → P fs) ∧ ∀ n fs, ty = .ptr (.struct n fs) → P fs)
    P
    (fun p => (∀ n fs, p.2 = .struct n fs → P fs) ∧ ∀ n fs, p.2 = .ptr (.struct n fs) → P fs)
    ?_ ?_ ?_ ?_ ?_ ?_ ?_ ?_ ?_ ?_ fs
  · exact ⟨fun _ _ h => (nomatch h), fun _ _ h => nomatch h⟩
  · exact ⟨fun _ _ h => (nomatch h), fun _ _ h => nomatch h⟩
  · exact ⟨fun _ _ h => (nomatch h), fun _ _ h => nomatch h⟩
  · intro elem ih
    refine ⟨fun _ _ h => (nomatch h), fun n fs h => ?_⟩
    cases h
    exact ih.1 n fs rfl
  · intro name fields ih
    refine ⟨fun n fs h => ?_, fun _ _ h => nomatch h⟩
    cases h
    exact ih
  · exact ⟨fun _ _ h => (nomatch h), fun _ _ h => nomatch h⟩
  · exact ⟨fun _ _ h => (nomatch h), fun _ _ h => nomatch h⟩
  · exact hnil
  · intro head tail ihh iht
    obtain ⟨ft, ty⟩ := head
    exact hcons ft ty tail ihh.1 ihh.2 iht
  · intro ft ty ih
    exact ih

theorem GoType.beq_refl (t : GoType) : GoType.beq t t = true := by
  refine @GoType.rec (fun t => GoType.beq t t = true) (fun fs => GoType.beqFields fs fs = true)
    (fun p => GoType.beq p.2 p.2 = true) ?_ ?_ ?_ ?_ ?_ ?_ ?_ ?_ ?_ ?_ t
  · simp [GoType.beq]
  · simp [GoType.beq]
  · simp [GoType.beq]
  · intro e ih; simpa [GoType.beq] using ih
  · intro n fs ih; simpa [GoType.beq] using ih
  · simp [GoType.beq]
  · simp [GoType.beq]
  · simp [GoType.beqFields]
  · intro head tail ihh iht
    obtain ⟨f, a⟩ := head
    simp [GoType.beqFields, iht]
    exact ihh
  · intro f a ih; exact ih

theorem elemKind_struct {ty : GoType} {v : Value} (h : elemKind ty v = .Struct) :
    ∃ n fs x, ty = .ptr (.struct n fs) ∧ v = .ptr x := by
  unfold elemKind at h
  split at h
  · rename_i e x
    cases e <;> simp [GoType.Kind] at h
    exact ⟨_, _, _, rfl, rfl⟩
  · simp at h

/-! ## Unfolding the traversal -/

theorem processStructs_nil (tag : String) (keys : KeyMap) (merge : Bool)
    (tvs svs : List Value) (pk : List String) :
    processStructs tag keys merge [] tvs svs pk = ⟨tvs, pk, .ok⟩ := by
  rw [processStructs]

theorem processStructs_cons (tag : String) (keys : KeyMap) (merge : Bool)
    (ft : StructField) (ty : GoType) (rest : List (StructField × GoType))
    (tv sv : Value) (tvs svs : List Value) (pk : List String) :
    processStructs tag keys merge ((ft, ty) :: rest) (tv :: tvs) (sv :: svs) pk =
      match fieldStep tag keys merge ft ty tv sv pk with
      | (v, ks, .ok) =>
        ⟨v :: (processStructs tag keys merge rest tvs svs ks).target,
          (processStructs tag keys merge rest tvs svs ks).processedKeys,
          (processStructs tag keys merge rest tvs svs ks).exit⟩
      | (v, ks, e) => ⟨v :: tvs, ks, e⟩ := by
  rw [processStructs]
  have hstep : fieldStep tag keys merge ft ty tv sv pk =
      (if ft.Anonymous then
        processAnonym tag keys merge ty tv sv pk
      else
        let tagVal := splitFirst (StructTagGet ft.Tag tag)
        if tagVal = "" then
          (tv, pk, .ok)
        else if filteredOut keys tagVal then
          (tv, pk, .ok)
        else if deepEqual tv sv then
          (tv, pk, .ok)
        else
          (if merge then sv else tv, pk ++ [tagVal], .ok)) := by
    unfold fieldStep Leaf.reported fieldKey
    by_cases ha : ft.Anonymous = true
    · simp [ha]
    · simp only [ha]
      by_cases h1 : splitFirst (StructTagGet ft.Tag tag) = ""
      · simp [h1]
      · by_cases h2 : filteredOut keys (splitFirst (StructTagGet ft.Tag tag)) = true
        · simp [h1, h2]
        · by_cases h3 : deepEqual tv sv = true
          · simp [h1, h2, h3]
          · simp [h1, h2, h3]
  simp only [← hstep]





theorem processAnonym_struct (tag : String) (keys : KeyMap) (merge : Bool) (n : String)
    (fs : List (StructField × GoType)) (tfs sfs : List Value) (pk : List String) :
    processAnonym tag keys merge (.struct n fs) (.struct tfs) (.struct sfs) pk =
      (.struct (processStructs tag keys merge fs tfs sfs pk).target,
        (processStructs tag keys merge fs tfs sfs pk).processedKeys,
        (processStructs tag keys merge fs tfs sfs pk).exit) := rfl

theorem processAnonym_ptr (tag : String) (keys : KeyMap) (merge : Bool) (n : String)
    (fs : List (StructField × GoType)) (tfs sfs : List Value) (pk : List String) :
    processAnonym tag keys merge (.ptr (.struct n fs)) (.ptr (.struct tfs))
        (.ptr (.struct sfs)) pk =
      (.ptr (.struct (processStructs tag keys merge fs tfs sfs pk).target),
        (processStructs tag keys merge fs tfs sfs pk).processedKeys,
        (processStructs tag keys merge fs tfs sfs pk).exit) := rfl

theorem processAnonym_skip (tag : String) (keys : KeyMap) (merge : Bool) (n : String)
    (fs : List (StructField × GoType)) (x : Value) (pk : List String) :
    processAnonym tag keys merge (.ptr (.struct n fs)) (.ptr x) .nil pk = (.ptr x, pk, .ok) := rfl

theorem processAnonym_nil_target (tag : String) (keys : KeyMap) (merge : Bool) (e : GoType)
    (sv : Value) (pk : List String) :
    processAnonym tag keys merge (.ptr e) .nil sv pk = (.nil, pk, .error errAnonym) := rfl


/-- The possible courses of the embedded-field branch. -/
theorem processAnonym_cases (tag : String) (keys : KeyMap) (merge : Bool)
    (ty : GoType) (tv sv : Value) (pk : List String) :
    (∃ n fs tfs sfs, ty = .struct n fs ∧ tv = .struct tfs ∧ sv = .struct sfs ∧
      processAnonym tag keys merge ty tv sv pk =
        (.struct (processStructs tag keys merge fs tfs sfs pk).target,
          (processStructs tag keys merge fs tfs sfs pk).processedKeys,
          (processStructs tag keys merge fs tfs sfs pk).exit)) ∨
    (∃ n fs tfs sfs, ty = .ptr (.struct n fs) ∧ tv = .ptr (.struct tfs) ∧
      sv = .ptr (.struct sfs) ∧
      processAnonym tag keys merge ty tv sv pk =
        (.ptr (.struct (processStructs tag keys merge fs tfs sfs pk).target),
          (processStructs tag keys merge fs tfs sfs pk).processedKeys,
          (processStructs tag keys merge fs tfs sfs pk).exit)) ∨
    (∃ n fs x, ty = .ptr (.struct n fs) ∧ tv = .ptr x ∧ sv = .nil ∧
      processAnonym tag keys merge ty tv sv pk = (tv, pk, .ok)) ∨
    (ty.Kind ≠ .Struct ∧ elemKind ty tv ≠ .Struct ∧
      processAnonym tag keys merge ty tv sv pk = (tv, pk, .error errAnonym)) ∨
    ((hasType tv ty && hasType sv ty) = false ∧
      ∃ m, processAnonym tag keys merge ty tv sv pk = (tv, pk, .panic m)) := by
  cases ty with
  | bool => exact Or.inr (Or.inr (Or.inr (Or.inl ⟨by decide, by simp [elemKind], rfl⟩)))
  | int => exact Or.inr (Or.inr (Or.inr (Or.inl ⟨by decide, by simp [elemKind], rfl⟩)))
  | string => exact Or.inr (Or.inr (Or.inr (Or.inl ⟨by decide, by simp [elemKind], rfl⟩)))
  | float64 => exact Or.inr (Or.inr (Or.inr (Or.inl ⟨by decide, by simp [elemKind], rfl⟩)))
  | func => exact Or.inr (Or.inr (Or.inr (Or.inl ⟨by decide, by simp [elemKind], rfl⟩)))
  | struct n fs =>
    cases tv <;> cases sv <;>
      first
      | exact Or.inl ⟨_, _, _, _, rfl, rfl, rfl, rfl⟩
      | exact Or.inr (Or.inr (Or.inr (Or.inr ⟨by simp [hasType], _, rfl⟩)))
  | ptr e =>
    cases tv with
    | ptr x =>
      cases e with
      | struct n fs =>
        cases sv with
        | nil => exact Or.inr (Or.inr (Or.inl ⟨_, _, _, rfl, rfl, rfl, rfl⟩))
        | ptr y =>
          cases x <;> cases y <;>
            first
            | exact Or.inr (Or.inl ⟨_, _, _, _, rfl, rfl, rfl, rfl⟩)
            | exact Or.inr (Or.inr (Or.inr (Or.inr ⟨by simp [hasType], _, rfl⟩)))
        | bool b => cases x <;> exact Or.inr (Or.inr (Or.inr (Or.inr ⟨by simp [hasType], _, rfl⟩)))
        | int b => cases x <;> exact Or.inr (Or.inr (Or.inr (Or.inr ⟨by simp [hasType], _, rfl⟩)))
        | string b => cases x <;> exact Or.inr (Or.inr (Or.inr (Or.inr ⟨by simp [hasType], _, rfl⟩)))
        | float64 b => cases x <;> exact Or.inr (Or.inr (Or.inr (Or.inr ⟨by simp [hasType], _, rfl⟩)))
        | func b => cases x <;> exact Or.inr (Or.inr (Or.inr (Or.inr ⟨by simp [hasType], _, rfl⟩)))
        | struct b => cases x <;> exact Or.inr (Or.inr (Or.inr (Or.inr ⟨by simp [hasType], _, rfl⟩)))
      | bool => exact Or.inr (Or.inr (Or.inr (Or.inl ⟨by decide, by simp [elemKind, GoType.Kind], rfl⟩)))
      | int => exact Or.inr (Or.inr (Or.inr (Or.inl ⟨by decide, by simp [elemKind, GoType.Kind], rfl⟩)))
      | string => exact Or.inr (Or.inr (Or.inr (Or.inl ⟨by decide, by simp [elemKind, GoType.Kind], rfl⟩)))
      | float64 => exact Or.inr (Or.inr (Or.inr (Or.inl ⟨by decide, by simp [elemKind, GoType.Kind], rfl⟩)))
      | func => exact Or.inr (Or.inr (Or.inr (Or.inl ⟨by decide, by simp [elemKind, GoType.Kind], rfl⟩)))
      | ptr e2 => exact Or.inr (Or.inr (Or.inr (Or.inl ⟨by simp [GoType.Kind], by simp [elemKind, GoType.Kind], rfl⟩)))
    | nil => exact Or.inr (Or.inr (Or.inr (Or.inl ⟨by simp [GoType.Kind], by simp [elemKind], rfl⟩)))
    | bool b => exact Or.inr (Or.inr (Or.inr (Or.inl ⟨by simp [GoType.Kind], by simp [elemKind], rfl⟩)))
    | int b => exact Or.inr (Or.inr (Or.inr (Or.inl ⟨by simp [GoType.Kind], by simp [elemKind], rfl⟩)))
    | string b => exact Or.inr (Or.inr (Or.inr (Or.inl ⟨by simp [GoType.Kind], by simp [elemKind], rfl⟩)))
    | float64 b => exact Or.inr (Or.inr (Or.inr (Or.inl ⟨by simp [GoType.Kind], by simp [elemKind], rfl⟩)))
    | func b => exact Or.inr (Or.inr (Or.inr (Or.inl ⟨by simp [GoType.Kind], by simp [elemKind], rfl⟩)))
    | struct b => exact Or.inr (Or.inr (Or.inr (Or.inl ⟨by simp [GoType.Kind], by simp [elemKind], rfl⟩)))

theorem processStructs_cons_eq (tag : String) (keys : KeyMap) (merge : Bool)
    (ft : StructField) (ty : GoType) (rest : List (StructField × GoType))
    (tv sv : Value) (tvs svs : List Value) (pk : List String) :
    processStructs tag keys merge ((ft, ty) :: rest) (tv :: tvs) (sv :: svs) pk =
      if (fieldStep tag keys merge ft ty tv sv pk).2.2 = .ok then
        ⟨(fieldStep tag keys merge ft ty tv sv pk).1 ::
            (processStructs tag keys merge rest tvs svs
              (fieldStep tag keys merge ft ty tv sv pk).2.1).target,
          (processStructs tag keys merge rest tvs svs
              (fieldStep tag keys merge ft ty tv sv pk).2.1).processedKeys,
          (processStructs tag keys merge rest tvs svs
              (fieldStep tag keys merge ft ty tv sv pk).2.1).exit⟩
      else
        ⟨(fieldStep tag keys merge ft ty tv sv pk).1 :: tvs,
          (fieldStep tag keys merge ft ty tv sv pk).2.1,
          (fieldStep tag keys merge ft ty tv sv pk).2.2⟩ := by
  rw [processStructs_cons]
  rcases fieldStep tag keys merge ft ty tv sv pk with ⟨v, ks, e⟩
  cases e <;> simp

theorem processStructs_short_target (tag : String) (keys : KeyMap) (merge : Bool)
    (f : StructField × GoType) (rest : List (StructField × GoType))
    (svs : List Value) (pk : List String) :
    processStructs tag keys merge (f :: rest) [] svs pk =
      ⟨[], pk, .panic "reflect: Field index out of range"⟩ := by
  rw [processStructs]
  intro _ _ _ _ _ _ _ h
  cases h

theorem processStructs_short_source (tag : String) (keys : KeyMap) (merge : Bool)
    (f : StructField × GoType) (rest : List (StructField × GoType))
    (tvs : List Value) (pk : List String) :
    processStructs tag keys merge (f :: rest) tvs [] pk =
      ⟨tvs, pk, .panic "reflect: Field index out of range"⟩ := by
  cases tvs with
  | nil =>
    rw [processStructs]
    intro _ _ _ _ _ _ _ h
    cases h
  | cons tv tvs =>
    rw [processStructs]
    intro _ _ _ _ _ _ _ _ h
    cases h

theorem fieldStep_anonym (tag : String) (keys : KeyMap) (merge : Bool) (ft : StructField)
    (ty : GoType) (tv sv : Value) (pk : List String) (h : ft.Anonymous = true) :
    fieldStep tag keys merge ft ty tv sv pk = processAnonym tag keys merge ty tv sv pk := by
  simp [fieldStep, h]

theorem fieldStep_plain (tag : String) (keys : KeyMap) (merge : Bool) (ft : StructField)
    (ty : GoType) (tv sv : Value) (pk : List String) (h : ft.Anonymous = false) :
    fieldStep tag keys merge ft ty tv sv pk =
      if (Leaf.mk (fieldKey tag ft) tv sv).reported keys then
        (if merge then sv else tv, pk ++ [fieldKey tag ft], .ok)
      else (tv, pk, .ok) := by
  simp [fieldStep, h]

/-! ## Diff never writes -/

theorem fieldStep_diff_target (tag : String) (keys : KeyMap) (ft : StructField) (ty : GoType)
    (tv sv : Value) (pk : List String)
    (ih1 : ∀ n fs, ty = .struct n fs → ∀ tvs svs pk,
      (processStructs tag keys false fs tvs svs pk).target = tvs)
    (ih2 : ∀ n fs, ty = .ptr (.struct n fs) → ∀ tvs svs pk,
      (processStructs tag keys false fs tvs svs pk).target = tvs) :
    (fieldStep tag keys false ft ty tv sv pk).1 = tv := by
  cases ha : ft.Anonymous with
  | false =>
    rw [fieldStep_plain _ _ _ _ _ _ _ _ ha]
    split <;> simp
  | true =>
    rw [fieldStep_anonym _ _ _ _ _ _ _ _ ha]
    rcases processAnonym_cases tag keys false ty tv sv pk with
      ⟨n, fs, tfs, sfs, rfl, rfl, rfl, h⟩ | ⟨n, fs, tfs, sfs, rfl, rfl, rfl, h⟩ |
      ⟨n, fs, x, rfl, rfl, rfl, h⟩ | ⟨_, _, h⟩ | ⟨_, m, h⟩
    · rw [h, ih1 n fs rfl]
    · rw [h, ih2 n fs rfl]
    · rw [h]
    · rw [h]
    · rw [h]

theorem processStructs_diff_target (tag : String) (keys : KeyMap)
    (fs : List (StructField × GoType)) :
    ∀ (tvs svs : List Value) (pk : List String),
      (processStructs tag keys false fs tvs svs pk).target = tvs := by
  induction fs using fields_induction with
  | hnil => intro tvs svs pk; rw [processStructs_nil]
  | hcons ft ty rest ih1 ih2 ih =>
    intro tvs svs pk
    cases tvs with
    | nil => rw [processStructs_short_target]
    | cons tv tvs =>
      cases svs with
      | nil => rw [processStructs_short_source]
      | cons sv svs =>
        rw [processStructs_cons_eq]
        have hs := fieldStep_diff_target tag keys ft ty tv sv pk ih1 ih2
        split
        · simp [hs, ih]
        · simp [hs]

/-! ## The reported keys -/

theorem leaves_cons (tag : String) (ft : StructField) (ty : GoType)
    (rest : List (StructField × GoType)) (tv sv : Value) (tvs svs : List Value) :
    leaves tag ((ft, ty) :: rest) (tv :: tvs) (sv :: svs) =
      stepLeaves tag ft ty tv sv ++ leaves tag rest tvs svs := by
  rw [leaves]
  rfl

theorem leavesAnonym_skip (tag : String) (n : String) (fs : List (StructField × GoType))
    (x : Value) : leavesAnonym tag (.ptr (.struct n fs)) (.ptr x) .nil = [] := by
  cases x <;> rfl

theorem reportedKeys_append (keys : KeyMap) (a b : List Leaf) :
    reportedKeys keys (a ++ b) = reportedKeys keys a ++ reportedKeys keys b := by
  simp [reportedKeys]

theorem fieldStep_keys (tag : String) (keys : KeyMap) (merge : Bool) (ft : StructField)
    (ty : GoType) (tv sv : Value) (pk : List String)
    (ih1 : ∀ n fs, ty = .struct n fs → ∀ tvs svs pk,
      (processStructs tag keys merge fs tvs svs pk).exit = .ok →
      (processStructs tag keys merge fs tvs svs pk).processedKeys =
        pk ++ reportedKeys keys (leaves tag fs tvs svs))
    (ih2 : ∀ n fs, ty = .ptr (.struct n fs) → ∀ tvs svs pk,
      (processStructs tag keys merge fs tvs svs pk).exit = .ok →
      (processStructs tag keys merge fs tvs svs pk).processedKeys =
        pk ++ reportedKeys keys (leaves tag fs tvs svs))
    (hok : (fieldStep tag keys merge ft ty tv sv pk).2.2 = .ok) :
    (fieldStep tag keys merge ft ty tv sv pk).2.1 =
      pk ++ reportedKeys keys (stepLeaves tag ft ty tv sv) := by
  cases ha : ft.Anonymous with
  | false =>
    rw [fieldStep_plain _ _ _ _ _ _ _ _ ha]
    by_cases hr : (Leaf.mk (fieldKey tag ft) tv sv).reported keys = true
    · simp [stepLeaves, ha, reportedKeys, hr]
    · simp [stepLeaves, ha, reportedKeys, hr]
  | true =>
    rw [fieldStep_anonym _ _ _ _ _ _ _ _ ha] at hok ⊢
    simp only [stepLeaves, ha, if_true]
    rcases processAnonym_cases tag keys merge ty tv sv pk with
      ⟨n, fs, tfs, sfs, rfl, rfl, rfl, h⟩ | ⟨n, fs, tfs, sfs, rfl, rfl, rfl, h⟩ |
      ⟨n, fs, x, rfl, rfl, rfl, h⟩ | ⟨_, _, h⟩ | ⟨_, m, h⟩
    · rw [h] at hok ⊢
      exact ih1 n fs rfl tfs sfs pk hok
    · rw [h] at hok ⊢
      exact ih2 n fs rfl tfs sfs pk hok
    · rw [h, leavesAnonym_skip]
      simp [reportedKeys]
    · rw [h] at hok
      cases hok
    · rw [h] at hok
      cases hok

/-- On a successful traversal the accumulated key list is the incoming list
followed by the keys of the reported fields, in traversal order. -/
theorem processStructs_keys (tag : String) (keys : KeyMap) (merge : Bool)
    (fs : List (StructField × GoType)) :
    ∀ (tvs svs : List Value) (pk : List String),
      (processStructs tag keys merge fs tvs svs pk).exit = .ok →
      (processStructs tag keys merge fs tvs svs pk).processedKeys =
        pk ++ reportedKeys keys (leaves tag fs tvs svs) := by
  induction fs using fields_induction with
  | hnil =>
    intro tvs svs pk _
    rw [processStructs_nil]
    simp [leaves, reportedKeys]
  | hcons ft ty rest ih1 ih2 ih =>
    intro tvs svs pk hok
    cases tvs with
    | nil => rw [processStructs_short_target] at hok; cases hok
    | cons tv tvs =>
      cases svs with
      | nil => rw [processStructs_short_source] at hok; cases hok
      | cons sv svs =>
        rw [processStructs_cons_eq] at hok ⊢
        by_cases hs : (fieldStep tag keys merge ft ty tv sv pk).2.2 = .ok
        · rw [if_pos hs] at hok ⊢
          simp only at hok ⊢
          rw [ih _ _ _ hok, fieldStep_keys tag keys merge ft ty tv sv pk ih1 ih2 hs,
            leaves_cons, reportedKeys_append, List.append_assoc]
        · rw [if_neg hs] at hok
          exact absurd hok hs

/-! ## What Merge writes -/

theorem deepEqual_self (v : Value) : deepEqual v v = !holdsNaNOrFunc v := by
  refine @Value.rec (fun v => deepEqual v v = !holdsNaNOrFunc v)
    (fun vs => deepEqualFields vs vs = !holdsNaNOrFuncFields vs)
    ?_ ?_ ?_ ?_ ?_ ?_ ?_ ?_ ?_ ?_ v
  · intro b; simp [deepEqual, holdsNaNOrFunc]
  · intro n; simp [deepEqual, holdsNaNOrFunc]
  · intro s; simp [deepEqual, holdsNaNOrFunc]
  · simp [deepEqual, holdsNaNOrFunc]
  · intro v ih; simpa [deepEqual, holdsNaNOrFunc] using ih
  · intro fs ih; simpa [deepEqual, holdsNaNOrFunc] using ih
  · intro f; cases f <;> simp [deepEqual, holdsNaNOrFunc, Float64.eq]
  · intro f; simp [deepEqual, holdsNaNOrFunc]
  · simp [deepEqualFields, holdsNaNOrFuncFields]
  · intro a as iha ihas; simp [deepEqualFields, holdsNaNOrFuncFields, iha, ihas]

theorem written_of_mem_after {keys : KeyMap} {xs ys : List Leaf}
    (h : List.Forall₂ (Leaf.written keys) xs ys) :
    ∀ y ∈ ys, ∃ x ∈ xs, Leaf.written keys x y := by
  induction h with
  | nil => intro y hy; cases hy
  | cons hxy _ ih =>
    intro y hy
    rcases List.mem_cons.1 hy with rfl | hy
    · exact ⟨_, List.mem_cons_self _ _, hxy⟩
    · obtain ⟨x, hx, hw⟩ := ih y hy
      exact ⟨x, List.mem_cons_of_mem _ hx, hw⟩

theorem written_of_mem_before {keys : KeyMap} {xs ys : List Leaf}
    (h : List.Forall₂ (Leaf.written keys) xs ys) :
    ∀ x ∈ xs, ∃ y ∈ ys, Leaf.written keys x y := by
  induction h with
  | nil => intro x hx; cases hx
  | cons hxy _ ih =>
    intro x hx
    rcases List.mem_cons.1 hx with rfl | hx
    · exact ⟨_, List.mem_cons_self _ _, hxy⟩
    · obtain ⟨y, hy, hw⟩ := ih x hx
      exact ⟨y, List.mem_cons_of_mem _ hy, hw⟩

/-- A field that `Merge` has gone over is no longer reported, provided update's
value of it holds no `NaN` and no non-nil func when its key is non-empty and
passes the filter. -/
theorem written_not_reported {keys : KeyMap} {a b : Leaf} (h : Leaf.written keys a b)
    (hn : a.key ≠ "" → filteredOut keys a.key = false → holdsNaNOrFunc a.source = false) :
    b.reported keys = false := by
  obtain ⟨hk, hs, ht⟩ := h
  by_cases hr : a.reported keys = true
  · have hr2 := hr
    simp only [Leaf.reported, Bool.and_eq_true, bne_iff_ne, ne_eq, Bool.not_eq_true'] at hr2
    have hnan := hn hr2.1.1 (by simpa using hr2.1.2)
    rw [if_pos hr] at ht
    simp [Leaf.reported, hs, ht, deepEqual_self, hnan]
  · rw [if_neg hr] at ht
    have hab : b = a := by
      cases a; cases b; simp only at hk hs ht; subst hk hs ht; rfl
    rw [hab]
    simpa using hr

theorem fieldStep_written (tag : String) (keys : KeyMap) (ft : StructField)
    (ty : GoType) (tv sv : Value) (pk : List String)
    (ih1 : ∀ n fs, ty = .struct n fs → ∀ tvs svs pk,
      (processStructs tag keys true fs tvs svs pk).exit = .ok →
      List.Forall₂ (Leaf.written keys) (leaves tag fs tvs svs)
        (leaves tag fs (processStructs tag keys true fs tvs svs pk).target svs))
    (ih2 : ∀ n fs, ty = .ptr (.struct n fs) → ∀ tvs svs pk,
      (processStructs tag keys true fs tvs svs pk).exit = .ok →
      List.Forall₂ (Leaf.written keys) (leaves tag fs tvs svs)
        (leaves tag fs (processStructs tag keys true fs tvs svs pk).target svs))
    (hok : (fieldStep tag keys true ft ty tv sv pk).2.2 = .ok) :
    List.Forall₂ (Leaf.written keys) (stepLeaves tag ft ty tv sv)
      (stepLeaves tag ft ty (fieldStep tag keys true ft ty tv sv pk).1 sv) := by
  cases ha : ft.Anonymous with
  | false =>
    rw [fieldStep_plain _ _ _ _ _ _ _ _ ha]
    by_cases hr : (Leaf.mk (fieldKey tag ft) tv sv).reported keys = true
    · rw [if_pos hr]
      simp only [stepLeaves, ha]
      exact List.Forall₂.cons ⟨rfl, rfl, by simp [hr]⟩ List.Forall₂.nil
    · rw [if_neg hr]
      simp only [stepLeaves, ha]
      exact List.Forall₂.cons ⟨rfl, rfl, by simp [hr]⟩ List.Forall₂.nil
  | true =>
    rw [fieldStep_anonym _ _ _ _ _ _ _ _ ha] at hok ⊢
    simp only [stepLeaves, ha, if_true]
    rcases processAnonym_cases tag keys true ty tv sv pk with
      ⟨n, fs, tfs, sfs, rfl, rfl, rfl, h⟩ | ⟨n, fs, tfs, sfs, rfl, rfl, rfl, h⟩ |
      ⟨n, fs, x, rfl, rfl, rfl, h⟩ | ⟨_, _, h⟩ | ⟨_, m, h⟩
    · rw [h] at hok ⊢
      exact ih1 n fs rfl tfs sfs pk hok
    · rw [h] at hok ⊢
      exact ih2 n fs rfl tfs sfs pk hok
    · rw [h, leavesAnonym_skip]
      exact List.Forall₂.nil
    · rw [h] at hok
      cases hok
    · rw [h] at hok
      cases hok

/-- What a successful merging traversal does to the traversed fields: each keeps
its key, and holds update's value afterwards when it was reported and its old
value otherwise. -/
theorem processStructs_written (tag : String) (keys : KeyMap)
    (fs : List (StructField × GoType)) :
    ∀ (tvs svs : List Value) (pk : List String),
      (processStructs tag keys true fs tvs svs pk).exit = .ok →
      List.Forall₂ (Leaf.written keys) (leaves tag fs tvs svs)
        (leaves tag fs (processStructs tag keys true fs tvs svs pk).target svs) := by
  induction fs using fields_induction with
  | hnil =>
    intro tvs svs pk _
    simp [leaves]
  | hcons ft ty rest ih1 ih2 ih =>
    intro tvs svs pk hok
    cases tvs with
    | nil => rw [processStructs_short_target] at hok; cases hok
    | cons tv tvs =>
      cases svs with
      | nil => rw [processStructs_short_source] at hok; cases hok
      | cons sv svs =>
        rw [processStructs_cons_eq] at hok ⊢
        by_cases hs : (fieldStep tag keys true ft ty tv sv pk).2.2 = .ok
        · rw [if_pos hs] at hok ⊢
          simp only at hok ⊢
          rw [leaves_cons, leaves_cons]
          exact List.rel_append (fieldStep_written tag keys ft ty tv sv pk ih1 ih2 hs)
            (ih _ _ _ hok)
        · rw [if_neg hs] at hok
          exact absurd hok hs

theorem fieldStep_leafKeys (tag : String) (keys : KeyMap) (merge : Bool) (ft : StructField)
    (ty : GoType) (tv sv : Value) (pk : List String)
    (ih1 : ∀ n fs, ty = .struct n fs → ∀ tvs svs pk,
      (processStructs tag keys merge fs tvs svs pk).exit = .ok →
      (leaves tag fs (processStructs tag keys merge fs tvs svs pk).target svs).map
          (fun l => l.key) = (leaves tag fs tvs svs).map (fun l => l.key))
    (ih2 : ∀ n fs, ty = .ptr (.struct n fs) → ∀ tvs svs pk,
      (processStructs tag keys merge fs tvs svs pk).exit = .ok →
      (leaves tag fs (processStructs tag keys merge fs tvs svs pk).target svs).map
          (fun l => l.key) = (leaves tag fs tvs svs).map (fun l => l.key))
    (hok : (fieldStep tag keys merge ft ty tv sv pk).2.2 = .ok) :
    (stepLeaves tag ft ty (fieldStep tag keys merge ft ty tv sv pk).1 sv).map (fun l => l.key) =
      (stepLeaves tag ft ty tv sv).map (fun l => l.key) := by
  cases ha : ft.Anonymous with
  | false => simp [stepLeaves, ha]
  | true =>
    rw [fieldStep_anonym _ _ _ _ _ _ _ _ ha] at hok ⊢
    simp only [stepLeaves, ha, if_true]
    rcases processAnonym_cases tag keys merge ty tv sv pk with
      ⟨n, fs, tfs, sfs, rfl, rfl, rfl, h⟩ | ⟨n, fs, tfs, sfs, rfl, rfl, rfl, h⟩ |
      ⟨n, fs, x, rfl, rfl, rfl, h⟩ | ⟨_, _, h⟩ | ⟨_, m, h⟩
    · rw [h] at hok ⊢
      exact ih1 n fs rfl tfs sfs pk hok
    · rw [h] at hok ⊢
      exact ih2 n fs rfl tfs sfs pk hok
    · rw [h]
    · rw [h] at hok
      cases hok
    · rw [h] at hok
      cases hok

/-- A successful traversal keeps the sequence of traversed field keys. -/
theorem processStructs_leafKeys (tag : String) (keys : KeyMap) (merge : Bool)
    (fs : List (StructField × GoType)) :
    ∀ (tvs svs : List Value) (pk : List String),
      (processStructs tag keys merge fs tvs svs pk).exit = .ok →
      (leaves tag fs (processStructs tag keys merge fs tvs svs pk).target svs).map
          (fun l => l.key) = (leaves tag fs tvs svs).map (fun l => l.key) := by
  induction fs using fields_induction with
  | hnil =>
    intro tvs svs pk _
    simp [leaves]
  | hcons ft ty rest ih1 ih2 ih =>
    intro tvs svs pk hok
    cases tvs with
    | nil => rw [processStructs_short_target] at hok; cases hok
    | cons tv tvs =>
      cases svs with
      | nil => rw [processStructs_short_source] at hok; cases hok
      | cons sv svs =>
        rw [processStructs_cons_eq] at hok ⊢
        by_cases hs : (fieldStep tag keys merge ft ty tv sv pk).2.2 = .ok
        · rw [if_pos hs] at hok ⊢
          simp only at hok ⊢
          rw [leaves_cons, leaves_cons, List.map_append, List.map_append, ih _ _ _ hok,
            fieldStep_leafKeys tag keys merge ft ty tv sv pk ih1 ih2 hs]
        · rw [if_neg hs] at hok
          exact absurd hok hs

/-! ## What Merge leaves alone -/

theorem fieldStep_grows (tag : String) (keys : KeyMap) (merge : Bool) (ft : StructField)
    (ty : GoType) (tv sv : Value) (pk : List String)
    (ih1 : ∀ n fs, ty = .struct n fs → ∀ tvs svs pk,
      pk <+: (processStructs tag keys merge fs tvs svs pk).processedKeys)
    (ih2 : ∀ n fs, ty = .ptr (.struct n fs) → ∀ tvs svs pk,
      pk <+: (processStructs tag keys merge fs tvs svs pk).processedKeys) :
    pk <+: (fieldStep tag keys merge ft ty tv sv pk).2.1 := by
  cases ha : ft.Anonymous with
  | false =>
    rw [fieldStep_plain _ _ _ _ _ _ _ _ ha]
    split
    · exact List.prefix_append _ _
    · exact List.prefix_refl _
  | true =>
    rw [fieldStep_anonym _ _ _ _ _ _ _ _ ha]
    rcases processAnonym_cases tag keys merge ty tv sv pk with
      ⟨n, fs, tfs, sfs, rfl, rfl, rfl, h⟩ | ⟨n, fs, tfs, sfs, rfl, rfl, rfl, h⟩ |
      ⟨n, fs, x, rfl, rfl, rfl, h⟩ | ⟨_, _, h⟩ | ⟨_, m, h⟩
    · rw [h]; exact ih1 n fs rfl tfs sfs pk
    · rw [h]; exact ih2 n fs rfl tfs sfs pk
    · rw [h]
    · rw [h]
    · rw [h]

/-- The key list only grows during a traversal. -/
theorem processStructs_grows (tag : String) (keys : KeyMap) (merge : Bool)
    (fs : List (StructField × GoType)) :
    ∀ (tvs svs : List Value) (pk : List String),
      pk <+: (processStructs tag keys merge fs tvs svs pk).processedKeys := by
  induction fs using fields_induction with
  | hnil => intro tvs svs pk; rw [processStructs_nil]
  | hcons ft ty rest ih1 ih2 ih =>
    intro tvs svs pk
    cases tvs with
    | nil => rw [processStructs_short_target]
    | cons tv tvs =>
      cases svs with
      | nil => rw [processStructs_short_source]
      | cons sv svs =>
        rw [processStructs_cons_eq]
        have hs := fieldStep_grows tag keys merge ft ty tv sv pk ih1 ih2
        split
        · exact hs.trans (ih _ _ _)
        · exact hs

theorem fieldStep_filtered (tag : String) (keys : KeyMap) (merge : Bool) (ft : StructField)
    (ty : GoType) (tv sv : Value) (pk : List String)
    (hf : ∀ k, filteredOut keys k = true)
    (ih1 : ∀ n fs, ty = .struct n fs → ∀ tvs svs pk,
      (processStructs tag keys merge fs tvs svs pk).target = tvs)
    (ih2 : ∀ n fs, ty = .ptr (.struct n fs) → ∀ tvs svs pk,
      (processStructs tag keys merge fs tvs svs pk).target = tvs) :
    (fieldStep tag keys merge ft ty tv sv pk).1 = tv := by
  cases ha : ft.Anonymous with
  | false =>
    rw [fieldStep_plain _ _ _ _ _ _ _ _ ha]
    have hr : (Leaf.mk (fieldKey tag ft) tv sv).reported keys = false := by
      simp [Leaf.reported, hf]
    simp [hr]
  | true =>
    rw [fieldStep_anonym _ _ _ _ _ _ _ _ ha]
    rcases processAnonym_cases tag keys merge ty tv sv pk with
      ⟨n, fs, tfs, sfs, rfl, rfl, rfl, h⟩ | ⟨n, fs, tfs, sfs, rfl, rfl, rfl, h⟩ |
      ⟨n, fs, x, rfl, rfl, rfl, h⟩ | ⟨_, _, h⟩ | ⟨_, m, h⟩
    · rw [h, ih1 n fs rfl]
    · rw [h, ih2 n fs rfl]
    · rw [h]
    · rw [h]
    · rw [h]

/-- When the filter lets no key through, the traversal writes nothing. -/
theorem processStructs_filtered (tag : String) (keys : KeyMap) (merge : Bool)
    (hf : ∀ k, filteredOut keys k = true) (fs : List (StructField × GoType)) :
    ∀ (tvs svs : List Value) (pk : List String),
      (processStructs tag keys merge fs tvs svs pk).target = tvs := by
  induction fs using fields_induction with
  | hnil => intro tvs svs pk; rw [processStructs_nil]
  | hcons ft ty rest ih1 ih2 ih =>
    intro tvs svs pk
    cases tvs with
    | nil => rw [processStructs_short_target]
    | cons tv tvs =>
      cases svs with
      | nil => rw [processStructs_short_source]
      | cons sv svs =>
        rw [processStructs_cons_eq]
        have hs := fieldStep_filtered tag keys merge ft ty tv sv pk hf ih1 ih2
        split
        · simp [hs, ih]
        · simp [hs]

theorem Framed.same (keys : KeyMap) (ks : List String) (l : List (String × Value)) :
    List.Forall₂ (Framed keys ks) l l :=
  List.forall₂_same.2 (fun _ _ => ⟨rfl, fun h => absurd rfl h⟩)

theorem Framed.mono (keys : KeyMap) {ks ks2 : List String} (h : ks <+: ks2)
    {l1 l2 : List (String × Value)} (hl : List.Forall₂ (Framed keys ks) l1 l2) :
    List.Forall₂ (Framed keys ks2) l1 l2 :=
  hl.imp (fun _ _ hab => ⟨hab.1, fun hne =>
    ⟨(hab.2 hne).1, (hab.2 hne).2.1, h.subset (hab.2 hne).2.2⟩⟩)

theorem fieldsOf_cons (tag : String) (ft : StructField) (ty : GoType)
    (rest : List (StructField × GoType)) (tv : Value) (tvs : List Value) :
    fieldsOf tag ((ft, ty) :: rest) (tv :: tvs) =
      (if ft.Anonymous then fieldsOfAnonym tag ty tv else [(fieldKey tag ft, tv)])
        ++ fieldsOf tag rest tvs := by
  rw [fieldsOf]

theorem fieldStep_framed (tag : String) (keys : KeyMap) (merge : Bool) (ft : StructField)
    (ty : GoType) (tv sv : Value) (pk : List String)
    (ih1 : ∀ n fs, ty = .struct n fs → ∀ tvs svs pk,
      List.Forall₂ (Framed keys (processStructs tag keys merge fs tvs svs pk).processedKeys)
        (fieldsOf tag fs tvs) (fieldsOf tag fs (processStructs tag keys merge fs tvs svs pk).target))
    (ih2 : ∀ n fs, ty = .ptr (.struct n fs) → ∀ tvs svs pk,
      List.Forall₂ (Framed keys (processStructs tag keys merge fs tvs svs pk).processedKeys)
        (fieldsOf tag fs tvs)
        (fieldsOf tag fs (processStructs tag keys merge fs tvs svs pk).target)) :
    List.Forall₂ (Framed keys (fieldStep tag keys merge ft ty tv sv pk).2.1)
      (if ft.Anonymous then fieldsOfAnonym tag ty tv else [(fieldKey tag ft, tv)])
      (if ft.Anonymous then fieldsOfAnonym tag ty (fieldStep tag keys merge ft ty tv sv pk).1
        else [(fieldKey tag ft, (fieldStep tag keys merge ft ty tv sv pk).1)]) := by
  cases ha : ft.Anonymous with
  | false =>
    rw [fieldStep_plain _ _ _ _ _ _ _ _ ha]
    by_cases hr : (Leaf.mk (fieldKey tag ft) tv sv).reported keys = true
    · rw [if_pos hr]
      simp only [Bool.false_eq_true, if_false]
      refine List.Forall₂.cons ⟨rfl, fun _ => ?_⟩ List.Forall₂.nil
      simp only [Leaf.reported, Bool.and_eq_true, bne_iff_ne, ne_eq, Bool.not_eq_true'] at hr
      exact ⟨hr.1.1, hr.1.2, by simp⟩
    · rw [if_neg hr]
      exact Framed.same keys pk _
  | true =>
    rw [fieldStep_anonym _ _ _ _ _ _ _ _ ha]
    simp only [if_true]
    rcases processAnonym_cases tag keys merge ty tv sv pk with
      ⟨n, fs, tfs, sfs, rfl, rfl, rfl, h⟩ | ⟨n, fs, tfs, sfs, rfl, rfl, rfl, h⟩ |
      ⟨n, fs, x, rfl, rfl, rfl, h⟩ | ⟨_, _, h⟩ | ⟨_, m, h⟩
    · rw [h]; exact ih1 n fs rfl tfs sfs pk
    · rw [h]; exact ih2 n fs rfl tfs sfs pk
    · rw [h]; exact Framed.same keys pk _
    · rw [h]; exact Framed.same keys pk _
    · rw [h]; exact Framed.same keys pk _

/-- Every field of the target keeps its key, and keeps its value unless its key
is non-empty, passes the filter and has been appended to the key list. -/
theorem processStructs_framed (tag : String) (keys : KeyMap) (merge : Bool)
    (fs : List (StructField × GoType)) :
    ∀ (tvs svs : List Value) (pk : List String),
      List.Forall₂ (Framed keys (processStructs tag keys merge fs tvs svs pk).processedKeys)
        (fieldsOf tag fs tvs)
        (fieldsOf tag fs (processStructs tag keys merge fs tvs svs pk).target) := by
  induction fs using fields_induction with
  | hnil => intro tvs svs pk; rw [processStructs_nil]; exact Framed.same _ _ _
  | hcons ft ty rest ih1 ih2 ih =>
    intro tvs svs pk
    cases tvs with
    | nil => rw [processStructs_short_target]; exact Framed.same _ _ _
    | cons tv tvs =>
      cases svs with
      | nil => rw [processStructs_short_source]; exact Framed.same _ _ _
      | cons sv svs =>
        rw [processStructs_cons_eq]
        have hs := fieldStep_framed tag keys merge ft ty tv sv pk ih1 ih2
        split
        · simp only
          rw [fieldsOf_cons, fieldsOf_cons]
          exact List.rel_append
            (Framed.mono keys (processStructs_grows tag keys merge rest tvs svs _) hs)
            (ih _ _ _)
        · simp only
          rw [fieldsOf_cons, fieldsOf_cons]
          exact List.rel_append hs (Framed.same _ _ _)

/-! ## Errors and panics -/

theorem hasTypeFields_cons (v : Value) (vs : List Value) (f : StructField) (t : GoType)
    (fs : List (StructField × GoType)) :
    hasTypeFields (v :: vs) ((f, t) :: fs) = (hasType v t && hasTypeFields vs fs) := by
  rw [hasTypeFields]

theorem fieldStep_exit (tag : String) (keys : KeyMap) (merge : Bool) (ft : StructField)
    (ty : GoType) (tv sv : Value) (pk : List String)
    (ih1 : ∀ n fs, ty = .struct n fs → ∀ tvs svs pk,
      hasTypeFields tvs fs = true → hasTypeFields svs fs = true →
      (processStructs tag keys merge fs tvs svs pk).exit = .ok ∨
        (processStructs tag keys merge fs tvs svs pk).exit = .error errAnonym)
    (ih2 : ∀ n fs, ty = .ptr (.struct n fs) → ∀ tvs svs pk,
      hasTypeFields tvs fs = true → hasTypeFields svs fs = true →
      (processStructs tag keys merge fs tvs svs pk).exit = .ok ∨
        (processStructs tag keys merge fs tvs svs pk).exit = .error errAnonym)
    (ht : hasType tv ty = true) (hs : hasType sv ty = true) :
    (fieldStep tag keys merge ft ty tv sv pk).2.2 = .ok ∨
      (fieldStep tag keys merge ft ty tv sv pk).2.2 = .error errAnonym := by
  cases ha : ft.Anonymous with
  | false =>
    rw [fieldStep_plain _ _ _ _ _ _ _ _ ha]
    split <;> exact Or.inl rfl
  | true =>
    rw [fieldStep_anonym _ _ _ _ _ _ _ _ ha]
    rcases processAnonym_cases tag keys merge ty tv sv pk with
      ⟨n, fs, tfs, sfs, rfl, rfl, rfl, h⟩ | ⟨n, fs, tfs, sfs, rfl, rfl, rfl, h⟩ |
      ⟨n, fs, x, rfl, rfl, rfl, h⟩ | ⟨_, _, h⟩ | ⟨hty, m, h⟩
    · rw [h]
      exact ih1 n fs rfl tfs sfs pk ht hs
    · rw [h]
      exact ih2 n fs rfl tfs sfs pk ht hs
    · rw [h]; exact Or.inl rfl
    · rw [h]; exact Or.inr rfl
    · rw [ht, hs] at hty
      cases hty

/-- On values that fit the record type the traversal does not panic: it ends
normally or with the unsupported-field error. -/
theorem processStructs_exit (tag : String) (keys : KeyMap) (merge : Bool)
    (fs : List (StructField × GoType)) :
    ∀ (tvs svs : List Value) (pk : List String),
      hasTypeFields tvs fs = true → hasTypeFields svs fs = true →
      (processStructs tag keys merge fs tvs svs pk).exit = .ok ∨
        (processStructs tag keys merge fs tvs svs pk).exit = .error errAnonym := by
  induction fs using fields_induction with
  | hnil => intro tvs svs pk _ _; rw [processStructs_nil]; exact Or.inl rfl
  | hcons ft ty rest ih1 ih2 ih =>
    intro tvs svs pk ht hs
    cases tvs with
    | nil => simp [hasTypeFields] at ht
    | cons tv tvs =>
      cases svs with
      | nil => simp [hasTypeFields] at hs
      | cons sv svs =>
        rw [hasTypeFields_cons, Bool.and_eq_true] at ht hs
        rw [processStructs_cons_eq]
        have hstep := fieldStep_exit tag keys merge ft ty tv sv pk ih1 ih2 ht.1 hs.1
        split
        · exact ih _ _ _ ht.2 hs.2
        · rename_i hne
          rcases hstep with h | h
          · exact absurd h hne
          · exact Or.inr h

/-- A traversal that meets an embedded field whose type is neither a struct nor
a pointer to a struct does not end normally. -/
theorem processStructs_unsupported (tag : String) (keys : KeyMap) (merge : Bool)
    (ft : StructField) (ty : GoType) (ha : ft.Anonymous = true) (hk : ty.Kind ≠ .Struct)
    (hp : ∀ n fs, ty ≠ .ptr (.struct n fs)) (fs : List (StructField × GoType)) :
    ∀ (tvs svs : List Value) (pk : List String), (ft, ty) ∈ fs →
      (processStructs tag keys merge fs tvs svs pk).exit ≠ .ok := by
  induction fs with
  | nil => intro _ _ _ h; cases h
  | cons f rest ih =>
    intro tvs svs pk hmem
    obtain ⟨ft2, ty2⟩ := f
    cases tvs with
    | nil => rw [processStructs_short_target]; simp
    | cons tv tvs =>
      cases svs with
      | nil => rw [processStructs_short_source]; simp
      | cons sv svs =>
        rw [processStructs_cons_eq]
        split
        · rename_i hok
          rcases List.mem_cons.1 hmem with heq | hin
          · cases heq
            rw [fieldStep_anonym _ _ _ _ _ _ _ _ ha] at hok
            rcases processAnonym_cases tag keys merge ty tv sv pk with
              ⟨n, fs, tfs, sfs, rfl, rfl, rfl, h⟩ | ⟨n, fs, tfs, sfs, rfl, rfl, rfl, h⟩ |
              ⟨n, fs, x, rfl, rfl, rfl, h⟩ | ⟨_, _, h⟩ | ⟨_, m, h⟩
            · exact absurd rfl hk
            · exact absurd rfl (hp n fs)
            · exact absurd rfl (hp n fs)
            · rw [h] at hok; cases hok
            · rw [h] at hok; cases hok
          · exact ih _ _ _ hin
        · rename_i hne
          exact hne

/-- An embedded pointer-to-struct field that is nil in the source and present in
the target is passed over: the traversal behaves as it does on the records
without that field, and the target's sub-record stays in place. -/
theorem processStructs_absent_source (tag : String) (keys : KeyMap) (merge : Bool)
    (ft : StructField) (n : String) (sub : List (StructField × GoType)) (x : Value)
    (ha : ft.Anonymous = true) (post : List (StructField × GoType)) (tpost spost : List Value)
    (pre : List (StructField × GoType)) :
    ∀ (tpre spre : List Value) (pk : List String),
      tpre.length = pre.length → spre.length = pre.length →
      processStructs tag keys merge (pre ++ (ft, .ptr (.struct n sub)) :: post)
          (tpre ++ .ptr x :: tpost) (spre ++ .nil :: spost) pk =
        ⟨(processStructs tag keys merge (pre ++ post) (tpre ++ tpost) (spre ++ spost) pk).target.take
              pre.length ++ .ptr x ::
            (processStructs tag keys merge (pre ++ post) (tpre ++ tpost)
              (spre ++ spost) pk).target.drop pre.length,
          (processStructs tag keys merge (pre ++ post) (tpre ++ tpost) (spre ++ spost)
            pk).processedKeys,
          (processStructs tag keys merge (pre ++ post) (tpre ++ tpost) (spre ++ spost) pk).exit⟩ := by
  induction pre with
  | nil =>
    intro tpre spre pk ht hs
    cases tpre with
    | cons _ _ => simp at ht
    | nil =>
      cases spre with
      | cons _ _ => simp at hs
      | nil =>
        simp only [List.nil_append, List.length_nil, List.take_zero, List.drop_zero]
        rw [processStructs_cons_eq, fieldStep_anonym _ _ _ _ _ _ _ _ ha, processAnonym_skip]
        simp
  | cons f pre ih =>
    intro tpre spre pk ht hs
    obtain ⟨ft2, ty2⟩ := f
    cases tpre with
    | nil => simp at ht
    | cons tv tpre =>
      cases spre with
      | nil => simp at hs
      | cons sv spre =>
        simp only [List.length_cons, Nat.add_right_cancel_iff] at ht hs
        simp only [List.cons_append, List.length_cons]
        rw [processStructs_cons_eq, processStructs_cons_eq]
        by_cases hok : (fieldStep tag keys merge ft2 ty2 tv sv pk).2.2 = .ok
        · rw [if_pos hok, if_pos hok, ih tpre spre _ ht hs]
          simp
        · rw [if_neg hok, if_neg hok]
          simp [← ht]

theorem GoType.beq_eq (a : GoType) : ∀ b, GoType.beq a b = true → a = b := by
  refine @GoType.rec (fun a => ∀ b, GoType.beq a b = true → a = b)
    (fun fs => ∀ gs, GoType.beqFields fs gs = true → fs = gs)
    (fun p => ∀ b, GoType.beq p.2 b = true → p.2 = b) ?_ ?_ ?_ ?_ ?_ ?_ ?_ ?_ ?_ ?_ a
  · intro b h; cases b <;> simp [GoType.beq] at h; rfl
  · intro b h; cases b <;> simp [GoType.beq] at h; rfl
  · intro b h; cases b <;> simp [GoType.beq] at h; rfl
  · intro e ih b h
    cases b <;> simp [GoType.beq] at h
    rw [ih _ h]
  · intro n fs ih b h
    cases b <;> simp [GoType.beq] at h
    rw [h.1, ih _ h.2]
  · intro b h; cases b <;> simp [GoType.beq] at h; rfl
  · intro b h; cases b <;> simp [GoType.beq] at h; rfl
  · intro gs h
    cases gs with
    | nil => rfl
    | cons g gs => simp [GoType.beqFields] at h
  · intro head tail ihh iht gs h
    obtain ⟨f, a⟩ := head
    cases gs with
    | nil => simp [GoType.beqFields] at h
    | cons g gs =>
      obtain ⟨g, b⟩ := g
      simp [GoType.beqFields] at h
      have h1 : a = b := ihh b h.1.2
      rw [h.1.1, h1, iht gs h.2]
  · intro f a ih
    exact ih

/-- The function `process` on two non-nil pointers to records of one struct type. -/
theorem process_records (n : String) (fs : List (StructField × GoType)) (tvs svs : List Value)
    (keys : KeyMap) (merge : Bool) (opts : List Opt) :
    process (some (.ptr (.struct n fs), .ptr (.struct tvs)))
        (some (.ptr (.struct n fs), .ptr (.struct svs))) keys merge opts =
      if (processStructs (effectiveTag opts) keys merge fs tvs svs []).exit = .ok then
        ⟨some (.ptr (.struct n fs),
            .ptr (.struct (processStructs (effectiveTag opts) keys merge fs tvs svs []).target)),
          some (processStructs (effectiveTag opts) keys merge fs tvs svs []).processedKeys, .ok⟩
      else
        ⟨some (.ptr (.struct n fs),
            .ptr (.struct (processStructs (effectiveTag opts) keys merge fs tvs svs []).target)),
          none, (processStructs (effectiveTag opts) keys merge fs tvs svs []).exit⟩ := by
  unfold process
  simp only [valueKind, valueElemKind, elemKind, GoType.Kind, GoType.beq_refl, Value.IsNil,
    effectiveTag]
  simp only [ne_eq, not_true_eq_false, or_self, if_false, Bool.not_true, Bool.false_eq_true,
    Bool.or_self]
  split
  · rename_i h
    rw [if_pos h]
  · rename_i h
    rw [if_neg (fun hok => h hok)]

/-! ## The contract of Diff and Merge -/

theorem filteredOut_eq_false (keys : KeyMap) (k : String) :
    filteredOut keys k = false ↔ (keys = none ∨ ∃ F, keys = some F ∧ k ∈ F) := by
  cases keys with
  | none => simp [filteredOut]
  | some F => simp [filteredOut]

theorem mem_reportedKeys (keys : KeyMap) (ls : List Leaf) (k : String) :
    k ∈ reportedKeys keys ls ↔
      ∃ l ∈ ls, l.key = k ∧ k ≠ "" ∧ (keys = none ∨ ∃ F, keys = some F ∧ k ∈ F) ∧
        deepEqual l.target l.source = false := by
  simp only [reportedKeys, List.mem_map, List.mem_filter, Leaf.reported, Bool.and_eq_true,
    bne_iff_ne, ne_eq, Bool.not_eq_true', ← filteredOut_eq_false]
  constructor
  · rintro ⟨l, ⟨hl, ⟨h1, h2⟩, h3⟩, rfl⟩
    exact ⟨l, hl, rfl, h1, h2, h3⟩
  · rintro ⟨l, hl, rfl, h1, h2, h3⟩
    exact ⟨l, ⟨hl, ⟨h1, h2⟩, h3⟩, rfl⟩

/-- C1: when `Diff` on two records of one struct type returns no error, a key
`k` occurs in the returned list if and only if some traversed non-embedded field
has the non-empty key `k`, the key filter is nil or contains `k`, and the
target's value of that field is not deeply equal to the source's. -/
theorem diff_reports_exactly_the_changed_fields (n : String)
    (fs : List (StructField × GoType)) (tvs svs : List Value) (keys : KeyMap) (opts : List Opt)
    (hok : (Diff (record n fs tvs) (record n fs svs) keys opts).exit = .ok) :
    ∃ ks, (Diff (record n fs tvs) (record n fs svs) keys opts).keys = some ks ∧
      ∀ k, k ∈ ks ↔
        ∃ l ∈ leaves (effectiveTag opts) fs tvs svs, l.key = k ∧ k ≠ "" ∧
          (keys = none ∨ ∃ F, keys = some F ∧ k ∈ F) ∧
          deepEqual l.target l.source = false := by
  unfold Diff record at hok ⊢
  rw [process_records] at hok ⊢
  by_cases hw : (processStructs (effectiveTag opts) keys false fs tvs svs []).exit = .ok
  · rw [if_pos hw]
    refine ⟨_, rfl, fun k => ?_⟩
    rw [processStructs_keys _ _ _ _ _ _ _ hw, List.nil_append]
    exact mem_reportedKeys keys _ k
  · rw [if_neg hw] at hok
    exact absurd hok hw

/-- Witness for C1 on the example records with a nil filter. -/
theorem diff_reports_exactly_the_changed_fields_witness :
    ∃ ks, (Diff (record "test" exFields exCurrent) (record "test" exFields exUpdate)
        none []).keys = some ks ∧
      ∀ k, k ∈ ks ↔
        ∃ l ∈ leaves (effectiveTag []) exFields exCurrent exUpdate, l.key = k ∧ k ≠ "" ∧
          ((none : KeyMap) = none ∨ ∃ F, (none : KeyMap) = some F ∧ k ∈ F) ∧
          deepEqual l.target l.source = false :=
  diff_reports_exactly_the_changed_fields "test" exFields exCurrent exUpdate none [] (by decide)

/-- C2: `Diff` leaves the target exactly as it was, for every target, source,
key filter and option list, whether the call succeeds, fails or panics; in
particular an absent embedded sub-record of the target stays absent.  (The
source is never written by the traversal in either mode.) -/
theorem diff_leaves_target_unchanged (first second : Iface) (keys : KeyMap) (opts : List Opt) :
    (Diff first second keys opts).target = first := by
  unfold Diff process
  split
  · rfl
  · split
    · rfl
    · rfl
    · rename_i tt tv st sv
      split
      · rfl
      · split
        · rfl
        · split
          · dsimp only
            split <;> simp only [processStructs_diff_target]
          · rfl

/-- C3, counterexample: on `type F struct { V float64 "json:v" }` with dest
`F{1}` and update `F{NaN}`, `Merge` with a nil filter returns no error and the
list `[v]`, and the field keyed `v` holds afterwards a value that is not deeply
equal to update's value of that field. -/
theorem merge_leaves_nan_field_unequal :
    (Merge (record "F" exFloatFields exFloatCurrent) (record "F" exFloatFields exFloatUpdate)
      none []).exit = .ok ∧
    (Merge (record "F" exFloatFields exFloatCurrent) (record "F" exFloatFields exFloatUpdate)
      none []).keys = some ["v"] ∧
    ¬ ∀ l ∈ leaves (effectiveTag []) exFloatFields
        (recordFields (Merge (record "F" exFloatFields exFloatCurrent)
          (record "F" exFloatFields exFloatUpdate) none []).target) exFloatUpdate,
      l.key ≠ "" → deepEqual l.target l.source = true := by
  refine ⟨by decide, by decide, fun h => ?_⟩
  have h1 := h ⟨"v", .float64 .NaN, .float64 .NaN⟩ (List.mem_singleton.2 rfl) (by decide)
  exact absurd h1 (by decide)

/-- C3, amended: when `Merge` on two records of one struct type returns no
error, every traversed non-embedded field of dest whose non-empty key passes the
filter and whose update value holds no `NaN` and no non-nil func holds
afterwards a value deeply equal to update's value of that field; every key of
the returned list is the key of a traversed field that holds update's value
afterwards. -/
theorem merge_makes_filtered_fields_equal_without_nan_or_func (n : String)
    (fs : List (StructField × GoType)) (tvs svs : List Value) (keys : KeyMap) (opts : List Opt)
    (hok : (Merge (record n fs tvs) (record n fs svs) keys opts).exit = .ok) :
    ∃ tvs2 ks,
      (Merge (record n fs tvs) (record n fs svs) keys opts).target = record n fs tvs2 ∧
      (Merge (record n fs tvs) (record n fs svs) keys opts).keys = some ks ∧
      (∀ l ∈ leaves (effectiveTag opts) fs tvs2 svs, l.key ≠ "" →
        (keys = none ∨ ∃ F, keys = some F ∧ l.key ∈ F) → holdsNaNOrFunc l.source = false →
        deepEqual l.target l.source = true) ∧
      (∀ k ∈ ks, ∃ l ∈ leaves (effectiveTag opts) fs tvs2 svs,
        l.key = k ∧ l.target = l.source) := by
  unfold Merge record at hok ⊢
  rw [process_records] at hok ⊢
  by_cases hw : (processStructs (effectiveTag opts) keys true fs tvs svs []).exit = .ok
  · rw [if_pos hw]
    have hwr := processStructs_written (effectiveTag opts) keys fs tvs svs [] hw
    refine ⟨_, _, rfl, rfl, fun l hl hne hin hnan => ?_, fun k hk => ?_⟩
    · obtain ⟨l0, _, hk0, hs0, ht0⟩ := written_of_mem_after hwr l hl
      rw [← filteredOut_eq_false] at hin
      have hr := @written_not_reported keys l0 l ⟨hk0, hs0, ht0⟩
        (fun _ _ => by rw [← hs0]; exact hnan)
      simp only [Leaf.reported, hin, Bool.not_false, Bool.and_true, Bool.and_eq_false_iff,
        bne_eq_false_iff_eq, Bool.not_eq_false'] at hr
      rcases hr with h | h
      · exact absurd h hne
      · exact h
    · rw [processStructs_keys _ _ _ _ _ _ _ hw, List.nil_append] at hk
      simp only [reportedKeys, List.mem_map, List.mem_filter] at hk
      obtain ⟨l0, ⟨hl0, hr0⟩, hkey⟩ := hk
      obtain ⟨l, hl, hk1, hs1, ht1⟩ := written_of_mem_before hwr l0 hl0
      rw [if_pos hr0] at ht1
      exact ⟨l, hl, by rw [hk1, hkey], by rw [ht1, hs1]⟩
  · rw [if_neg hw] at hok
    exact absurd hok hw

/-- Witness for C3 on the example records with a nil filter. -/
theorem merge_makes_filtered_fields_equal_without_nan_or_func_witness :
    ∃ tvs2 ks,
      (Merge (record "test" exFields exCurrent) (record "test" exFields exUpdate)
        none []).target = record "test" exFields tvs2 ∧
      (Merge (record "test" exFields exCurrent) (record "test" exFields exUpdate)
        none []).keys = some ks ∧
      (∀ l ∈ leaves (effectiveTag []) exFields tvs2 exUpdate, l.key ≠ "" →
        ((none : KeyMap) = none ∨ ∃ F, (none : KeyMap) = some F ∧ l.key ∈ F) →
        holdsNaNOrFunc l.source = false → deepEqual l.target l.source = true) ∧
      (∀ k ∈ ks, ∃ l ∈ leaves (effectiveTag []) exFields tvs2 exUpdate,
        l.key = k ∧ l.target = l.source) :=
  merge_makes_filtered_fields_equal_without_nan_or_func "test" exFields exCurrent exUpdate none []
    (by decide)

/-- C4, counterexample: on `struct { X int "json:x"; int }` with dest `{1, 0}`,
update `{2, 0}` and filter `{"x"}`, `Merge` overwrites the field keyed `x` and
then fails on the embedded `int`; the returned list is nil, so a dest field has
changed whose key is not in the returned list. -/
theorem merge_changed_field_missing_from_nil_list :
    ¬ List.Forall₂
      (fun before after : String × Value => before.2 ≠ after.2 →
        before.1 ∈ (Merge (record "T" exBadFields [.int 1, .int 0])
          (record "T" exBadFields [.int 2, .int 0]) (some ["x"]) []).keys.getD [])
      (fieldsOf "json" exBadFields [.int 1, .int 0])
      (fieldsOf "json" exBadFields (recordFields
        (Merge (record "T" exBadFields [.int 1, .int 0])
          (record "T" exBadFields [.int 2, .int 0]) (some ["x"]) []).target)) := by
  have hr : Merge (record "T" exBadFields [.int 1, .int 0])
      (record "T" exBadFields [.int 2, .int 0]) (some ["x"]) [] =
        ⟨record "T" exBadFields [.int 2, .int 0], none, .error errAnonym⟩ := by rfl
  have h1 : fieldsOf "json" exBadFields [.int 1, .int 0] = [("x", .int 1)] := by rfl
  have h2 : fieldsOf "json" exBadFields [.int 2, .int 0] = [("x", .int 2)] := by rfl
  rw [hr]
  simp only [recordFields, record, h1, h2, Option.getD_none]
  intro h
  cases h with
  | cons hab _ => exact absurd (hab (by simp)) (by simp)

/-- C4, as amended: for every dest, update and non-nil key filter `F`, `Merge`
keeps the key of every dest field and leaves unchanged every dest field whose
key is empty or not in `F`, whether or not the call succeeds; when `Merge`
returns no error, the only dest fields whose value changes are those whose key
is in the returned list; with an empty filter dest is left entirely unchanged. -/
theorem merge_frame_under_filter (n : String) (fs : List (StructField × GoType))
    (tvs svs : List Value) (F : List String) (opts : List Opt) :
    ∃ tvs2,
      (Merge (record n fs tvs) (record n fs svs) (some F) opts).target = record n fs tvs2 ∧
      List.Forall₂
        (fun before after : String × Value =>
          before.1 = after.1 ∧
          ((before.1 = "" ∨ before.1 ∉ F) → before.2 = after.2) ∧
          ((Merge (record n fs tvs) (record n fs svs) (some F) opts).exit = .ok →
            before.2 ≠ after.2 →
            before.1 ∈ (Merge (record n fs tvs) (record n fs svs) (some F) opts).keys.getD []))
        (fieldsOf (effectiveTag opts) fs tvs) (fieldsOf (effectiveTag opts) fs tvs2) ∧
      (F = [] → tvs2 = tvs) := by
  have hfr := processStructs_framed (effectiveTag opts) (some F) true fs tvs svs []
  have hempty : F = [] →
      (processStructs (effectiveTag opts) (some F) true fs tvs svs []).target = tvs := by
    intro hF
    subst hF
    exact processStructs_filtered _ _ _ (fun k => by simp [filteredOut]) fs tvs svs []
  unfold Merge record
  rw [process_records]
  by_cases hw : (processStructs (effectiveTag opts) (some F) true fs tvs svs []).exit = .ok
  · rw [if_pos hw]
    refine ⟨_, rfl, hfr.imp (fun a b hab => ⟨hab.1, fun hkey => ?_, fun _ hne => ?_⟩), hempty⟩
    · by_contra hne
      obtain ⟨h1, h2, _⟩ := hab.2 hne
      rcases hkey with h | h
      · exact h1 h
      · simp [filteredOut] at h2
        exact h h2
    · exact (hab.2 hne).2.2
  · rw [if_neg hw]
    refine ⟨_, rfl, hfr.imp (fun a b hab => ⟨hab.1, fun hkey => ?_, fun hok _ => ?_⟩), hempty⟩
    · by_contra hne
      obtain ⟨h1, h2, _⟩ := hab.2 hne
      rcases hkey with h | h
      · exact h1 h
      · simp [filteredOut] at h2
        exact h h2
    · exact absurd hok hw

/-- C5: for every pair of records and every non-nil key filter `F` on which
`Diff` (respectively `Merge`) returns no error, every key of the returned list
is a member of `F`, and with an empty `F` the returned list is empty. -/
theorem reported_keys_are_in_filter (n : String) (fs : List (StructField × GoType))
    (tvs svs : List Value) (F : List String) (opts : List Opt) :
    ((Diff (record n fs tvs) (record n fs svs) (some F) opts).exit = .ok →
      ∃ ks, (Diff (record n fs tvs) (record n fs svs) (some F) opts).keys = some ks ∧
        (∀ k ∈ ks, k ∈ F) ∧ (F = [] → ks = [])) ∧
    ((Merge (record n fs tvs) (record n fs svs) (some F) opts).exit = .ok →
      ∃ ks, (Merge (record n fs tvs) (record n fs svs) (some F) opts).keys = some ks ∧
        (∀ k ∈ ks, k ∈ F) ∧ (F = [] → ks = [])) := by
  have main : ∀ merge : Bool,
      (process (record n fs tvs) (record n fs svs) (some F) merge opts).exit = .ok →
      ∃ ks, (process (record n fs tvs) (record n fs svs) (some F) merge opts).keys = some ks ∧
        (∀ k ∈ ks, k ∈ F) ∧ (F = [] → ks = []) := by
    intro merge hok
    unfold record at hok ⊢
    rw [process_records] at hok ⊢
    by_cases hw : (processStructs (effectiveTag opts) (some F) merge fs tvs svs []).exit = .ok
    · rw [if_pos hw]
      have hin : ∀ k ∈ (processStructs (effectiveTag opts) (some F) merge fs tvs svs
          []).processedKeys, k ∈ F := by
        intro k hk
        rw [processStructs_keys _ _ _ _ _ _ _ hw, List.nil_append] at hk
        obtain ⟨l, _, _, _, hin, _⟩ := (mem_reportedKeys (some F) _ k).1 hk
        rcases hin with h | ⟨G, hG, hk⟩
        · cases h
        · cases hG
          exact hk
      refine ⟨_, rfl, hin, fun hF => ?_⟩
      subst hF
      exact List.eq_nil_iff_forall_not_mem.2 (fun k hk => List.not_mem_nil k (hin k hk))
    · rw [if_neg hw] at hok
      exact absurd hok hw
  exact ⟨main false, main true⟩

/-- Witness for C5: the example records with the filter `{"string"}`. -/
theorem reported_keys_are_in_filter_witness :
    (∃ ks, (Diff (record "test" exFields exCurrent) (record "test" exFields exUpdate)
        (some ["string"]) []).keys = some ks ∧
      (∀ k ∈ ks, k ∈ ["string"]) ∧ (["string"] = [] → ks = [])) ∧
    (∃ ks, (Merge (record "test" exFields exCurrent) (record "test" exFields exUpdate)
        (some ["string"]) []).keys = some ks ∧
      (∀ k ∈ ks, k ∈ ["string"]) ∧ (["string"] = [] → ks = [])) :=
  ⟨(reported_keys_are_in_filter "test" exFields exCurrent exUpdate ["string"] []).1 (by decide),
    (reported_keys_are_in_filter "test" exFields exCurrent exUpdate ["string"] []).2 (by decide)⟩

theorem process_keys_of_ok (n : String) (fs : List (StructField × GoType))
    (tvs svs : List Value) (keys : KeyMap) (merge : Bool) (opts : List Opt)
    (hok : (process (record n fs tvs) (record n fs svs) keys merge opts).exit = .ok) :
    (process (record n fs tvs) (record n fs svs) keys merge opts).keys =
      some (reportedKeys keys (leaves (effectiveTag opts) fs tvs svs)) := by
  unfold record at hok ⊢
  rw [process_records] at hok ⊢
  by_cases hw : (processStructs (effectiveTag opts) keys merge fs tvs svs []).exit = .ok
  · rw [if_pos hw, processStructs_keys _ _ _ _ _ _ _ hw, List.nil_append]
  · rw [if_neg hw] at hok
    exact absurd hok hw

theorem process_keys_of_not_ok (n : String) (fs : List (StructField × GoType))
    (tvs svs : List Value) (keys : KeyMap) (merge : Bool) (opts : List Opt)
    (hok : (process (record n fs tvs) (record n fs svs) keys merge opts).exit ≠ .ok) :
    (process (record n fs tvs) (record n fs svs) keys merge opts).keys = none := by
  unfold record at hok ⊢
  rw [process_records] at hok ⊢
  by_cases hw : (processStructs (effectiveTag opts) keys merge fs tvs svs []).exit = .ok
  · rw [if_pos hw] at hok
    exact absurd rfl hok
  · rw [if_neg hw]

/-- C6, refuted: no call of `Diff` or `Merge` on two records of one struct type
returns a key whose fields all have deeply equal values in the two records,
whatever the keys map contains. -/
theorem no_key_of_an_unchanged_field_is_returned :
    ¬ ∃ (n : String) (fs : List (StructField × GoType)) (tvs svs : List Value)
        (keys : KeyMap) (opts : List Opt) (k : String),
      (k ∈ (Diff (record n fs tvs) (record n fs svs) keys opts).keys.getD [] ∨
        k ∈ (Merge (record n fs tvs) (record n fs svs) keys opts).keys.getD []) ∧
      ∀ l ∈ leaves (effectiveTag opts) fs tvs svs, l.key = k →
        deepEqual l.target l.source = true := by
  rintro ⟨n, fs, tvs, svs, keys, opts, k, hk, hsame⟩
  have main : ∀ merge : Bool,
      k ∉ (process (record n fs tvs) (record n fs svs) keys merge opts).keys.getD [] := by
    intro merge hmem
    by_cases hok : (process (record n fs tvs) (record n fs svs) keys merge opts).exit = .ok
    · rw [process_keys_of_ok n fs tvs svs keys merge opts hok] at hmem
      obtain ⟨l, hl, hkey, _, _, hne⟩ := (mem_reportedKeys keys _ k).1 hmem
      rw [hsame l hl hkey] at hne
      cases hne
    · rw [process_keys_of_not_ok n fs tvs svs keys merge opts hok] at hmem
      cases hmem
  rcases hk with h | h
  · exact main false h
  · exact main true h

/-- C6, as amended: for every first and second record of one struct type and
every keys map on which `Diff` (respectively `Merge`) returns no error, the
returned list is the list of the keys of the traversed fields whose key is
non-empty and passes the keys map and whose values in first and second are not
deeply equal; a field with the same value in both contributes no key, also when
the keys map contains its key. -/
theorem returned_keys_are_those_of_differing_fields (n : String)
    (fs : List (StructField × GoType)) (tvs svs : List Value) (keys : KeyMap)
    (opts : List Opt) :
    ((Diff (record n fs tvs) (record n fs svs) keys opts).exit = .ok →
      (Diff (record n fs tvs) (record n fs svs) keys opts).keys =
        some (((leaves (effectiveTag opts) fs tvs svs).filter
          (fun l => l.key != "" && !filteredOut keys l.key &&
            !deepEqual l.target l.source)).map (fun l => l.key))) ∧
    ((Merge (record n fs tvs) (record n fs svs) keys opts).exit = .ok →
      (Merge (record n fs tvs) (record n fs svs) keys opts).keys =
        some (((leaves (effectiveTag opts) fs tvs svs).filter
          (fun l => l.key != "" && !filteredOut keys l.key &&
            !deepEqual l.target l.source)).map (fun l => l.key))) :=
  ⟨fun hok => process_keys_of_ok n fs tvs svs keys false opts hok,
    fun hok => process_keys_of_ok n fs tvs svs keys true opts hok⟩

/-- Witness for C6 as amended, on the test case `string_same`: the keys map
contains `string`, the values are equal, and nothing is returned. -/
theorem returned_keys_are_those_of_differing_fields_witness :
    (Diff (record "test" exFields exCurrent) (record "test" exFields exSame)
        (some ["string"]) []).keys = some [] ∧
    (Merge (record "test" exFields exCurrent) (record "test" exFields exSame)
        (some ["string"]) []).keys = some [] :=
  ⟨((returned_keys_are_those_of_differing_fields "test" exFields exCurrent exSame
      (some ["string"]) []).1 (by decide)).trans (by decide),
    ((returned_keys_are_those_of_differing_fields "test" exFields exCurrent exSame
      (some ["string"]) []).2 (by decide)).trans (by decide)⟩

/-- C7: when the source has a type and either the target's type is not that
type or that type is not a pointer to a struct, `Diff` and `Merge` return the
argument error with a nil key list and leave the target as it was. -/
theorem mismatched_arguments_are_rejected (target : Iface) (st : GoType) (sv : Value)
    (keys : KeyMap) (opts : List Opt)
    (h : target.map Prod.fst ≠ some st ∨ ∀ n fs, st ≠ .ptr (.struct n fs)) :
    Diff target (some (st, sv)) keys opts = ⟨target, none, .error errArgs⟩ ∧
    Merge target (some (st, sv)) keys opts = ⟨target, none, .error errArgs⟩ := by
  have main : ∀ merge : Bool,
      process target (some (st, sv)) keys merge opts = ⟨target, none, .error errArgs⟩ := by
    intro merge
    unfold process
    split
    · rfl
    · rename_i hvalid
      cases target with
      | none => rfl
      | some p =>
        obtain ⟨tt, tv⟩ := p
        simp only
        split
        · rfl
        · rename_i hbeq
          exfalso
          have heq : tt = st := GoType.beq_eq tt st (by simpa using hbeq)
          subst heq
          have hk : elemKind tt tv = .Struct := by
            by_contra hne
            exact hvalid (Or.inr hne)
          obtain ⟨n, fs, x, rfl, rfl⟩ := elemKind_struct hk
          rcases h with h | h
          · exact h rfl
          · exact h n fs rfl
  exact ⟨main false, main true⟩

/-- Witness for C7: a target of one struct type and a source of another. -/
theorem mismatched_arguments_are_rejected_witness :
    Diff (record "T" exBadFields [.int 1, .int 0]) (some (.ptr (.struct "U" exOtherFields),
        .ptr (.struct [.int 2]))) none [] =
      ⟨record "T" exBadFields [.int 1, .int 0], none, .error errArgs⟩ ∧
    Merge (record "T" exBadFields [.int 1, .int 0]) (some (.ptr (.struct "U" exOtherFields),
        .ptr (.struct [.int 2]))) none [] =
      ⟨record "T" exBadFields [.int 1, .int 0], none, .error errArgs⟩ :=
  mismatched_arguments_are_rejected (record "T" exBadFields [.int 1, .int 0])
    (.ptr (.struct "U" exOtherFields)) (.ptr (.struct [.int 2])) none []
    (Or.inl (by simp [record, exBadFields, exOtherFields]))

/-- C8, the failing input: with a valid target and an untyped nil source, `Diff`
and `Merge` do not return an error value; the call `sourceV.Type()` on the zero
`reflect.Value` panics. -/
theorem untyped_nil_source_panics (n : String) (fs : List (StructField × GoType))
    (tvs : List Value) (keys : KeyMap) (opts : List Opt) :
    Diff (record n fs tvs) none keys opts =
      ⟨record n fs tvs, none, .panic "reflect: call of reflect.Value.Type on zero Value"⟩ ∧
    Merge (record n fs tvs) none keys opts =
      ⟨record n fs tvs, none, .panic "reflect: call of reflect.Value.Type on zero Value"⟩ :=
  ⟨rfl, rfl⟩

theorem processStructs_length (tag : String) (keys : KeyMap) (merge : Bool)
    (fs : List (StructField × GoType)) :
    ∀ (tvs svs : List Value) (pk : List String),
      (processStructs tag keys merge fs tvs svs pk).target.length = tvs.length := by
  induction fs with
  | nil => intro tvs svs pk; rw [processStructs_nil]
  | cons f rest ih =>
    intro tvs svs pk
    obtain ⟨ft, ty⟩ := f
    cases tvs with
    | nil => rw [processStructs_short_target]
    | cons tv tvs =>
      cases svs with
      | nil => rw [processStructs_short_source]
      | cons sv svs =>
        rw [processStructs_cons_eq]
        split
        · simp [ih]
        · simp

/-- C9: for well-typed records of a struct type that declares, at top level, an
embedded field whose type is neither a struct nor a pointer to a struct, `Diff`
and `Merge` return the unsupported-field error and a nil key list, whatever the
key filter and the options are. -/
theorem unsupported_embedded_field_is_an_error (n : String)
    (fs : List (StructField × GoType)) (tvs svs : List Value) (keys : KeyMap)
    (opts : List Opt) (ft : StructField) (ty : GoType)
    (ht : hasTypeFields tvs fs = true) (hs : hasTypeFields svs fs = true)
    (hmem : (ft, ty) ∈ fs) (ha : ft.Anonymous = true) (hk : ty.Kind ≠ .Struct)
    (hp : ∀ m gs, ty ≠ .ptr (.struct m gs)) :
    (Diff (record n fs tvs) (record n fs svs) keys opts).exit = .error errAnonym ∧
    (Diff (record n fs tvs) (record n fs svs) keys opts).keys = none ∧
    (Merge (record n fs tvs) (record n fs svs) keys opts).exit = .error errAnonym ∧
    (Merge (record n fs tvs) (record n fs svs) keys opts).keys = none := by
  have main : ∀ merge : Bool,
      (process (record n fs tvs) (record n fs svs) keys merge opts).exit = .error errAnonym ∧
      (process (record n fs tvs) (record n fs svs) keys merge opts).keys = none := by
    intro merge
    have hne := processStructs_unsupported (effectiveTag opts) keys merge ft ty ha hk hp fs
      tvs svs [] hmem
    have hex := processStructs_exit (effectiveTag opts) keys merge fs tvs svs [] ht hs
    unfold record
    rw [process_records, if_neg hne]
    rcases hex with h | h
    · exact absurd h hne
    · exact ⟨h, rfl⟩
  exact ⟨(main false).1, (main false).2, (main true).1, (main true).2⟩

/-- Witness for C9: `struct { X int "json:x"; int }`, whose embedded field is
an `int`. -/
theorem unsupported_embedded_field_is_an_error_witness :
    (Diff (record "T" exBadFields [.int 1, .int 0]) (record "T" exBadFields [.int 2, .int 0])
      (some []) []).exit = .error errAnonym ∧
    (Diff (record "T" exBadFields [.int 1, .int 0]) (record "T" exBadFields [.int 2, .int 0])
      (some []) []).keys = none ∧
    (Merge (record "T" exBadFields [.int 1, .int 0]) (record "T" exBadFields [.int 2, .int 0])
      (some []) []).exit = .error errAnonym ∧
    (Merge (record "T" exBadFields [.int 1, .int 0]) (record "T" exBadFields [.int 2, .int 0])
      (some []) []).keys = none :=
  unsupported_embedded_field_is_an_error "T" exBadFields [.int 1, .int 0] [.int 2, .int 0]
    (some []) [] ⟨"int", true, []⟩ .int (by decide) (by decide)
    (List.mem_cons_of_mem _ (List.mem_cons_self _ _)) rfl (by decide)
    (fun _ _ h => nomatch h)

/-- C10: when update's embedded pointer-to-struct field is nil and dest's
sub-record is present, `Merge` leaves dest's sub-record as it was and in place,
and returns the key list and the outcome of the same call on the records without
that field; hence a key that is not the key of a traversed field outside the
sub-record is not returned, whatever the filter holds. -/
theorem merge_passes_over_absent_source_subrecord (name : String)
    (pre post : List (StructField × GoType)) (ft : StructField) (n : String)
    (sub : List (StructField × GoType)) (x : Value) (tpre tpost spre spost : List Value)
    (keys : KeyMap) (opts : List Opt)
    (ha : ft.Anonymous = true) (ht : tpre.length = pre.length)
    (hs : spre.length = pre.length) :
    ∃ tpre2 tpost2, tpre2.length = pre.length ∧
      (Merge (record name (pre ++ (ft, .ptr (.struct n sub)) :: post) (tpre ++ .ptr x :: tpost))
        (record name (pre ++ (ft, .ptr (.struct n sub)) :: post) (spre ++ .nil :: spost))
        keys opts).target =
        record name (pre ++ (ft, .ptr (.struct n sub)) :: post) (tpre2 ++ .ptr x :: tpost2) ∧
      (Merge (record name (pre ++ post) (tpre ++ tpost))
        (record name (pre ++ post) (spre ++ spost)) keys opts).target =
        record name (pre ++ post) (tpre2 ++ tpost2) ∧
      (Merge (record name (pre ++ (ft, .ptr (.struct n sub)) :: post) (tpre ++ .ptr x :: tpost))
        (record name (pre ++ (ft, .ptr (.struct n sub)) :: post) (spre ++ .nil :: spost))
        keys opts).keys =
        (Merge (record name (pre ++ post) (tpre ++ tpost))
          (record name (pre ++ post) (spre ++ spost)) keys opts).keys ∧
      (Merge (record name (pre ++ (ft, .ptr (.struct n sub)) :: post) (tpre ++ .ptr x :: tpost))
        (record name (pre ++ (ft, .ptr (.struct n sub)) :: post) (spre ++ .nil :: spost))
        keys opts).exit =
        (Merge (record name (pre ++ post) (tpre ++ tpost))
          (record name (pre ++ post) (spre ++ spost)) keys opts).exit ∧
      ∀ k, (∀ l ∈ leaves (effectiveTag opts) (pre ++ post) (tpre ++ tpost) (spre ++ spost),
          l.key ≠ k) →
        k ∉ (Merge (record name (pre ++ (ft, .ptr (.struct n sub)) :: post)
            (tpre ++ .ptr x :: tpost))
          (record name (pre ++ (ft, .ptr (.struct n sub)) :: post) (spre ++ .nil :: spost))
          keys opts).keys.getD [] := by
  have hskip := processStructs_absent_source (effectiveTag opts) keys true ft n sub x ha post
    tpost spost pre tpre spre [] ht hs
  have hlen := processStructs_length (effectiveTag opts) keys true (pre ++ post)
    (tpre ++ tpost) (spre ++ spost) []
  have hkeys : ∀ k, (∀ l ∈ leaves (effectiveTag opts) (pre ++ post) (tpre ++ tpost)
      (spre ++ spost), l.key ≠ k) →
      k ∉ (Merge (record name (pre ++ post) (tpre ++ tpost))
        (record name (pre ++ post) (spre ++ spost)) keys opts).keys.getD [] := by
    intro k hk hmem
    by_cases hok : (Merge (record name (pre ++ post) (tpre ++ tpost))
        (record name (pre ++ post) (spre ++ spost)) keys opts).exit = .ok
    · unfold Merge at hok hmem
      rw [process_keys_of_ok _ _ _ _ _ _ _ hok] at hmem
      obtain ⟨l, hl, hkey, _⟩ := (mem_reportedKeys keys _ k).1 hmem
      exact hk l hl hkey
    · unfold Merge at hok hmem
      rw [process_keys_of_not_ok _ _ _ _ _ _ _ hok] at hmem
      cases hmem
  unfold Merge record at hkeys ⊢
  rw [process_records, process_records, hskip] at *
  refine ⟨(processStructs (effectiveTag opts) keys true (pre ++ post) (tpre ++ tpost)
      (spre ++ spost) []).target.take pre.length,
    (processStructs (effectiveTag opts) keys true (pre ++ post) (tpre ++ tpost)
      (spre ++ spost) []).target.drop pre.length, ?_, ?_⟩
  · rw [List.length_take, hlen, List.length_append, ht]
    omega
  · by_cases hw : (processStructs (effectiveTag opts) keys true (pre ++ post) (tpre ++ tpost)
        (spre ++ spost) []).exit = .ok
    · simp only [hw, if_true, List.take_append_drop] at hkeys ⊢
      exact ⟨trivial, trivial, trivial, trivial, hkeys⟩
    · simp only [hw, if_false, List.take_append_drop] at hkeys ⊢
      exact ⟨trivial, trivial, trivial, trivial, hkeys⟩

/-- Witness for C10: the example record type, whose last field is the embedded
`*AnonymPtr`; dest's sub-record is populated, update's is nil, and the filter
contains the key beneath it. -/
theorem merge_passes_over_absent_source_subrecord_witness :
    ∃ tpre2 tpost2, tpre2.length = exPre.length ∧
      (Merge
        (record "test" (exPre ++ (exPtrField, .ptr (.struct "AnonymPtr"
            [(⟨"AnonymPtrString", false, [("json", "anonym_ptr_string")]⟩, .string)])) :: [])
          ([.string "string_val", .bool true, .struct [.bool true]] ++
            .ptr (.struct [.string "anonym_ptr_string_val"]) :: []))
        (record "test" (exPre ++ (exPtrField, .ptr (.struct "AnonymPtr"
            [(⟨"AnonymPtrString", false, [("json", "anonym_ptr_string")]⟩, .string)])) :: [])
          ([.string "test2", .bool false, .struct [.bool false]] ++ .nil :: []))
        (some ["string", "anonym_ptr_string"]) []).target =
        record "test" (exPre ++ (exPtrField, .ptr (.struct "AnonymPtr"
            [(⟨"AnonymPtrString", false, [("json", "anonym_ptr_string")]⟩, .string)])) :: [])
          (tpre2 ++ .ptr (.struct [.string "anonym_ptr_string_val"]) :: tpost2) ∧
      (Merge (record "test" (exPre ++ [])
          ([.string "string_val", .bool true, .struct [.bool true]] ++ []))
        (record "test" (exPre ++ [])
          ([.string "test2", .bool false, .struct [.bool false]] ++ []))
        (some ["string", "anonym_ptr_string"]) []).target =
        record "test" (exPre ++ []) (tpre2 ++ tpost2) ∧
      (Merge
        (record "test" (exPre ++ (exPtrField, .ptr (.struct "AnonymPtr"
            [(⟨"AnonymPtrString", false, [("json", "anonym_ptr_string")]⟩, .string)])) :: [])
          ([.string "string_val", .bool true, .struct [.bool true]] ++
            .ptr (.struct [.string "anonym_ptr_string_val"]) :: []))
        (record "test" (exPre ++ (exPtrField, .ptr (.struct "AnonymPtr"
            [(⟨"AnonymPtrString", false, [("json", "anonym_ptr_string")]⟩, .string)])) :: [])
          ([.string "test2", .bool false, .struct [.bool false]] ++ .nil :: []))
        (some ["string", "anonym_ptr_string"]) []).keys =
        (Merge (record "test" (exPre ++ [])
          ([.string "string_val", .bool true, .struct [.bool true]] ++ []))
        (record "test" (exPre ++ [])
          ([.string "test2", .bool false, .struct [.bool false]] ++ []))
        (some ["string", "anonym_ptr_string"]) []).keys ∧
      (Merge
        (record "test" (exPre ++ (exPtrField, .ptr (.struct "AnonymPtr"
            [(⟨"AnonymPtrString", false, [("json", "anonym_ptr_string")]⟩, .string)])) :: [])
          ([.string "string_val", .bool true, .struct [.bool true]] ++
            .ptr (.struct [.string "anonym_ptr_string_val"]) :: []))
        (record "test" (exPre ++ (exPtrField, .ptr (.struct "AnonymPtr"
            [(⟨"AnonymPtrString", false, [("json", "anonym_ptr_string")]⟩, .string)])) :: [])
          ([.string "test2", .bool false, .struct [.bool false]] ++ .nil :: []))
        (some ["string", "anonym_ptr_string"]) []).exit =
        (Merge (record "test" (exPre ++ [])
          ([.string "string_val", .bool true, .struct [.bool true]] ++ []))
        (record "test" (exPre ++ [])
          ([.string "test2", .bool false, .struct [.bool false]] ++ []))
        (some ["string", "anonym_ptr_string"]) []).exit ∧
      ∀ k, (∀ l ∈ leaves (effectiveTag []) (exPre ++ [])
            ([.string "string_val", .bool true, .struct [.bool true]] ++ [])
            ([.string "test2", .bool false, .struct [.bool false]] ++ []),
          l.key ≠ k) →
        k ∉ (Merge
          (record "test" (exPre ++ (exPtrField, .ptr (.struct "AnonymPtr"
              [(⟨"AnonymPtrString", false, [("json", "anonym_ptr_string")]⟩, .string)])) :: [])
            ([.string "string_val", .bool true, .struct [.bool true]] ++
              .ptr (.struct [.string "anonym_ptr_string_val"]) :: []))
          (record "test" (exPre ++ (exPtrField, .ptr (.struct "AnonymPtr"
              [(⟨"AnonymPtrString", false, [("json", "anonym_ptr_string")]⟩, .string)])) :: [])
            ([.string "test2", .bool false, .struct [.bool false]] ++ .nil :: []))
          (some ["string", "anonym_ptr_string"]) []).keys.getD [] :=
  merge_passes_over_absent_source_subrecord "test" exPre [] exPtrField "AnonymPtr"
    [(⟨"AnonymPtrString", false, [("json", "anonym_ptr_string")]⟩, .string)]
    (.struct [.string "anonym_ptr_string_val"])
    [.string "string_val", .bool true, .struct [.bool true]] []
    [.string "test2", .bool false, .struct [.bool false]] []
    (some ["string", "anonym_ptr_string"]) [] rfl rfl rfl

/-! ## Diff and Merge side by side -/

/-- The course of the embedded-field branch is decided by the field's type and
its two values alone; the mode and the incoming key list do not matter. -/
theorem processAnonym_shape (tag : String) (keys : KeyMap) (ty : GoType) (tv sv : Value) :
    (∃ n fs tfs sfs, ty = .struct n fs ∧ tv = .struct tfs ∧ sv = .struct sfs ∧
      ∀ merge pk, processAnonym tag keys merge ty tv sv pk =
        (.struct (processStructs tag keys merge fs tfs sfs pk).target,
          (processStructs tag keys merge fs tfs sfs pk).processedKeys,
          (processStructs tag keys merge fs tfs sfs pk).exit)) ∨
    (∃ n fs tfs sfs, ty = .ptr (.struct n fs) ∧ tv = .ptr (.struct tfs) ∧
      sv = .ptr (.struct sfs) ∧
      ∀ merge pk, processAnonym tag keys merge ty tv sv pk =
        (.ptr (.struct (processStructs tag keys merge fs tfs sfs pk).target),
          (processStructs tag keys merge fs tfs sfs pk).processedKeys,
          (processStructs tag keys merge fs tfs sfs pk).exit)) ∨
    (∃ n fs x, ty = .ptr (.struct n fs) ∧ tv = .ptr x ∧ sv = .nil ∧
      ∀ merge pk, processAnonym tag keys merge ty tv sv pk = (tv, pk, .ok)) ∨
    (ty.Kind ≠ .Struct ∧ elemKind ty tv ≠ .Struct ∧
      ∀ merge pk, processAnonym tag keys merge ty tv sv pk = (tv, pk, .error errAnonym)) ∨
    ((hasType tv ty && hasType sv ty) = false ∧
      ∃ m, ∀ merge pk, processAnonym tag keys merge ty tv sv pk = (tv, pk, .panic m)) := by
  cases ty with
  | bool =>
    exact Or.inr (Or.inr (Or.inr (Or.inl ⟨by decide, by simp [elemKind], fun _ _ => rfl⟩)))
  | int =>
    exact Or.inr (Or.inr (Or.inr (Or.inl ⟨by decide, by simp [elemKind], fun _ _ => rfl⟩)))
  | string =>
    exact Or.inr (Or.inr (Or.inr (Or.inl ⟨by decide, by simp [elemKind], fun _ _ => rfl⟩)))
  | float64 =>
    exact Or.inr (Or.inr (Or.inr (Or.inl ⟨by decide, by simp [elemKind], fun _ _ => rfl⟩)))
  | func =>
    exact Or.inr (Or.inr (Or.inr (Or.inl ⟨by decide, by simp [elemKind], fun _ _ => rfl⟩)))
  | struct n fs =>
    cases tv <;> cases sv <;>
      first
      | exact Or.inl ⟨_, _, _, _, rfl, rfl, rfl, fun _ _ => rfl⟩
      | exact Or.inr (Or.inr (Or.inr (Or.inr ⟨by simp [hasType], _, fun _ _ => rfl⟩)))
  | ptr e =>
    cases tv with
    | ptr x =>
      cases e with
      | struct n fs =>
        cases sv with
        | nil => exact Or.inr (Or.inr (Or.inl ⟨_, _, _, rfl, rfl, rfl, fun _ _ => rfl⟩))
        | ptr y =>
          cases x <;> cases y <;>
            first
            | exact Or.inr (Or.inl ⟨_, _, _, _, rfl, rfl, rfl, fun _ _ => rfl⟩)
            | exact Or.inr (Or.inr (Or.inr (Or.inr ⟨by simp [hasType], _, fun _ _ => rfl⟩)))
        | bool b =>
          cases x <;>
            exact Or.inr (Or.inr (Or.inr (Or.inr ⟨by simp [hasType], _, fun _ _ => rfl⟩)))
        | int b =>
          cases x <;>
            exact Or.inr (Or.inr (Or.inr (Or.inr ⟨by simp [hasType], _, fun _ _ => rfl⟩)))
        | string b =>
          cases x <;>
            exact Or.inr (Or.inr (Or.inr (Or.inr ⟨by simp [hasType], _, fun _ _ => rfl⟩)))
        | float64 b =>
          cases x <;>
            exact Or.inr (Or.inr (Or.inr (Or.inr ⟨by simp [hasType], _, fun _ _ => rfl⟩)))
        | func b =>
          cases x <;>
            exact Or.inr (Or.inr (Or.inr (Or.inr ⟨by simp [hasType], _, fun _ _ => rfl⟩)))
        | struct b =>
          cases x <;>
            exact Or.inr (Or.inr (Or.inr (Or.inr ⟨by simp [hasType], _, fun _ _ => rfl⟩)))
      | bool =>
        exact Or.inr (Or.inr (Or.inr (Or.inl
          ⟨by decide, by simp [elemKind, GoType.Kind], fun _ _ => rfl⟩)))
      | int =>
        exact Or.inr (Or.inr (Or.inr (Or.inl
          ⟨by decide, by simp [elemKind, GoType.Kind], fun _ _ => rfl⟩)))
      | string =>
        exact Or.inr (Or.inr (Or.inr (Or.inl
          ⟨by decide, by simp [elemKind, GoType.Kind], fun _ _ => rfl⟩)))
      | float64 =>
        exact Or.inr (Or.inr (Or.inr (Or.inl
          ⟨by decide, by simp [elemKind, GoType.Kind], fun _ _ => rfl⟩)))
      | func =>
        exact Or.inr (Or.inr (Or.inr (Or.inl
          ⟨by decide, by simp [elemKind, GoType.Kind], fun _ _ => rfl⟩)))
      | ptr e2 =>
        exact Or.inr (Or.inr (Or.inr (Or.inl
          ⟨by simp [GoType.Kind], by simp [elemKind, GoType.Kind], fun _ _ => rfl⟩)))
    | nil =>
      exact Or.inr (Or.inr (Or.inr (Or.inl
        ⟨by simp [GoType.Kind], by simp [elemKind], fun _ _ => rfl⟩)))
    | bool b =>
      exact Or.inr (Or.inr (Or.inr (Or.inl
        ⟨by simp [GoType.Kind], by simp [elemKind], fun _ _ => rfl⟩)))
    | int b =>
      exact Or.inr (Or.inr (Or.inr (Or.inl
        ⟨by simp [GoType.Kind], by simp [elemKind], fun _ _ => rfl⟩)))
    | string b =>
      exact Or.inr (Or.inr (Or.inr (Or.inl
        ⟨by simp [GoType.Kind], by simp [elemKind], fun _ _ => rfl⟩)))
    | float64 b =>
      exact Or.inr (Or.inr (Or.inr (Or.inl
        ⟨by simp [GoType.Kind], by simp [elemKind], fun _ _ => rfl⟩)))
    | func b =>
      exact Or.inr (Or.inr (Or.inr (Or.inl
        ⟨by simp [GoType.Kind], by simp [elemKind], fun _ _ => rfl⟩)))
    | struct b =>
      exact Or.inr (Or.inr (Or.inr (Or.inl
        ⟨by simp [GoType.Kind], by simp [elemKind], fun _ _ => rfl⟩)))

theorem fieldStep_modes (tag : String) (keys : KeyMap) (ft : StructField)
    (ty : GoType) (tv sv : Value) (pk : List String)
    (ih1 : ∀ n fs, ty = .struct n fs → ∀ tvs svs pk,
      (processStructs tag keys true fs tvs svs pk).processedKeys =
          (processStructs tag keys false fs tvs svs pk).processedKeys ∧
        (processStructs tag keys true fs tvs svs pk).exit =
          (processStructs tag keys false fs tvs svs pk).exit)
    (ih2 : ∀ n fs, ty = .ptr (.struct n fs) → ∀ tvs svs pk,
      (processStructs tag keys true fs tvs svs pk).processedKeys =
          (processStructs tag keys false fs tvs svs pk).processedKeys ∧
        (processStructs tag keys true fs tvs svs pk).exit =
          (processStructs tag keys false fs tvs svs pk).exit) :
    (fieldStep tag keys true ft ty tv sv pk).2 = (fieldStep tag keys false ft ty tv sv pk).2 := by
  cases ha : ft.Anonymous with
  | false =>
    rw [fieldStep_plain _ _ _ _ _ _ _ _ ha, fieldStep_plain _ _ _ _ _ _ _ _ ha]
    split <;> rfl
  | true =>
    rw [fieldStep_anonym _ _ _ _ _ _ _ _ ha, fieldStep_anonym _ _ _ _ _ _ _ _ ha]
    rcases processAnonym_shape tag keys ty tv sv with
      ⟨n, fs, tfs, sfs, rfl, rfl, rfl, h⟩ | ⟨n, fs, tfs, sfs, rfl, rfl, rfl, h⟩ |
      ⟨n, fs, x, rfl, rfl, rfl, h⟩ | ⟨_, _, h⟩ | ⟨_, m, h⟩
    · rw [h, h]
      simp only [(ih1 n fs rfl tfs sfs pk).1, (ih1 n fs rfl tfs sfs pk).2]
    · rw [h, h]
      simp only [(ih2 n fs rfl tfs sfs pk).1, (ih2 n fs rfl tfs sfs pk).2]
    · rw [h, h]
    · rw [h, h]
    · rw [h, h]

/-- The merging and the comparing traversal accumulate the same key list and
end the same way. -/
theorem processStructs_modes (tag : String) (keys : KeyMap)
    (fs : List (StructField × GoType)) :
    ∀ (tvs svs : List Value) (pk : List String),
      (processStructs tag keys true fs tvs svs pk).processedKeys =
          (processStructs tag keys false fs tvs svs pk).processedKeys ∧
        (processStructs tag keys true fs tvs svs pk).exit =
          (processStructs tag keys false fs tvs svs pk).exit := by
  induction fs using fields_induction with
  | hnil => intro tvs svs pk; rw [processStructs_nil, processStructs_nil]; exact ⟨rfl, rfl⟩
  | hcons ft ty rest ih1 ih2 ih =>
    intro tvs svs pk
    cases tvs with
    | nil => rw [processStructs_short_target, processStructs_short_target]; exact ⟨rfl, rfl⟩
    | cons tv tvs =>
      cases svs with
      | nil => rw [processStructs_short_source, processStructs_short_source]; exact ⟨rfl, rfl⟩
      | cons sv svs =>
        rw [processStructs_cons_eq, processStructs_cons_eq]
        have hs := fieldStep_modes tag keys ft ty tv sv pk ih1 ih2
        have hs1 : (fieldStep tag keys true ft ty tv sv pk).2.1 =
            (fieldStep tag keys false ft ty tv sv pk).2.1 := by rw [hs]
        have hs2 : (fieldStep tag keys true ft ty tv sv pk).2.2 =
            (fieldStep tag keys false ft ty tv sv pk).2.2 := by rw [hs]
        rw [hs1, hs2]
        split
        · exact ih _ _ _
        · exact ⟨rfl, rfl⟩

/-- For a target and a source given as two trees, which share no referent,
`Merge` and `Diff` return the same key list and end the same way (both with no
error, both with the same error, or both with the same panic). -/
theorem merge_and_diff_return_the_same_keys (target source : Iface) (keys : KeyMap)
    (opts : List Opt) :
    (Merge target source keys opts).keys = (Diff target source keys opts).keys ∧
    (Merge target source keys opts).exit = (Diff target source keys opts).exit := by
  unfold Merge Diff process
  split
  · exact ⟨rfl, rfl⟩
  · split
    · exact ⟨rfl, rfl⟩
    · exact ⟨rfl, rfl⟩
    · split
      · exact ⟨rfl, rfl⟩
      · split
        · exact ⟨rfl, rfl⟩
        · split
          · dsimp only
            rw [(processStructs_modes _ keys _ _ _ []).1, (processStructs_modes _ keys _ _ _ []).2]
            split <;> exact ⟨rfl, rfl⟩
          · exact ⟨rfl, rfl⟩

/-! ## Merging twice -/

theorem fieldStep_settled (tag : String) (keys : KeyMap) (merge : Bool) (ft : StructField)
    (ty : GoType) (tv sv : Value) (pk pk2 : List String)
    (ih1 : ∀ n fs, ty = .struct n fs → ∀ tvs svs pk pk2,
      (processStructs tag keys true fs tvs svs pk).exit = .ok →
      (processStructs tag keys merge fs (processStructs tag keys true fs tvs svs pk).target
        svs pk2).target = (processStructs tag keys true fs tvs svs pk).target ∧
      (processStructs tag keys merge fs (processStructs tag keys true fs tvs svs pk).target
        svs pk2).exit = .ok)
    (ih2 : ∀ n fs, ty = .ptr (.struct n fs) → ∀ tvs svs pk pk2,
      (processStructs tag keys true fs tvs svs pk).exit = .ok →
      (processStructs tag keys merge fs (processStructs tag keys true fs tvs svs pk).target
        svs pk2).target = (processStructs tag keys true fs tvs svs pk).target ∧
      (processStructs tag keys merge fs (processStructs tag keys true fs tvs svs pk).target
        svs pk2).exit = .ok)
    (hok : (fieldStep tag keys true ft ty tv sv pk).2.2 = .ok) :
    (fieldStep tag keys merge ft ty (fieldStep tag keys true ft ty tv sv pk).1 sv pk2).1 =
      (fieldStep tag keys true ft ty tv sv pk).1 ∧
    (fieldStep tag keys merge ft ty (fieldStep tag keys true ft ty tv sv pk).1 sv pk2).2.2 =
      .ok := by
  cases ha : ft.Anonymous with
  | false =>
    rw [fieldStep_plain _ _ true _ _ _ _ _ ha, fieldStep_plain _ _ merge _ _ _ _ _ ha]
    by_cases hr : (Leaf.mk (fieldKey tag ft) tv sv).reported keys = true
    · rw [if_pos hr]
      simp only [if_true]
      by_cases h2 : (Leaf.mk (fieldKey tag ft) sv sv).reported keys = true
      · rw [if_pos h2]
        cases merge <;> exact ⟨rfl, rfl⟩
      · rw [if_neg h2]
        exact ⟨rfl, rfl⟩
    · rw [if_neg hr]
      simp only
      rw [if_neg hr]
      exact ⟨rfl, rfl⟩
  | true =>
    rw [fieldStep_anonym _ _ true _ _ _ _ _ ha] at hok ⊢
    rw [fieldStep_anonym _ _ merge _ _ _ _ _ ha]
    rcases processAnonym_shape tag keys ty tv sv with
      ⟨n, fs, tfs, sfs, rfl, rfl, rfl, h⟩ | ⟨n, fs, tfs, sfs, rfl, rfl, rfl, h⟩ |
      ⟨n, fs, x, rfl, rfl, rfl, h⟩ | ⟨_, _, h⟩ | ⟨_, m, h⟩
    · rw [h] at hok ⊢
      simp only at hok ⊢
      rw [processAnonym_struct]
      obtain ⟨h1, h2⟩ := ih1 n fs rfl tfs sfs pk pk2 hok
      exact ⟨by simp only [h1], h2⟩
    · rw [h] at hok ⊢
      simp only at hok ⊢
      rw [processAnonym_ptr]
      obtain ⟨h1, h2⟩ := ih2 n fs rfl tfs sfs pk pk2 hok
      exact ⟨by simp only [h1], h2⟩
    · rw [h]
      simp only
      rw [processAnonym_skip]
      exact ⟨rfl, rfl⟩
    · rw [h] at hok
      cases hok
    · rw [h] at hok
      cases hok

/-- After a successful merging traversal, a further traversal of the merged
target against the same source, in either mode, writes nothing and ends
normally. -/
theorem processStructs_settled (tag : String) (keys : KeyMap) (merge : Bool)
    (fs : List (StructField × GoType)) :
    ∀ (tvs svs : List Value) (pk pk2 : List String),
      (processStructs tag keys true fs tvs svs pk).exit = .ok →
      (processStructs tag keys merge fs (processStructs tag keys true fs tvs svs pk).target
        svs pk2).target = (processStructs tag keys true fs tvs svs pk).target ∧
      (processStructs tag keys merge fs (processStructs tag keys true fs tvs svs pk).target
        svs pk2).exit = .ok := by
  induction fs using fields_induction with
  | hnil =>
    intro tvs svs pk pk2 _
    rw [processStructs_nil, processStructs_nil]
    exact ⟨rfl, rfl⟩
  | hcons ft ty rest ih1 ih2 ih =>
    intro tvs svs pk pk2 hok
    cases tvs with
    | nil => rw [processStructs_short_target] at hok; cases hok
    | cons tv tvs =>
      cases svs with
      | nil => rw [processStructs_short_source] at hok; cases hok
      | cons sv svs =>
        rw [processStructs_cons_eq] at hok ⊢
        by_cases hs : (fieldStep tag keys true ft ty tv sv pk).2.2 = .ok
        · rw [if_pos hs] at hok ⊢
          simp only at hok ⊢
          obtain ⟨hs1, hs2⟩ := fieldStep_settled tag keys merge ft ty tv sv pk pk2 ih1 ih2 hs
          rw [processStructs_cons_eq, if_pos hs2]
          simp only
          obtain ⟨hr1, hr2⟩ := ih tvs svs (fieldStep tag keys true ft ty tv sv pk).2.1
            (fieldStep tag keys merge ft ty (fieldStep tag keys true ft ty tv sv pk).1 sv pk2).2.1
            hok
          exact ⟨by rw [hs1, hr1], hr2⟩
        · rw [if_neg hs] at hok
          exact absurd hok hs

/-- After a successful merging traversal, a further traversal of the merged
target against the same source reports nothing when no traversed field whose
non-empty key passes the filter holds a `NaN` or a non-nil func on the source
side. -/
theorem processStructs_settled_keys (tag : String) (keys : KeyMap)
    (fs : List (StructField × GoType)) (tvs svs : List Value) (pk : List String)
    (hok : (processStructs tag keys true fs tvs svs pk).exit = .ok)
    (hnan : ∀ l ∈ leaves tag fs tvs svs, l.key ≠ "" →
      (keys = none ∨ ∃ F, keys = some F ∧ l.key ∈ F) → holdsNaNOrFunc l.source = false) :
    reportedKeys keys
      (leaves tag fs (processStructs tag keys true fs tvs svs pk).target svs) = [] := by
  unfold reportedKeys
  rw [List.map_eq_nil_iff, List.filter_eq_nil_iff]
  intro l hl
  obtain ⟨l0, hl0, hw⟩ := written_of_mem_after (processStructs_written tag keys fs tvs svs pk hok)
    l hl
  have hr := written_not_reported hw
    (fun hne hf => hnan l0 hl0 hne ((filteredOut_eq_false keys l0.key).1 hf))
  simp [hr]

/-- C16, counterexample: on `type F struct { V float64 "json:v" }` with dest
`F{1}` and update `F{NaN}`, `Merge` with a nil filter succeeds, and a second
`Merge` with the same update and filter returns the list `[v]` again, not the
empty list. -/
theorem second_merge_reports_nan_field_again :
    (Merge (record "F" exFloatFields exFloatCurrent) (record "F" exFloatFields exFloatUpdate)
      none []).exit = .ok ∧
    (Merge (Merge (record "F" exFloatFields exFloatCurrent)
        (record "F" exFloatFields exFloatUpdate) none []).target
      (record "F" exFloatFields exFloatUpdate) none []).keys = some ["v"] := by
  decide

/-- C16, amended: when `Merge` succeeds, a second `Merge` with the same update,
filter and options leaves dest in the state the first call produced and returns
no error; it returns the empty key list when no traversed non-embedded field
whose non-empty key passes the filter holds a `NaN` or a non-nil func in
update. -/
theorem merge_twice_changes_nothing_without_nan_or_func (n : String)
    (fs : List (StructField × GoType)) (tvs svs : List Value) (keys : KeyMap) (opts : List Opt)
    (hok : (Merge (record n fs tvs) (record n fs svs) keys opts).exit = .ok) :
    (Merge (Merge (record n fs tvs) (record n fs svs) keys opts).target (record n fs svs)
        keys opts).target = (Merge (record n fs tvs) (record n fs svs) keys opts).target ∧
    (Merge (Merge (record n fs tvs) (record n fs svs) keys opts).target (record n fs svs)
        keys opts).exit = .ok ∧
    ((∀ l ∈ leaves (effectiveTag opts) fs tvs svs, l.key ≠ "" →
        (keys = none ∨ ∃ F, keys = some F ∧ l.key ∈ F) → holdsNaNOrFunc l.source = false) →
      (Merge (Merge (record n fs tvs) (record n fs svs) keys opts).target (record n fs svs)
        keys opts).keys = some []) := by
  unfold Merge record at hok ⊢
  rw [process_records] at hok ⊢
  by_cases hw : (processStructs (effectiveTag opts) keys true fs tvs svs []).exit = .ok
  · rw [if_pos hw]
    simp only
    obtain ⟨h1, h2⟩ := processStructs_settled (effectiveTag opts) keys true fs tvs svs [] [] hw
    rw [process_records, if_pos h2]
    refine ⟨by simp only [h1], rfl, fun hnan => ?_⟩
    simp only
    rw [processStructs_keys _ _ _ _ _ _ _ h2,
      processStructs_settled_keys _ _ _ _ _ _ hw hnan]
    rfl
  · rw [if_neg hw] at hok
    exact absurd hok hw

/-- Witness for C16 on the example records with a nil filter. -/
theorem merge_twice_changes_nothing_without_nan_or_func_witness :
    (Merge (Merge (record "test" exFields exCurrent) (record "test" exFields exUpdate)
        none []).target (record "test" exFields exUpdate) none []).target =
      (Merge (record "test" exFields exCurrent) (record "test" exFields exUpdate)
        none []).target ∧
    (Merge (Merge (record "test" exFields exCurrent) (record "test" exFields exUpdate)
        none []).target (record "test" exFields exUpdate) none []).exit = .ok ∧
    ((∀ l ∈ leaves (effectiveTag []) exFields exCurrent exUpdate, l.key ≠ "" →
        ((none : KeyMap) = none ∨ ∃ F, (none : KeyMap) = some F ∧ l.key ∈ F) →
        holdsNaNOrFunc l.source = false) →
      (Merge (Merge (record "test" exFields exCurrent) (record "test" exFields exUpdate)
        none []).target (record "test" exFields exUpdate) none []).keys = some []) :=
  merge_twice_changes_nothing_without_nan_or_func "test" exFields exCurrent exUpdate none []
    (by decide)

/-- C17, counterexample: on `type F struct { V float64 "json:v" }` with target
`F{1}` and update `F{NaN}`, `Merge` with a nil filter succeeds, and the
following `Diff` with a nil filter returns the list `[v]`, not the empty list. -/
theorem diff_after_merge_reports_nan_field :
    (Merge (record "F" exFloatFields exFloatCurrent) (record "F" exFloatFields exFloatUpdate)
      none []).exit = .ok ∧
    (Diff (Merge (record "F" exFloatFields exFloatCurrent)
        (record "F" exFloatFields exFloatUpdate) none []).target
      (record "F" exFloatFields exFloatUpdate) none []).keys = some ["v"] := by
  decide

/-- C17, amended: when `Merge` with a nil filter succeeds and no traversed
non-embedded field with a non-empty key holds a `NaN` or a non-nil func in
update, a following `Diff` of the merged target against the same update, with a
nil filter and the same options, returns the empty list, with no error. -/
theorem diff_after_merge_is_empty_without_nan_or_func (n : String)
    (fs : List (StructField × GoType))
    (tvs svs : List Value) (opts : List Opt)
    (hok : (Merge (record n fs tvs) (record n fs svs) none opts).exit = .ok)
    (hnan : ∀ l ∈ leaves (effectiveTag opts) fs tvs svs, l.key ≠ "" →
      holdsNaNOrFunc l.source = false) :
    (Diff (Merge (record n fs tvs) (record n fs svs) none opts).target (record n fs svs)
        none opts).keys = some [] ∧
    (Diff (Merge (record n fs tvs) (record n fs svs) none opts).target (record n fs svs)
        none opts).exit = .ok := by
  unfold Merge record at hok
  unfold Diff Merge record
  rw [process_records] at hok ⊢
  by_cases hw : (processStructs (effectiveTag opts) none true fs tvs svs []).exit = .ok
  · rw [if_pos hw]
    simp only
    obtain ⟨_, h2⟩ := processStructs_settled (effectiveTag opts) none false fs tvs svs [] [] hw
    rw [process_records, if_pos h2]
    simp only
    rw [processStructs_keys _ _ _ _ _ _ _ h2,
      processStructs_settled_keys _ _ _ _ _ _ hw (fun l hl hne _ => hnan l hl hne)]
    exact ⟨rfl, trivial⟩
  · rw [if_neg hw] at hok
    exact absurd hok hw

/-- Witness for C17 on the example records. -/
theorem diff_after_merge_is_empty_without_nan_or_func_witness :
    (Diff (Merge (record "test" exFields exCurrent) (record "test" exFields exUpdate)
        none []).target (record "test" exFields exUpdate) none []).keys = some [] ∧
    (Diff (Merge (record "test" exFields exCurrent) (record "test" exFields exUpdate)
        none []).target (record "test" exFields exUpdate) none []).exit = .ok :=
  diff_after_merge_is_empty_without_nan_or_func "test" exFields exCurrent exUpdate [] (by decide)
    (by decide)

theorem merge_and_diff_exit (target source : Iface) (keys : KeyMap) (opts : List Opt) :
    (Merge target source keys opts).exit = (Diff target source keys opts).exit := by
  unfold Merge Diff process
  split
  · rfl
  · split
    · rfl
    · rfl
    · split
      · rfl
      · split
        · rfl
        · split
          · dsimp only
            rw [(processStructs_modes _ keys _ _ _ []).2]
            split <;> rfl
          · rfl

/-! ## Traversing a field list in two parts -/

theorem processStructs_append (tag : String) (keys : KeyMap) (merge : Bool)
    (rest : List (StructField × GoType)) (trest srest : List Value)
    (pre : List (StructField × GoType)) :
    ∀ (tpre spre : List Value) (pk : List String),
      tpre.length = pre.length → spre.length = pre.length →
      processStructs tag keys merge (pre ++ rest) (tpre ++ trest) (spre ++ srest) pk =
        if (processStructs tag keys merge pre tpre spre pk).exit = .ok then
          ⟨(processStructs tag keys merge pre tpre spre pk).target ++
              (processStructs tag keys merge rest trest srest
                (processStructs tag keys merge pre tpre spre pk).processedKeys).target,
            (processStructs tag keys merge rest trest srest
                (processStructs tag keys merge pre tpre spre pk).processedKeys).processedKeys,
            (processStructs tag keys merge rest trest srest
                (processStructs tag keys merge pre tpre spre pk).processedKeys).exit⟩
        else
          ⟨(processStructs tag keys merge pre tpre spre pk).target ++ trest,
            (processStructs tag keys merge pre tpre spre pk).processedKeys,
            (processStructs tag keys merge pre tpre spre pk).exit⟩ := by
  induction pre with
  | nil =>
    intro tpre spre pk ht hs
    cases tpre with
    | cons _ _ => simp at ht
    | nil =>
      cases spre with
      | cons _ _ => simp at hs
      | nil =>
        simp only [List.nil_append]
        rw [processStructs_nil]
        simp
  | cons f pre ih =>
    intro tpre spre pk ht hs
    obtain ⟨ft2, ty2⟩ := f
    cases tpre with
    | nil => simp at ht
    | cons tv tpre =>
      cases spre with
      | nil => simp at hs
      | cons sv spre =>
        simp only [List.length_cons, Nat.add_right_cancel_iff] at ht hs
        simp only [List.cons_append]
        rw [processStructs_cons_eq, processStructs_cons_eq]
        by_cases hok : (fieldStep tag keys merge ft2 ty2 tv sv pk).2.2 = .ok
        · rw [if_pos hok, if_pos hok, ih tpre spre _ ht hs]
          simp only
          split <;> simp
        · rw [if_neg hok, if_neg hok]
          simp only
          rw [if_neg hok]
          simp

theorem leaves_append (tag : String) (rest : List (StructField × GoType))
    (trest srest : List Value) (pre : List (StructField × GoType)) :
    ∀ (tpre spre : List Value), tpre.length = pre.length → spre.length = pre.length →
      leaves tag (pre ++ rest) (tpre ++ trest) (spre ++ srest) =
        leaves tag pre tpre spre ++ leaves tag rest trest srest := by
  induction pre with
  | nil =>
    intro tpre spre ht hs
    cases tpre with
    | cons _ _ => simp at ht
    | nil =>
      cases spre with
      | cons _ _ => simp at hs
      | nil => simp [leaves]
  | cons f pre ih =>
    intro tpre spre ht hs
    obtain ⟨ft2, ty2⟩ := f
    cases tpre with
    | nil => simp at ht
    | cons tv tpre =>
      cases spre with
      | nil => simp at hs
      | cons sv spre =>
        simp only [List.length_cons, Nat.add_right_cancel_iff] at ht hs
        simp only [List.cons_append]
        rw [leaves_cons, leaves_cons, ih tpre spre ht hs, List.append_assoc]

/-- C14: a non-embedded field, whatever its type (a struct and a pointer to a
struct included), whose non-empty key passes the filter and whose values are not
deeply equal contributes exactly its own key to the list returned by `Merge` and
by `Diff`, between the keys of the fields before it and after it, and `Merge`
puts update's whole value in dest's field. -/
theorem nested_field_is_compared_and_replaced_whole (name : String)
    (pre post : List (StructField × GoType)) (ft : StructField) (ty : GoType)
    (tv sv : Value) (tpre tpost spre spost : List Value) (keys : KeyMap) (opts : List Opt)
    (ha : ft.Anonymous = false) (hk : fieldKey (effectiveTag opts) ft ≠ "")
    (hf : filteredOut keys (fieldKey (effectiveTag opts) ft) = false)
    (hne : deepEqual tv sv = false)
    (ht : tpre.length = pre.length) (hs : spre.length = pre.length)
    (hok : (Merge (record name (pre ++ (ft, ty) :: post) (tpre ++ tv :: tpost))
      (record name (pre ++ (ft, ty) :: post) (spre ++ sv :: spost)) keys opts).exit = .ok) :
    (Merge (record name (pre ++ (ft, ty) :: post) (tpre ++ tv :: tpost))
        (record name (pre ++ (ft, ty) :: post) (spre ++ sv :: spost)) keys opts).keys =
      some (reportedKeys keys (leaves (effectiveTag opts) pre tpre spre) ++
        fieldKey (effectiveTag opts) ft ::
          reportedKeys keys (leaves (effectiveTag opts) post tpost spost)) ∧
    (Diff (record name (pre ++ (ft, ty) :: post) (tpre ++ tv :: tpost))
        (record name (pre ++ (ft, ty) :: post) (spre ++ sv :: spost)) keys opts).keys =
      some (reportedKeys keys (leaves (effectiveTag opts) pre tpre spre) ++
        fieldKey (effectiveTag opts) ft ::
          reportedKeys keys (leaves (effectiveTag opts) post tpost spost)) ∧
    ∃ tpre2 tpost2, tpre2.length = pre.length ∧
      (Merge (record name (pre ++ (ft, ty) :: post) (tpre ++ tv :: tpost))
        (record name (pre ++ (ft, ty) :: post) (spre ++ sv :: spost)) keys opts).target =
        record name (pre ++ (ft, ty) :: post) (tpre2 ++ sv :: tpost2) := by
  have hrep : (Leaf.mk (fieldKey (effectiveTag opts) ft) tv sv).reported keys = true := by
    simp [Leaf.reported, hk, hf, hne]
  have hleaves : reportedKeys keys (leaves (effectiveTag opts) (pre ++ (ft, ty) :: post)
      (tpre ++ tv :: tpost) (spre ++ sv :: spost)) =
      reportedKeys keys (leaves (effectiveTag opts) pre tpre spre) ++
        fieldKey (effectiveTag opts) ft ::
          reportedKeys keys (leaves (effectiveTag opts) post tpost spost) := by
    rw [leaves_append _ _ _ _ _ _ _ ht hs, leaves_cons, reportedKeys_append,
      reportedKeys_append]
    simp [stepLeaves, ha, reportedKeys, hrep]
  have hdiff : (Diff (record name (pre ++ (ft, ty) :: post) (tpre ++ tv :: tpost))
      (record name (pre ++ (ft, ty) :: post) (spre ++ sv :: spost)) keys opts).exit = .ok := by
    rw [← (merge_and_diff_exit _ _ _ _)]
    exact hok
  refine ⟨?_, ?_, ?_⟩
  · unfold Merge at hok ⊢
    rw [process_keys_of_ok _ _ _ _ _ _ _ hok, hleaves]
  · unfold Diff at hdiff ⊢
    rw [process_keys_of_ok _ _ _ _ _ _ _ hdiff, hleaves]
  · unfold Merge record at hok ⊢
    rw [process_records] at hok ⊢
    by_cases hw : (processStructs (effectiveTag opts) keys true (pre ++ (ft, ty) :: post)
        (tpre ++ tv :: tpost) (spre ++ sv :: spost) []).exit = .ok
    · rw [if_pos hw]
      rw [processStructs_append _ _ _ _ _ _ _ _ _ _ ht hs] at hw ⊢
      by_cases hp : (processStructs (effectiveTag opts) keys true pre tpre spre []).exit = .ok
      · rw [if_pos hp]
        rw [processStructs_cons_eq, fieldStep_plain _ _ _ _ _ _ _ _ ha, if_pos hrep]
        simp only [if_true]
        refine ⟨(processStructs (effectiveTag opts) keys true pre tpre spre []).target, _,
          ?_, rfl⟩
        rw [processStructs_length, ht]
      · rw [if_neg hp] at hw
        exact absurd hw hp
    · rw [if_neg hw] at hok
      exact absurd hok hw

/-- Witness for C14, the test case `nested_change`: the field `Nested` differs,
only the key `nested` is returned, and dest's `Nested` becomes update's value,
zero-valued `Bool` included. -/
theorem nested_field_is_compared_and_replaced_whole_witness :
    (Merge (record "test" (exStringField ++ (exNestedField, exNested) :: [])
          ([.string "string_val"] ++ .struct [.string "nested_string_val", .bool true] :: []))
        (record "test" (exStringField ++ (exNestedField, exNested) :: [])
          ([.string "string_val"] ++ .struct [.string "test2", .bool false] :: []))
        none []).keys =
      some (reportedKeys none (leaves (effectiveTag []) exStringField [.string "string_val"]
          [.string "string_val"]) ++
        fieldKey (effectiveTag []) exNestedField ::
          reportedKeys none (leaves (effectiveTag []) [] [] [])) ∧
    (Diff (record "test" (exStringField ++ (exNestedField, exNested) :: [])
          ([.string "string_val"] ++ .struct [.string "nested_string_val", .bool true] :: []))
        (record "test" (exStringField ++ (exNestedField, exNested) :: [])
          ([.string "string_val"] ++ .struct [.string "test2", .bool false] :: []))
        none []).keys =
      some (reportedKeys none (leaves (effectiveTag []) exStringField [.string "string_val"]
          [.string "string_val"]) ++
        fieldKey (effectiveTag []) exNestedField ::
          reportedKeys none (leaves (effectiveTag []) [] [] [])) ∧
    ∃ tpre2 tpost2, tpre2.length = exStringField.length ∧
      (Merge (record "test" (exStringField ++ (exNestedField, exNested) :: [])
          ([.string "string_val"] ++ .struct [.string "nested_string_val", .bool true] :: []))
        (record "test" (exStringField ++ (exNestedField, exNested) :: [])
          ([.string "string_val"] ++ .struct [.string "test2", .bool false] :: []))
        none []).target =
        record "test" (exStringField ++ (exNestedField, exNested) :: [])
          (tpre2 ++ .struct [.string "test2", .bool false] :: tpost2) :=
  nested_field_is_compared_and_replaced_whole "test" exStringField [] exNestedField exNested
    (.struct [.string "nested_string_val", .bool true]) (.struct [.string "test2", .bool false])
    [.string "string_val"] [] [.string "string_val"] [] none []
    rfl (by decide) (by decide) (by decide) rfl rfl (by decide)

/-! ## Exchanging the two records -/

theorem deepEqual_comm (a : Value) : ∀ b, deepEqual a b = deepEqual b a := by
  refine @Value.rec (fun a => ∀ b, deepEqual a b = deepEqual b a)
    (fun as => ∀ bs, deepEqualFields as bs = deepEqualFields bs as)
    ?_ ?_ ?_ ?_ ?_ ?_ ?_ ?_ ?_ ?_ a
  · intro x b; cases b <;> simp [deepEqual, eq_comm]
  · intro x b; cases b <;> simp [deepEqual, eq_comm]
  · intro x b; cases b <;> simp [deepEqual, eq_comm]
  · intro b; cases b <;> simp [deepEqual]
  · intro v ih b
    cases b <;> simp [deepEqual]
    exact ih _
  · intro fs ih b
    cases b <;> simp [deepEqual]
    exact ih _
  · intro x b
    cases b <;> simp [deepEqual]
    rename_i y
    cases x <;> cases y <;> simp [Float64.eq, eq_comm]
  · intro x b; cases b <;> simp [deepEqual]
  · intro bs; cases bs <;> simp [deepEqualFields]
  · intro x xs ihx ihxs bs
    cases bs with
    | nil => simp [deepEqualFields]
    | cons y ys => simp [deepEqualFields, ihx y, ihxs ys]

theorem leavesAnonym_swap (tag : String) (ty : GoType) (tv sv : Value)
    (ih1 : ∀ n fs, ty = .struct n fs → ∀ tvs svs,
      leaves tag fs svs tvs = (leaves tag fs tvs svs).map Leaf.swap)
    (ih2 : ∀ n fs, ty = .ptr (.struct n fs) → ∀ tvs svs,
      leaves tag fs svs tvs = (leaves tag fs tvs svs).map Leaf.swap) :
    leavesAnonym tag ty sv tv = (leavesAnonym tag ty tv sv).map Leaf.swap := by
  cases ty with
  | bool => cases tv <;> cases sv <;> rfl
  | int => cases tv <;> cases sv <;> rfl
  | string => cases tv <;> cases sv <;> rfl
  | float64 => cases tv <;> cases sv <;> rfl
  | func => cases tv <;> cases sv <;> rfl
  | struct n fs =>
    cases tv <;> cases sv <;> first | rfl | exact ih1 n fs rfl _ _
  | ptr e =>
    cases e with
    | struct n fs =>
      cases tv with
      | ptr x =>
        cases sv with
        | ptr y => cases x <;> cases y <;> first | rfl | exact ih2 n fs rfl _ _
        | nil => cases x <;> rfl
        | bool b => cases x <;> rfl
        | int b => cases x <;> rfl
        | string b => cases x <;> rfl
        | float64 b => cases x <;> rfl
        | func b => cases x <;> rfl
        | struct b => cases x <;> rfl
      | nil => cases sv <;> first | rfl | (rename_i y; cases y <;> rfl)
      | bool b => cases sv <;> first | rfl | (rename_i y; cases y <;> rfl)
      | int b => cases sv <;> first | rfl | (rename_i y; cases y <;> rfl)
      | string b => cases sv <;> first | rfl | (rename_i y; cases y <;> rfl)
      | float64 b => cases sv <;> first | rfl | (rename_i y; cases y <;> rfl)
      | func b => cases sv <;> first | rfl | (rename_i y; cases y <;> rfl)
      | struct b => cases sv <;> first | rfl | (rename_i y; cases y <;> rfl)
    | bool => cases tv <;> cases sv <;> rfl
    | int => cases tv <;> cases sv <;> rfl
    | string => cases tv <;> cases sv <;> rfl
    | float64 => cases tv <;> cases sv <;> rfl
    | func => cases tv <;> cases sv <;> rfl
    | ptr e2 => cases tv <;> cases sv <;> rfl

/-- The traversed fields of the exchanged pair are those of the pair, each with
its two values exchanged. -/
theorem leaves_swap (tag : String) (fs : List (StructField × GoType)) :
    ∀ (tvs svs : List Value),
      leaves tag fs svs tvs = (leaves tag fs tvs svs).map Leaf.swap := by
  induction fs using fields_induction with
  | hnil => intro tvs svs; simp [leaves]
  | hcons ft ty rest ih1 ih2 ih =>
    intro tvs svs
    cases tvs with
    | nil => cases svs <;> simp [leaves]
    | cons tv tvs =>
      cases svs with
      | nil => simp [leaves]
      | cons sv svs =>
        rw [leaves_cons, leaves_cons, List.map_append, ih tvs svs]
        congr 1
        unfold stepLeaves
        cases ha : ft.Anonymous with
        | false => simp [Leaf.swap]
        | true =>
          simp only [if_true]
          exact leavesAnonym_swap tag ty tv sv ih1 ih2

theorem reportedKeys_swap (keys : KeyMap) (ls : List Leaf) :
    reportedKeys keys (ls.map Leaf.swap) = reportedKeys keys ls := by
  induction ls with
  | nil => rfl
  | cons l ls ih =>
    have h : (Leaf.swap l).reported keys = l.reported keys := by
      simp only [Leaf.reported, Leaf.swap]
      rw [deepEqual_comm]
    have h1 : reportedKeys keys (l :: ls) =
        (if l.reported keys then [l.key] else []) ++ reportedKeys keys ls := by
      unfold reportedKeys
      by_cases hr : l.reported keys = true <;> simp [List.filter_cons, hr]
    have h2 : reportedKeys keys (Leaf.swap l :: ls.map Leaf.swap) =
        (if (Leaf.swap l).reported keys then [(Leaf.swap l).key] else []) ++
          reportedKeys keys (ls.map Leaf.swap) := by
      unfold reportedKeys
      by_cases hr : (Leaf.swap l).reported keys = true <;> simp [List.filter_cons, hr]
    rw [List.map_cons, h2, h1, ih, h]
    rfl

/-- C18, counterexample: `a` has its embedded `*AnonymPtr` present, `b` has it
nil, and the field `string` differs.  `Diff(a, b)` passes over the absent source
sub-record and reports `string`; `Diff(b, a)` fails on the absent target
sub-record and returns no key. -/
theorem diff_is_not_symmetric_on_absent_subrecord :
    ¬ (∀ k, k ∈ (Diff (record "test" exFields exCurrent) (record "test" exFields exAbsentUpdate)
          none []).keys.getD [] ↔
        k ∈ (Diff (record "test" exFields exAbsentUpdate) (record "test" exFields exCurrent)
          none []).keys.getD []) := by
  intro h
  have h1 : (Diff (record "test" exFields exCurrent) (record "test" exFields exAbsentUpdate)
      none []).keys = some ["string", "anonym_bool"] := by decide
  have h2 : (Diff (record "test" exFields exAbsentUpdate) (record "test" exFields exCurrent)
      none []).keys = none := by decide
  rw [h1, h2] at h
  exact absurd ((h "string").1 (by simp)) (by simp)

/-- C18, as amended: for every pair `a`, `b` of records of one struct type and
every key filter for which `Diff(a, b)` and `Diff(b, a)` both return no error,
the two calls return the same list of keys. -/
theorem diff_is_symmetric_when_both_succeed (n : String) (fs : List (StructField × GoType))
    (avs bvs : List Value) (keys : KeyMap) (opts : List Opt)
    (hab : (Diff (record n fs avs) (record n fs bvs) keys opts).exit = .ok)
    (hba : (Diff (record n fs bvs) (record n fs avs) keys opts).exit = .ok) :
    (Diff (record n fs avs) (record n fs bvs) keys opts).keys =
      (Diff (record n fs bvs) (record n fs avs) keys opts).keys := by
  unfold Diff at hab hba ⊢
  rw [process_keys_of_ok _ _ _ _ _ _ _ hab, process_keys_of_ok _ _ _ _ _ _ _ hba,
    leaves_swap (effectiveTag opts) fs avs bvs, reportedKeys_swap]

/-- Witness for C18 as amended, on the example records. -/
theorem diff_is_symmetric_when_both_succeed_witness :
    (Diff (record "test" exFields exCurrent) (record "test" exFields exUpdate) none []).keys =
      (Diff (record "test" exFields exUpdate) (record "test" exFields exCurrent) none []).keys :=
  diff_is_symmetric_when_both_succeed "test" exFields exCurrent exUpdate none []
    (by decide) (by decide)

/-! ## Order of the returned keys -/

theorem typeKeys_cons (tag : String) (ft : StructField) (ty : GoType)
    (rest : List (StructField × GoType)) :
    typeKeys tag ((ft, ty) :: rest) =
      (if ft.Anonymous then typeKeysAnonym tag ty else [fieldKey tag ft]) ++
        typeKeys tag rest := by
  rw [typeKeys]

theorem leavesAnonym_keys_sublist (tag : String) (ty : GoType) (tv sv : Value)
    (ih1 : ∀ n fs, ty = .struct n fs → ∀ tvs svs,
      ((leaves tag fs tvs svs).map (fun l => l.key)).Sublist (typeKeys tag fs))
    (ih2 : ∀ n fs, ty = .ptr (.struct n fs) → ∀ tvs svs,
      ((leaves tag fs tvs svs).map (fun l => l.key)).Sublist (typeKeys tag fs)) :
    ((leavesAnonym tag ty tv sv).map (fun l => l.key)).Sublist (typeKeysAnonym tag ty) := by
  cases ty with
  | bool => cases tv <;> cases sv <;> exact List.nil_sublist _
  | int => cases tv <;> cases sv <;> exact List.nil_sublist _
  | string => cases tv <;> cases sv <;> exact List.nil_sublist _
  | float64 => cases tv <;> cases sv <;> exact List.nil_sublist _
  | func => cases tv <;> cases sv <;> exact List.nil_sublist _
  | struct n fs =>
    cases tv <;> cases sv <;> first | exact List.nil_sublist _ | exact ih1 n fs rfl _ _
  | ptr e =>
    cases e with
    | struct n fs =>
      cases tv with
      | ptr x =>
        cases sv with
        | ptr y =>
          cases x <;> cases y <;> first | exact List.nil_sublist _ | exact ih2 n fs rfl _ _
        | nil => cases x <;> exact List.nil_sublist _
        | bool b => cases x <;> exact List.nil_sublist _
        | int b => cases x <;> exact List.nil_sublist _
        | string b => cases x <;> exact List.nil_sublist _
        | float64 b => cases x <;> exact List.nil_sublist _
        | func b => cases x <;> exact List.nil_sublist _
        | struct b => cases x <;> exact List.nil_sublist _
      | nil => exact List.nil_sublist _
      | bool b => exact List.nil_sublist _
      | int b => exact List.nil_sublist _
      | string b => exact List.nil_sublist _
      | float64 b => exact List.nil_sublist _
      | func b => exact List.nil_sublist _
      | struct b => exact List.nil_sublist _
    | bool => cases tv <;> cases sv <;> exact List.nil_sublist _
    | int => cases tv <;> cases sv <;> exact List.nil_sublist _
    | string => cases tv <;> cases sv <;> exact List.nil_sublist _
    | float64 => cases tv <;> cases sv <;> exact List.nil_sublist _
    | func => cases tv <;> cases sv <;> exact List.nil_sublist _
    | ptr e2 => cases tv <;> cases sv <;> exact List.nil_sublist _

/-- The keys of the traversed fields form a subsequence of the keys of the
type walk. -/
theorem leaves_keys_sublist (tag : String) (fs : List (StructField × GoType)) :
    ∀ (tvs svs : List Value),
      ((leaves tag fs tvs svs).map (fun l => l.key)).Sublist (typeKeys tag fs) := by
  induction fs using fields_induction with
  | hnil => intro tvs svs; simp [leaves]
  | hcons ft ty rest ih1 ih2 ih =>
    intro tvs svs
    cases tvs with
    | nil => cases svs <;> simp [leaves]
    | cons tv tvs =>
      cases svs with
      | nil => simp [leaves]
      | cons sv svs =>
        rw [leaves_cons, typeKeys_cons, List.map_append]
        refine List.Sublist.append ?_ (ih tvs svs)
        unfold stepLeaves
        cases ha : ft.Anonymous with
        | false => simp
        | true =>
          simp only [if_true]
          exact leavesAnonym_keys_sublist tag ty tv sv ih1 ih2

theorem reportedKeys_sublist (keys : KeyMap) (ls : List Leaf) :
    (reportedKeys keys ls).Sublist (ls.map (fun l => l.key)) := by
  unfold reportedKeys
  exact List.Sublist.map _ (List.filter_sublist ls)

/-- C20: the key list returned by a successful `Diff` or `Merge` is a
subsequence of the sequence of field keys of the depth-first walk of the record
type in declaration order; the keys keep that order and each traversed field
contributes its key at most once. -/
theorem returned_keys_follow_declaration_order (n : String)
    (fs : List (StructField × GoType)) (tvs svs : List Value) (keys : KeyMap)
    (opts : List Opt) :
    ((Diff (record n fs tvs) (record n fs svs) keys opts).exit = .ok →
      ∃ ks, (Diff (record n fs tvs) (record n fs svs) keys opts).keys = some ks ∧
        ks.Sublist (typeKeys (effectiveTag opts) fs)) ∧
    ((Merge (record n fs tvs) (record n fs svs) keys opts).exit = .ok →
      ∃ ks, (Merge (record n fs tvs) (record n fs svs) keys opts).keys = some ks ∧
        ks.Sublist (typeKeys (effectiveTag opts) fs)) := by
  have main : ∀ merge : Bool,
      (process (record n fs tvs) (record n fs svs) keys merge opts).exit = .ok →
      ∃ ks, (process (record n fs tvs) (record n fs svs) keys merge opts).keys = some ks ∧
        ks.Sublist (typeKeys (effectiveTag opts) fs) := by
    intro merge hok
    exact ⟨_, process_keys_of_ok n fs tvs svs keys merge opts hok,
      (reportedKeys_sublist keys _).trans (leaves_keys_sublist _ fs tvs svs)⟩
  exact ⟨main false, main true⟩

/-- Witness for C20, the case `taga` of `TestUseTag`: the keys come back in
declaration order. -/
theorem returned_keys_follow_declaration_order_witness :
    (∃ ks, (Diff (record "testWithTags" exTagFields
          [.string "string1", .string "string2", .string "string3"])
        (record "testWithTags" exTagFields [.string "test1", .string "test2", .string ""])
        (some ["taga_string2", "taga_string1"]) [UseTag "taga"]).keys = some ks ∧
      ks.Sublist (typeKeys (effectiveTag [UseTag "taga"]) exTagFields)) ∧
    (∃ ks, (Merge (record "testWithTags" exTagFields
          [.string "string1", .string "string2", .string "string3"])
        (record "testWithTags" exTagFields [.string "test1", .string "test2", .string ""])
        (some ["taga_string2", "taga_string1"]) [UseTag "taga"]).keys = some ks ∧
      ks.Sublist (typeKeys (effectiveTag [UseTag "taga"]) exTagFields)) :=
  ⟨(returned_keys_follow_declaration_order "testWithTags" exTagFields
      [.string "string1", .string "string2", .string "string3"]
      [.string "test1", .string "test2", .string ""]
      (some ["taga_string2", "taga_string1"]) [UseTag "taga"]).1 (by decide),
    (returned_keys_follow_declaration_order "testWithTags" exTagFields
      [.string "string1", .string "string2", .string "string3"]
      [.string "test1", .string "test2", .string ""]
      (some ["taga_string2", "taga_string1"]) [UseTag "taga"]).2 (by decide)⟩

/-! ## The absent target sub-record -/

/-- C11, the failing input: both records have the embedded `*AnonymPtr` nil.
`Diff` and `Merge` do not pass over the field; they fail on it with the
unsupported-field error and return no key list (`Merge` after having written
the two fields before it). -/
theorem absent_on_both_sides_fails :
    Diff (record "test" exFields exAbsent) (record "test" exFields exAbsentUpdate) none [] =
      ⟨record "test" exFields exAbsent, none, .error errAnonym⟩ ∧
    Merge (record "test" exFields exAbsent) (record "test" exFields exAbsentUpdate) none [] =
      ⟨record "test" exFields exAbsentUpdate, none, .error errAnonym⟩ :=
  ⟨rfl, rfl⟩

/-- C12, the failing input: dest's embedded `*AnonymPtr` is nil and update's is
present.  `Merge` fails with the unsupported-field error, returns no key list,
and dest's sub-record is still nil afterwards. -/
theorem merge_does_not_allocate_absent_subrecord :
    Merge (record "test" exFields exAbsent) (record "test" exFields exUpdate) none [] =
      ⟨record "test" exFields [.string "test2", .bool true, .struct [.bool false], .nil],
        none, .error errAnonym⟩ :=
  rfl

/-- C13, the failing input: the target's embedded `*AnonymPtr` is nil and the
source's is present.  `Diff` fails with the unsupported-field error and returns
no key list; the key `anonym_ptr_string` beneath the sub-record is not
reported. -/
theorem diff_fails_on_absent_target_subrecord :
    Diff (record "test" exFields exAbsent) (record "test" exFields exUpdate)
        (some ["anonym_ptr_string"]) [] =
      ⟨record "test" exFields exAbsent, none, .error errAnonym⟩ :=
  rfl

/-- C19, the failing input: two identical records whose embedded `*AnonymPtr`
is nil on both sides.  `Diff` does not return the empty list with a nil error;
it fails with the unsupported-field error. -/
theorem diff_of_identical_records_with_absent_subrecord_fails :
    Diff (record "test" exFields exAbsent) (record "test" exFields exAbsent) none [] =
      ⟨record "test" exFields exAbsent, none, .error errAnonym⟩ :=
  rfl

/-! ## Partial writes and the nil target pointer -/

/-- C24: `Merge` is not atomic.  On `struct { X int "json:x"; int }` with dest
`{1, 0}`, update `{2, 0}` and filter `{"x"}`, `Merge` returns the
unsupported-field error and a nil key list, and dest's field `X` holds update's
value 2 afterwards. -/
theorem merge_is_not_atomic :
    ∃ (n : String) (fs : List (StructField × GoType)) (tv sv : Value) (tvs svs : List Value)
      (keys : KeyMap),
      Merge (record n fs (tv :: tvs)) (record n fs (sv :: svs)) keys [] =
        ⟨record n fs (sv :: tvs), none, .error errAnonym⟩ ∧
      tv ≠ sv :=
  ⟨"T", exBadFields, .int 1, .int 2, [.int 0], [.int 0], some ["x"], rfl, by simp⟩

theorem embeddedPointers_cons (ft : StructField) (ty : GoType)
    (rest : List (StructField × GoType)) (tv sv : Value) (tvs svs : List Value) :
    embeddedPointers ((ft, ty) :: rest) (tv :: tvs) (sv :: svs) =
      (if ft.Anonymous then embeddedPointersAnonym ty tv sv else []) ++
        embeddedPointers rest tvs svs := by
  rw [embeddedPointers]

theorem fieldStep_targets_present (tag : String) (keys : KeyMap) (merge : Bool)
    (ft : StructField) (ty : GoType) (tv sv : Value) (pk : List String)
    (ih1 : ∀ n fs, ty = .struct n fs → ∀ tvs svs pk,
      (processStructs tag keys merge fs tvs svs pk).exit = .ok →
      ∀ p ∈ embeddedPointers fs tvs svs, p.1.IsNil = false)
    (ih2 : ∀ n fs, ty = .ptr (.struct n fs) → ∀ tvs svs pk,
      (processStructs tag keys merge fs tvs svs pk).exit = .ok →
      ∀ p ∈ embeddedPointers fs tvs svs, p.1.IsNil = false)
    (hok : (fieldStep tag keys merge ft ty tv sv pk).2.2 = .ok) :
    ∀ p ∈ (if ft.Anonymous then embeddedPointersAnonym ty tv sv else []),
      p.1.IsNil = false := by
  cases ha : ft.Anonymous with
  | false => simp
  | true =>
    rw [fieldStep_anonym _ _ _ _ _ _ _ _ ha] at hok
    simp only [if_true]
    rcases processAnonym_cases tag keys merge ty tv sv pk with
      ⟨n, fs, tfs, sfs, rfl, rfl, rfl, h⟩ | ⟨n, fs, tfs, sfs, rfl, rfl, rfl, h⟩ |
      ⟨n, fs, x, rfl, rfl, rfl, h⟩ | ⟨_, _, h⟩ | ⟨_, m, h⟩
    · rw [h] at hok
      have he : embeddedPointersAnonym (.struct n fs) (.struct tfs) (.struct sfs) =
          embeddedPointers fs tfs sfs := rfl
      rw [he]
      exact ih1 n fs rfl tfs sfs pk hok
    · rw [h] at hok
      have he : embeddedPointersAnonym (.ptr (.struct n fs)) (.ptr (.struct tfs))
          (.ptr (.struct sfs)) =
          (.ptr (.struct tfs), .ptr (.struct sfs)) :: embeddedPointers fs tfs sfs := rfl
      rw [he]
      intro p hp
      rcases List.mem_cons.1 hp with rfl | hp
      · rfl
      · exact ih2 n fs rfl tfs sfs pk hok p hp
    · have he : embeddedPointersAnonym (.ptr (.struct n fs)) (.ptr x) .nil =
          [(.ptr x, .nil)] := by cases x <;> rfl
      rw [he]
      intro p hp
      rcases List.mem_singleton.1 hp with rfl
      rfl
    · rw [h] at hok
      cases hok
    · rw [h] at hok
      cases hok

/-- When a traversal ends normally, every embedded pointer field it met had a
non-nil target. -/
theorem processStructs_targets_present (tag : String) (keys : KeyMap) (merge : Bool)
    (fs : List (StructField × GoType)) :
    ∀ (tvs svs : List Value) (pk : List String),
      (processStructs tag keys merge fs tvs svs pk).exit = .ok →
      ∀ p ∈ embeddedPointers fs tvs svs, p.1.IsNil = false := by
  induction fs using fields_induction with
  | hnil =>
    intro tvs svs pk _
    simp [embeddedPointers]
  | hcons ft ty rest ih1 ih2 ih =>
    intro tvs svs pk hok
    cases tvs with
    | nil => rw [processStructs_short_target] at hok; cases hok
    | cons tv tvs =>
      cases svs with
      | nil => rw [processStructs_short_source] at hok; cases hok
      | cons sv svs =>
        rw [processStructs_cons_eq] at hok
        by_cases hs : (fieldStep tag keys merge ft ty tv sv pk).2.2 = .ok
        · rw [if_pos hs] at hok
          simp only at hok
          rw [embeddedPointers_cons]
          intro p hp
          rcases List.mem_append.1 hp with hp | hp
          · exact fieldStep_targets_present tag keys merge ft ty tv sv pk ih1 ih2 hs p hp
          · exact ih _ _ _ hok p hp
        · rw [if_neg hs] at hok
          exact absurd hok hs

/-- C25: for well-typed records of one struct type in which the walk meets an
embedded pointer field whose target-side value is nil, `Diff` and `Merge` return
the 'only handles anonym fields' error and a nil key list, whatever the source
side holds.  The kind test of line 90 passes only for a non-nil target pointer,
so the allocation guarded by `destAVal.IsNil()` is never executed. -/
theorem nil_target_pointer_is_an_error (n : String) (fs : List (StructField × GoType))
    (tvs svs : List Value) (keys : KeyMap) (opts : List Opt) (sv : Value)
    (ht : hasTypeFields tvs fs = true) (hs : hasTypeFields svs fs = true)
    (hnil : (Value.nil, sv) ∈ embeddedPointers fs tvs svs) :
    (Diff (record n fs tvs) (record n fs svs) keys opts).exit = .error errAnonym ∧
    (Diff (record n fs tvs) (record n fs svs) keys opts).keys = none ∧
    (Merge (record n fs tvs) (record n fs svs) keys opts).exit = .error errAnonym ∧
    (Merge (record n fs tvs) (record n fs svs) keys opts).keys = none ∧
    (∀ (ty : GoType) (destAVal : Value),
      ty.Kind = .Ptr ∧ elemKind ty destAVal = .Struct → destAVal.IsNil = false) := by
  have main : ∀ merge : Bool,
      (process (record n fs tvs) (record n fs svs) keys merge opts).exit = .error errAnonym ∧
      (process (record n fs tvs) (record n fs svs) keys merge opts).keys = none := by
    intro merge
    have hne : (processStructs (effectiveTag opts) keys merge fs tvs svs []).exit ≠ .ok := by
      intro hok
      have h := processStructs_targets_present (effectiveTag opts) keys merge fs tvs svs []
        hok _ hnil
      cases h
    have hex := processStructs_exit (effectiveTag opts) keys merge fs tvs svs [] ht hs
    unfold record
    rw [process_records, if_neg hne]
    rcases hex with h | h
    · exact absurd h hne
    · exact ⟨h, rfl⟩
  refine ⟨(main false).1, (main false).2, (main true).1, (main true).2, ?_⟩
  intro ty destAVal h
  obtain ⟨_, _, x, _, rfl⟩ := elemKind_struct h.2
  rfl

/-- Witness for C25: the example records with dest's `*AnonymPtr` nil and
update's present. -/
theorem nil_target_pointer_is_an_error_witness :
    (Diff (record "test" exFields exAbsent) (record "test" exFields exUpdate)
      none []).exit = .error errAnonym ∧
    (Diff (record "test" exFields exAbsent) (record "test" exFields exUpdate)
      none []).keys = none ∧
    (Merge (record "test" exFields exAbsent) (record "test" exFields exUpdate)
      none []).exit = .error errAnonym ∧
    (Merge (record "test" exFields exAbsent) (record "test" exFields exUpdate)
      none []).keys = none ∧
    (∀ (ty : GoType) (destAVal : Value),
      ty.Kind = .Ptr ∧ elemKind ty destAVal = .Struct → destAVal.IsNil = false) :=
  nil_target_pointer_is_an_error "test" exFields exAbsent exUpdate none []
    (.ptr (.struct [.string "test3"])) (by decide) (by decide) (by simp [exFields, exPre,
      exAbsent, exUpdate, exAnonym, exAnonymPtr, exPtrField, embeddedPointers,
      embeddedPointersAnonym])

/-! ## The filter and the outcome -/

/-- The course of the embedded-field branch does not depend on the key filter
either: one case of the analysis holds for every filter, mode and key list. -/
theorem processAnonym_course (tag : String) (ty : GoType) (tv sv : Value) :
    (∃ n fs tfs sfs, ty = .struct n fs ∧ tv = .struct tfs ∧ sv = .struct sfs ∧
      ∀ keys merge pk, processAnonym tag keys merge ty tv sv pk =
        (.struct (processStructs tag keys merge fs tfs sfs pk).target,
          (processStructs tag keys merge fs tfs sfs pk).processedKeys,
          (processStructs tag keys merge fs tfs sfs pk).exit)) ∨
    (∃ n fs tfs sfs, ty = .ptr (.struct n fs) ∧ tv = .ptr (.struct tfs) ∧
      sv = .ptr (.struct sfs) ∧
      ∀ keys merge pk, processAnonym tag keys merge ty tv sv pk =
        (.ptr (.struct (processStructs tag keys merge fs tfs sfs pk).target),
          (processStructs tag keys merge fs tfs sfs pk).processedKeys,
          (processStructs tag keys merge fs tfs sfs pk).exit)) ∨
    (∃ n fs x, ty = .ptr (.struct n fs) ∧ tv = .ptr x ∧ sv = .nil ∧
      ∀ keys merge pk, processAnonym tag keys merge ty tv sv pk = (tv, pk, .ok)) ∨
    (ty.Kind ≠ .Struct ∧ elemKind ty tv ≠ .Struct ∧
      ∀ keys merge pk, processAnonym tag keys merge ty tv sv pk = (tv, pk, .error errAnonym)) ∨
    ((hasType tv ty && hasType sv ty) = false ∧
      ∃ m, ∀ keys merge pk, processAnonym tag keys merge ty tv sv pk = (tv, pk, .panic m)) := by
  cases ty with
  | bool =>
    exact Or.inr (Or.inr (Or.inr (Or.inl ⟨by decide, by simp [elemKind], fun _ _ _ => rfl⟩)))
  | int =>
    exact Or.inr (Or.inr (Or.inr (Or.inl ⟨by decide, by simp [elemKind], fun _ _ _ => rfl⟩)))
  | string =>
    exact Or.inr (Or.inr (Or.inr (Or.inl ⟨by decide, by simp [elemKind], fun _ _ _ => rfl⟩)))
  | float64 =>
    exact Or.inr (Or.inr (Or.inr (Or.inl ⟨by decide, by simp [elemKind], fun _ _ _ => rfl⟩)))
  | func =>
    exact Or.inr (Or.inr (Or.inr (Or.inl ⟨by decide, by simp [elemKind], fun _ _ _ => rfl⟩)))
  | struct n fs =>
    cases tv <;> cases sv <;>
      first
      | exact Or.inl ⟨_, _, _, _, rfl, rfl, rfl, fun _ _ _ => rfl⟩
      | exact Or.inr (Or.inr (Or.inr (Or.inr ⟨by simp [hasType], _, fun _ _ _ => rfl⟩)))
  | ptr e =>
    cases tv with
    | ptr x =>
      cases e with
      | struct n fs =>
        cases sv with
        | nil => exact Or.inr (Or.inr (Or.inl ⟨_, _, _, rfl, rfl, rfl, fun _ _ _ => rfl⟩))
        | ptr y =>
          cases x <;> cases y <;>
            first
            | exact Or.inr (Or.inl ⟨_, _, _, _, rfl, rfl, rfl, fun _ _ _ => rfl⟩)
            | exact Or.inr (Or.inr (Or.inr (Or.inr ⟨by simp [hasType], _, fun _ _ _ => rfl⟩)))
        | bool b =>
          cases x <;>
            exact Or.inr (Or.inr (Or.inr (Or.inr ⟨by simp [hasType], _, fun _ _ _ => rfl⟩)))
        | int b =>
          cases x <;>
            exact Or.inr (Or.inr (Or.inr (Or.inr ⟨by simp [hasType], _, fun _ _ _ => rfl⟩)))
        | string b =>
          cases x <;>
            exact Or.inr (Or.inr (Or.inr (Or.inr ⟨by simp [hasType], _, fun _ _ _ => rfl⟩)))
        | float64 b =>
          cases x <;>
            exact Or.inr (Or.inr (Or.inr (Or.inr ⟨by simp [hasType], _, fun _ _ _ => rfl⟩)))
        | func b =>
          cases x <;>
            exact Or.inr (Or.inr (Or.inr (Or.inr ⟨by simp [hasType], _, fun _ _ _ => rfl⟩)))
        | struct b =>
          cases x <;>
            exact Or.inr (Or.inr (Or.inr (Or.inr ⟨by simp [hasType], _, fun _ _ _ => rfl⟩)))
      | bool =>
        exact Or.inr (Or.inr (Or.inr (Or.inl
          ⟨by decide, by simp [elemKind, GoType.Kind], fun _ _ _ => rfl⟩)))
      | int =>
        exact Or.inr (Or.inr (Or.inr (Or.inl
          ⟨by decide, by simp [elemKind, GoType.Kind], fun _ _ _ => rfl⟩)))
      | string =>
        exact Or.inr (Or.inr (Or.inr (Or.inl
          ⟨by decide, by simp [elemKind, GoType.Kind], fun _ _ _ => rfl⟩)))
      | float64 =>
        exact Or.inr (Or.inr (Or.inr (Or.inl
          ⟨by decide, by simp [elemKind, GoType.Kind], fun _ _ _ => rfl⟩)))
      | func =>
        exact Or.inr (Or.inr (Or.inr (Or.inl
          ⟨by decide, by simp [elemKind, GoType.Kind], fun _ _ _ => rfl⟩)))
      | ptr e2 =>
        exact Or.inr (Or.inr (Or.inr (Or.inl
          ⟨by simp [GoType.Kind], by simp [elemKind, GoType.Kind], fun _ _ _ => rfl⟩)))
    | nil =>
      exact Or.inr (Or.inr (Or.inr (Or.inl
        ⟨by simp [GoType.Kind], by simp [elemKind], fun _ _ _ => rfl⟩)))
    | bool b =>
      exact Or.inr (Or.inr (Or.inr (Or.inl
        ⟨by simp [GoType.Kind], by simp [elemKind], fun _ _ _ => rfl⟩)))
    | int b =>
      exact Or.inr (Or.inr (Or.inr (Or.inl
        ⟨by simp [GoType.Kind], by simp [elemKind], fun _ _ _ => rfl⟩)))
    | string b =>
      exact Or.inr (Or.inr (Or.inr (Or.inl
        ⟨by simp [GoType.Kind], by simp [elemKind], fun _ _ _ => rfl⟩)))
    | float64 b =>
      exact Or.inr (Or.inr (Or.inr (Or.inl
        ⟨by simp [GoType.Kind], by simp [elemKind], fun _ _ _ => rfl⟩)))
    | func b =>
      exact Or.inr (Or.inr (Or.inr (Or.inl
        ⟨by simp [GoType.Kind], by simp [elemKind], fun _ _ _ => rfl⟩)))
    | struct b =>
      exact Or.inr (Or.inr (Or.inr (Or.inl
        ⟨by simp [GoType.Kind], by simp [elemKind], fun _ _ _ => rfl⟩)))


theorem fieldStep_exit_any (tag : String) (keys keys2 : KeyMap) (merge merge2 : Bool)
    (ft : StructField) (ty : GoType) (tv sv : Value) (pk pk2 : List String)
    (ih1 : ∀ n fs, ty = .struct n fs → ∀ tvs svs pk pk2,
      (processStructs tag keys merge fs tvs svs pk).exit =
        (processStructs tag keys2 merge2 fs tvs svs pk2).exit)
    (ih2 : ∀ n fs, ty = .ptr (.struct n fs) → ∀ tvs svs pk pk2,
      (processStructs tag keys merge fs tvs svs pk).exit =
        (processStructs tag keys2 merge2 fs tvs svs pk2).exit) :
    (fieldStep tag keys merge ft ty tv sv pk).2.2 =
      (fieldStep tag keys2 merge2 ft ty tv sv pk2).2.2 := by
  cases ha : ft.Anonymous with
  | false =>
    rw [fieldStep_plain _ _ _ _ _ _ _ _ ha, fieldStep_plain _ _ _ _ _ _ _ _ ha]
    by_cases h1 : (Leaf.mk (fieldKey tag ft) tv sv).reported keys = true <;>
      by_cases h2 : (Leaf.mk (fieldKey tag ft) tv sv).reported keys2 = true <;>
      simp [h1, h2]
  | true =>
    rw [fieldStep_anonym _ _ _ _ _ _ _ _ ha, fieldStep_anonym _ _ _ _ _ _ _ _ ha]
    rcases processAnonym_course tag ty tv sv with
      ⟨n, fs, tfs, sfs, rfl, rfl, rfl, h⟩ | ⟨n, fs, tfs, sfs, rfl, rfl, rfl, h⟩ |
      ⟨n, fs, x, rfl, rfl, rfl, h⟩ | ⟨_, _, h⟩ | ⟨_, m, h⟩
    · rw [h, h]
      exact ih1 n fs rfl tfs sfs pk pk2
    · rw [h, h]
      exact ih2 n fs rfl tfs sfs pk pk2
    · rw [h, h]
    · rw [h, h]
    · rw [h, h]

/-- How a traversal ends depends on the record type and the two records only,
not on the key filter, the mode or the incoming key list. -/
theorem processStructs_exit_any (tag : String) (keys keys2 : KeyMap) (merge merge2 : Bool)
    (fs : List (StructField × GoType)) :
    ∀ (tvs svs : List Value) (pk pk2 : List String),
      (processStructs tag keys merge fs tvs svs pk).exit =
        (processStructs tag keys2 merge2 fs tvs svs pk2).exit := by
  induction fs using fields_induction with
  | hnil => intro tvs svs pk pk2; rw [processStructs_nil, processStructs_nil]
  | hcons ft ty rest ih1 ih2 ih =>
    intro tvs svs pk pk2
    cases tvs with
    | nil => rw [processStructs_short_target, processStructs_short_target]
    | cons tv tvs =>
      cases svs with
      | nil => rw [processStructs_short_source, processStructs_short_source]
      | cons sv svs =>
        rw [processStructs_cons_eq, processStructs_cons_eq]
        have hs := fieldStep_exit_any tag keys keys2 merge merge2 ft ty tv sv pk pk2 ih1 ih2
        by_cases hok : (fieldStep tag keys merge ft ty tv sv pk).2.2 = .ok
        · rw [if_pos hok, if_pos (hs ▸ hok)]
          exact ih _ _ _ _
        · rw [if_neg hok, if_neg (hs ▸ hok)]
          exact hs

theorem reportedKeys_filter (F : List String) (ls : List Leaf) :
    reportedKeys (some F) ls = (reportedKeys none ls).filter (fun k => decide (k ∈ F)) := by
  induction ls with
  | nil => rfl
  | cons l ls ih =>
    unfold reportedKeys at ih ⊢
    by_cases h1 : l.key = ""
    · simp [List.filter_cons, Leaf.reported, filteredOut, h1]
      simpa [Leaf.reported, filteredOut] using ih
    · by_cases h2 : deepEqual l.target l.source = true
      · simp [List.filter_cons, Leaf.reported, filteredOut, h1, h2]
        simpa [Leaf.reported, filteredOut] using ih
      · by_cases h3 : l.key ∈ F
        · simp [List.filter_cons, Leaf.reported, filteredOut, h1, h2, h3]
          simpa [Leaf.reported, filteredOut] using ih
        · simp [List.filter_cons, Leaf.reported, filteredOut, h1, h2, h3]
          simpa [Leaf.reported, filteredOut] using ih

theorem process_exit_records (n : String) (fs : List (StructField × GoType))
    (tvs svs : List Value) (keys : KeyMap) (merge : Bool) (opts : List Opt) :
    (process (record n fs tvs) (record n fs svs) keys merge opts).exit =
      (processStructs (effectiveTag opts) keys merge fs tvs svs []).exit := by
  unfold record
  rw [process_records]
  by_cases hw : (processStructs (effectiveTag opts) keys merge fs tvs svs []).exit = .ok
  · rw [if_pos hw, hw]
  · rw [if_neg hw]

/-- For two records given as trees, whose fields are taken to be exported,
`Diff` with a non-nil filter `F` ends the way `Diff` with a nil filter ends, and
when they return no error the list returned with `F` is the list returned with a
nil filter restricted, in order, to the members of `F`. -/
theorem diff_filter_restricts_on_trees (n : String) (fs : List (StructField × GoType))
    (tvs svs : List Value) (F : List String) (opts : List Opt) :
    (Diff (record n fs tvs) (record n fs svs) (some F) opts).exit =
      (Diff (record n fs tvs) (record n fs svs) none opts).exit ∧
    ((Diff (record n fs tvs) (record n fs svs) none opts).exit = .ok →
      ∃ ks, (Diff (record n fs tvs) (record n fs svs) none opts).keys = some ks ∧
        (Diff (record n fs tvs) (record n fs svs) (some F) opts).keys =
          some (ks.filter (fun k => decide (k ∈ F)))) := by
  have hexit : (Diff (record n fs tvs) (record n fs svs) (some F) opts).exit =
      (Diff (record n fs tvs) (record n fs svs) none opts).exit := by
    unfold Diff
    rw [process_exit_records, process_exit_records]
    exact processStructs_exit_any _ _ _ _ _ fs tvs svs [] []
  refine ⟨hexit, fun hok => ?_⟩
  have hokF := hexit.trans hok
  unfold Diff at hok hokF ⊢
  rw [process_keys_of_ok _ _ _ _ _ _ _ hok, process_keys_of_ok _ _ _ _ _ _ _ hokF]
  exact ⟨_, rfl, by rw [reportedKeys_filter]⟩

/-! ## Fields the traversal passes over -/

/-- A field whose loop iteration changes nothing (target value, key list and
normal continuation) can be left out: the traversal of the record with the field
is the traversal of the record without it, with the field's target value put
back in place. -/
theorem processStructs_passed_over (tag : String) (keys : KeyMap) (merge : Bool)
    (ft : StructField) (ty : GoType) (tv sv : Value)
    (hstep : ∀ pk, fieldStep tag keys merge ft ty tv sv pk = (tv, pk, .ok))
    (post : List (StructField × GoType)) (tpost spost : List Value)
    (pre : List (StructField × GoType)) :
    ∀ (tpre spre : List Value) (pk : List String),
      tpre.length = pre.length → spre.length = pre.length →
      processStructs tag keys merge (pre ++ (ft, ty) :: post)
          (tpre ++ tv :: tpost) (spre ++ sv :: spost) pk =
        ⟨(processStructs tag keys merge (pre ++ post) (tpre ++ tpost) (spre ++ spost) pk).target.take
              pre.length ++ tv ::
            (processStructs tag keys merge (pre ++ post) (tpre ++ tpost)
              (spre ++ spost) pk).target.drop pre.length,
          (processStructs tag keys merge (pre ++ post) (tpre ++ tpost) (spre ++ spost)
            pk).processedKeys,
          (processStructs tag keys merge (pre ++ post) (tpre ++ tpost) (spre ++ spost) pk).exit⟩ := by
  induction pre with
  | nil =>
    intro tpre spre pk ht hs
    cases tpre with
    | cons _ _ => simp at ht
    | nil =>
      cases spre with
      | cons _ _ => simp at hs
      | nil =>
        simp only [List.nil_append, List.length_nil, List.take_zero, List.drop_zero]
        rw [processStructs_cons_eq, hstep]
        simp
  | cons f pre ih =>
    intro tpre spre pk ht hs
    obtain ⟨ft2, ty2⟩ := f
    cases tpre with
    | nil => simp at ht
    | cons tv2 tpre =>
      cases spre with
      | nil => simp at hs
      | cons sv2 spre =>
        simp only [List.length_cons, Nat.add_right_cancel_iff] at ht hs
        simp only [List.cons_append, List.length_cons]
        rw [processStructs_cons_eq, processStructs_cons_eq]
        by_cases hok : (fieldStep tag keys merge ft2 ty2 tv2 sv2 pk).2.2 = .ok
        · rw [if_pos hok, if_pos hok, ih tpre spre _ ht hs]
          simp
        · rw [if_neg hok, if_neg hok]
          simp [← ht]

theorem process_passed_over (name : String) (keys : KeyMap) (merge : Bool) (opts : List Opt)
    (ft : StructField) (ty : GoType) (tv sv : Value)
    (hstep : ∀ pk, fieldStep (effectiveTag opts) keys merge ft ty tv sv pk = (tv, pk, .ok))
    (pre post : List (StructField × GoType)) (tpre tpost spre spost : List Value)
    (ht : tpre.length = pre.length) (hs : spre.length = pre.length) :
    (process (record name (pre ++ (ft, ty) :: post) (tpre ++ tv :: tpost))
        (record name (pre ++ (ft, ty) :: post) (spre ++ sv :: spost)) keys merge opts).target =
      record name (pre ++ (ft, ty) :: post)
        ((recordFields (process (record name (pre ++ post) (tpre ++ tpost))
            (record name (pre ++ post) (spre ++ spost)) keys merge opts).target).take pre.length
          ++ tv :: (recordFields (process (record name (pre ++ post) (tpre ++ tpost))
            (record name (pre ++ post) (spre ++ spost)) keys merge opts).target).drop
              pre.length) ∧
    (process (record name (pre ++ (ft, ty) :: post) (tpre ++ tv :: tpost))
        (record name (pre ++ (ft, ty) :: post) (spre ++ sv :: spost)) keys merge opts).keys =
      (process (record name (pre ++ post) (tpre ++ tpost))
        (record name (pre ++ post) (spre ++ spost)) keys merge opts).keys ∧
    (process (record name (pre ++ (ft, ty) :: post) (tpre ++ tv :: tpost))
        (record name (pre ++ (ft, ty) :: post) (spre ++ sv :: spost)) keys merge opts).exit =
      (process (record name (pre ++ post) (tpre ++ tpost))
        (record name (pre ++ post) (spre ++ spost)) keys merge opts).exit := by
  have hskip := processStructs_passed_over (effectiveTag opts) keys merge ft ty tv sv hstep
    post tpost spost pre tpre spre [] ht hs
  unfold record
  rw [process_records, process_records, hskip]
  by_cases hw : (processStructs (effectiveTag opts) keys merge (pre ++ post) (tpre ++ tpost)
      (spre ++ spost) []).exit = .ok
  · simp only [hw, if_true, recordFields]
    exact ⟨trivial, trivial, trivial⟩
  · simp only [hw, if_false, recordFields]
    exact ⟨trivial, trivial, trivial⟩

theorem diff_target_same (first second : Iface) (keys : KeyMap) (opts : List Opt) :
    (Diff first second keys opts).target = first := by
  unfold Diff process
  split
  · rfl
  · split
    · rfl
    · rfl
    · split
      · rfl
      · split
        · rfl
        · split
          · dsimp only
            split <;> simp only [processStructs_diff_target]
          · rfl

theorem takeWhile_comma (l : List Char) :
    ∃ rest, l = l.takeWhile (fun c => c != ',') ++ rest ∧
      ',' ∉ l.takeWhile (fun c => c != ',') ∧ (rest = [] ∨ ∃ r, rest = ',' :: r) := by
  induction l with
  | nil => exact ⟨[], rfl, by simp, Or.inl rfl⟩
  | cons c l ih =>
    by_cases hc : c = ','
    · subst hc
      exact ⟨',' :: l, by simp [List.takeWhile], by simp [List.takeWhile], Or.inr ⟨l, rfl⟩⟩
    · obtain ⟨rest, h1, h2, h3⟩ := ih
      have hp : (c != ',') = true := by simpa using hc
      have htw : (c :: l).takeWhile (fun c => c != ',') =
          c :: l.takeWhile (fun c => c != ',') := by
        rw [List.takeWhile_cons, hp]
        rfl
      refine ⟨rest, ?_, ?_, h3⟩
      · rw [htw, List.cons_append, ← h1]
      · rw [htw]
        intro hmem
        rcases List.mem_cons.1 hmem with h | h
        · exact hc h.symm
        · exact h2 h

theorem splitFirst_eq_empty (s : String)
    (h : s = "" ∨ ∃ r, s.data = ',' :: r) : splitFirst s = "" := by
  unfold splitFirst
  rcases h with rfl | ⟨r, hr⟩
  · rfl
  · rw [hr]
    rfl

theorem StructTagGet_missing (tagPairs : List (String × String)) (key : String)
    (h : ∀ p ∈ tagPairs, p.1 ≠ key) : StructTagGet tagPairs key = "" := by
  unfold StructTagGet
  have hnone : tagPairs.find? (fun p => p.1 == key) = none := by
    rw [List.find?_eq_none]
    intro p hp
    simpa using h p hp
  rw [hnone]

theorem fieldStep_empty_key (tag : String) (keys : KeyMap) (merge : Bool) (ft : StructField)
    (ty : GoType) (tv sv : Value) (ha : ft.Anonymous = false) (hk : fieldKey tag ft = "") :
    ∀ pk, fieldStep tag keys merge ft ty tv sv pk = (tv, pk, .ok) := by
  intro pk
  rw [fieldStep_plain _ _ _ _ _ _ _ _ ha]
  have hr : (Leaf.mk (fieldKey tag ft) tv sv).reported keys = false := by
    simp [Leaf.reported, hk]
  simp [hr]

theorem processStructs_single (tag : String) (keys : KeyMap) (merge : Bool) (ft : StructField)
    (ty : GoType) (tv sv : Value) (pk : List String) (ha : ft.Anonymous = false) :
    processStructs tag keys merge [(ft, ty)] [tv] [sv] pk =
      if fieldKey tag ft ≠ "" ∧ filteredOut keys (fieldKey tag ft) = false ∧
          deepEqual tv sv = false then
        ⟨[if merge then sv else tv], pk ++ [fieldKey tag ft], .ok⟩
      else ⟨[tv], pk, .ok⟩ := by
  rw [processStructs_cons_eq, fieldStep_plain _ _ _ _ _ _ _ _ ha]
  by_cases hr : (Leaf.mk (fieldKey tag ft) tv sv).reported keys = true
  · have hc : fieldKey tag ft ≠ "" ∧ filteredOut keys (fieldKey tag ft) = false ∧
        deepEqual tv sv = false := by
      simpa [Leaf.reported, and_assoc] using hr
    rw [if_pos hr, if_pos hc]
    simp [processStructs_nil]
  · have hc : ¬ (fieldKey tag ft ≠ "" ∧ filteredOut keys (fieldKey tag ft) = false ∧
        deepEqual tv sv = false) := by
      intro h
      apply hr
      simpa [Leaf.reported, and_assoc] using h
    rw [if_neg hr, if_neg hc]
    simp [processStructs_nil]

/-- C22: for a non-embedded field the key is the part of the field's tag value,
under the effective tag name, that precedes the first comma, and that key is
what `processStructs` tests against the filter and appends to the key list.  A
field whose tag is missing has the empty tag value; a field whose tag value is
empty or begins with a comma has the empty key, and `Diff` and `Merge` pass it
over, whatever the filter and the two values are: the result is that of the call
on the records without the field, with dest's value of the field left in
place. -/
theorem field_key_is_the_tag_before_the_first_comma (name : String)
    (pre post : List (StructField × GoType)) (ft : StructField) (ty : GoType)
    (tv sv : Value) (tpre tpost spre spost : List Value) (keys : KeyMap) (opts : List Opt)
    (ha : ft.Anonymous = false)
    (ht : tpre.length = pre.length) (hs : spre.length = pre.length) :
    (∃ rest, (StructTagGet ft.Tag (effectiveTag opts)).data =
        (fieldKey (effectiveTag opts) ft).data ++ rest ∧
      ',' ∉ (fieldKey (effectiveTag opts) ft).data ∧ (rest = [] ∨ ∃ r, rest = ',' :: r)) ∧
    (∀ (merge : Bool) (pk : List String),
      processStructs (effectiveTag opts) keys merge [(ft, ty)] [tv] [sv] pk =
        if fieldKey (effectiveTag opts) ft ≠ "" ∧
            filteredOut keys (fieldKey (effectiveTag opts) ft) = false ∧
            deepEqual tv sv = false then
          ⟨[if merge then sv else tv], pk ++ [fieldKey (effectiveTag opts) ft], .ok⟩
        else ⟨[tv], pk, .ok⟩) ∧
    ((∀ p ∈ ft.Tag, p.1 ≠ effectiveTag opts) →
      StructTagGet ft.Tag (effectiveTag opts) = "") ∧
    ((StructTagGet ft.Tag (effectiveTag opts) = "" ∨
        ∃ r, (StructTagGet ft.Tag (effectiveTag opts)).data = ',' :: r) →
      fieldKey (effectiveTag opts) ft = "" ∧
      (Diff (record name (pre ++ (ft, ty) :: post) (tpre ++ tv :: tpost))
          (record name (pre ++ (ft, ty) :: post) (spre ++ sv :: spost)) keys opts).target =
        record name (pre ++ (ft, ty) :: post) (tpre ++ tv :: tpost) ∧
      (Diff (record name (pre ++ (ft, ty) :: post) (tpre ++ tv :: tpost))
          (record name (pre ++ (ft, ty) :: post) (spre ++ sv :: spost)) keys opts).keys =
        (Diff (record name (pre ++ post) (tpre ++ tpost))
          (record name (pre ++ post) (spre ++ spost)) keys opts).keys ∧
      (Diff (record name (pre ++ (ft, ty) :: post) (tpre ++ tv :: tpost))
          (record name (pre ++ (ft, ty) :: post) (spre ++ sv :: spost)) keys opts).exit =
        (Diff (record name (pre ++ post) (tpre ++ tpost))
          (record name (pre ++ post) (spre ++ spost)) keys opts).exit ∧
      (Merge (record name (pre ++ (ft, ty) :: post) (tpre ++ tv :: tpost))
          (record name (pre ++ (ft, ty) :: post) (spre ++ sv :: spost)) keys opts).target =
        record name (pre ++ (ft, ty) :: post)
          ((recordFields (Merge (record name (pre ++ post) (tpre ++ tpost))
              (record name (pre ++ post) (spre ++ spost)) keys opts).target).take pre.length
            ++ tv :: (recordFields (Merge (record name (pre ++ post) (tpre ++ tpost))
              (record name (pre ++ post) (spre ++ spost)) keys opts).target).drop
                pre.length) ∧
      (Merge (record name (pre ++ (ft, ty) :: post) (tpre ++ tv :: tpost))
          (record name (pre ++ (ft, ty) :: post) (spre ++ sv :: spost)) keys opts).keys =
        (Merge (record name (pre ++ post) (tpre ++ tpost))
          (record name (pre ++ post) (spre ++ spost)) keys opts).keys ∧
      (Merge (record name (pre ++ (ft, ty) :: post) (tpre ++ tv :: tpost))
          (record name (pre ++ (ft, ty) :: post) (spre ++ sv :: spost)) keys opts).exit =
        (Merge (record name (pre ++ post) (tpre ++ tpost))
          (record name (pre ++ post) (spre ++ spost)) keys opts).exit) := by
  refine ⟨?_, ?_, ?_, ?_⟩
  · obtain ⟨rest, h1, h2, h3⟩ := takeWhile_comma (StructTagGet ft.Tag (effectiveTag opts)).data
    exact ⟨rest, h1, h2, h3⟩
  · intro merge pk
    exact processStructs_single _ keys merge ft ty tv sv pk ha
  · exact StructTagGet_missing ft.Tag (effectiveTag opts)
  · intro htag
    have hk : fieldKey (effectiveTag opts) ft = "" := splitFirst_eq_empty _ htag
    have hd := process_passed_over name keys false opts ft ty tv sv
      (fieldStep_empty_key _ keys false ft ty tv sv ha hk) pre post tpre tpost spre spost ht hs
    have hm := process_passed_over name keys true opts ft ty tv sv
      (fieldStep_empty_key _ keys true ft ty tv sv ha hk) pre post tpre tpost spre spost ht hs
    exact ⟨hk, diff_target_same _ _ _ _, hd.2.1, hd.2.2, hm.1, hm.2.1, hm.2.2⟩

/-- Witness for C22: a field tagged `json:",omitempty"` after the field
`String`, with different values on the two sides and a nil filter. -/
theorem field_key_is_the_tag_before_the_first_comma_witness :
    fieldKey (effectiveTag []) exCommaField = "" ∧
    (Diff (record "test" (exStringField ++ (exCommaField, .string) :: [])
          ([.string "string_val"] ++ .string "a" :: []))
        (record "test" (exStringField ++ (exCommaField, .string) :: [])
          ([.string "test2"] ++ .string "b" :: [])) none []).keys =
      (Diff (record "test" (exStringField ++ []) ([.string "string_val"] ++ []))
        (record "test" (exStringField ++ []) ([.string "test2"] ++ [])) none []).keys ∧
    (Merge (record "test" (exStringField ++ (exCommaField, .string) :: [])
          ([.string "string_val"] ++ .string "a" :: []))
        (record "test" (exStringField ++ (exCommaField, .string) :: [])
          ([.string "test2"] ++ .string "b" :: [])) none []).target =
      record "test" (exStringField ++ (exCommaField, .string) :: [])
        [.string "test2", .string "a"] :=
  ⟨((field_key_is_the_tag_before_the_first_comma "test" exStringField [] exCommaField
      .string (.string "a") (.string "b") [.string "string_val"] [] [.string "test2"] []
      none [] rfl rfl rfl).2.2.2 (Or.inr ⟨_, rfl⟩)).1,
    ((field_key_is_the_tag_before_the_first_comma "test" exStringField [] exCommaField
      .string (.string "a") (.string "b") [.string "string_val"] [] [.string "test2"] []
      none [] rfl rfl rfl).2.2.2 (Or.inr ⟨_, rfl⟩)).2.2.1,
    (((field_key_is_the_tag_before_the_first_comma "test" exStringField [] exCommaField
      .string (.string "a") (.string "b") [.string "string_val"] [] [.string "test2"] []
      none [] rfl rfl rfl).2.2.2 (Or.inr ⟨_, rfl⟩)).2.2.2.2.1).trans rfl⟩

/-! ## Embedded fields, their tags and the filter -/

theorem processStructs_embedded_tag (tag : String) (keys : KeyMap) (merge : Bool)
    (ft ft2 : StructField) (ty : GoType) (ha : ft.Anonymous = true)
    (ha2 : ft2.Anonymous = true) (post : List (StructField × GoType))
    (pre : List (StructField × GoType)) :
    ∀ (tvs svs : List Value) (pk : List String),
      processStructs tag keys merge (pre ++ (ft, ty) :: post) tvs svs pk =
        processStructs tag keys merge (pre ++ (ft2, ty) :: post) tvs svs pk := by
  induction pre with
  | nil =>
    intro tvs svs pk
    simp only [List.nil_append]
    cases tvs with
    | nil => rw [processStructs_short_target, processStructs_short_target]
    | cons tv tvs =>
      cases svs with
      | nil => rw [processStructs_short_source, processStructs_short_source]
      | cons sv svs =>
        rw [processStructs_cons_eq, processStructs_cons_eq,
          fieldStep_anonym _ _ _ _ _ _ _ _ ha, fieldStep_anonym _ _ _ _ _ _ _ _ ha2]
  | cons f pre ih =>
    intro tvs svs pk
    obtain ⟨ft3, ty3⟩ := f
    simp only [List.cons_append]
    cases tvs with
    | nil => rw [processStructs_short_target, processStructs_short_target]
    | cons tv tvs =>
      cases svs with
      | nil => rw [processStructs_short_source, processStructs_short_source]
      | cons sv svs =>
        rw [processStructs_cons_eq, processStructs_cons_eq, ih]

/-- C27: the tag of an embedded field and the key filter play no part in how
the field is handled.  Replacing the tag of an embedded field by any other tag
leaves the key list, the outcome and dest's field values of `Diff` and `Merge`
as they are, so the field is never reported or assigned under a key of its own;
and whether a call ends normally or with an error (the embedded fields are
descended into or rejected) is the same under every filter, the empty one
included. -/
theorem embedded_field_tag_and_filter_play_no_part (name : String)
    (pre post : List (StructField × GoType)) (ft : StructField) (ty : GoType)
    (tvs svs : List Value) (keys : KeyMap) (opts : List Opt)
    (otherTag : List (String × String)) (ha : ft.Anonymous = true) :
    ((Diff (record name (pre ++ (ft, ty) :: post) tvs)
          (record name (pre ++ (ft, ty) :: post) svs) keys opts).keys =
        (Diff (record name (pre ++ ({ ft with Tag := otherTag }, ty) :: post) tvs)
          (record name (pre ++ ({ ft with Tag := otherTag }, ty) :: post) svs) keys opts).keys ∧
      (Diff (record name (pre ++ (ft, ty) :: post) tvs)
          (record name (pre ++ (ft, ty) :: post) svs) keys opts).exit =
        (Diff (record name (pre ++ ({ ft with Tag := otherTag }, ty) :: post) tvs)
          (record name (pre ++ ({ ft with Tag := otherTag }, ty) :: post) svs) keys opts).exit) ∧
    ((Merge (record name (pre ++ (ft, ty) :: post) tvs)
          (record name (pre ++ (ft, ty) :: post) svs) keys opts).keys =
        (Merge (record name (pre ++ ({ ft with Tag := otherTag }, ty) :: post) tvs)
          (record name (pre ++ ({ ft with Tag := otherTag }, ty) :: post) svs) keys opts).keys ∧
      (Merge (record name (pre ++ (ft, ty) :: post) tvs)
          (record name (pre ++ (ft, ty) :: post) svs) keys opts).exit =
        (Merge (record name (pre ++ ({ ft with Tag := otherTag }, ty) :: post) tvs)
          (record name (pre ++ ({ ft with Tag := otherTag }, ty) :: post) svs) keys opts).exit ∧
      recordFields (Merge (record name (pre ++ (ft, ty) :: post) tvs)
          (record name (pre ++ (ft, ty) :: post) svs) keys opts).target =
        recordFields (Merge (record name (pre ++ ({ ft with Tag := otherTag }, ty) :: post) tvs)
          (record name (pre ++ ({ ft with Tag := otherTag }, ty) :: post) svs) keys
          opts).target) ∧
    (∀ keys2 : KeyMap,
      (Diff (record name (pre ++ (ft, ty) :: post) tvs)
          (record name (pre ++ (ft, ty) :: post) svs) keys2 opts).exit =
        (Diff (record name (pre ++ (ft, ty) :: post) tvs)
          (record name (pre ++ (ft, ty) :: post) svs) keys opts).exit ∧
      (Merge (record name (pre ++ (ft, ty) :: post) tvs)
          (record name (pre ++ (ft, ty) :: post) svs) keys2 opts).exit =
        (Merge (record name (pre ++ (ft, ty) :: post) tvs)
          (record name (pre ++ (ft, ty) :: post) svs) keys opts).exit) := by
  have main : ∀ merge : Bool,
      (process (record name (pre ++ (ft, ty) :: post) tvs)
          (record name (pre ++ (ft, ty) :: post) svs) keys merge opts).keys =
        (process (record name (pre ++ ({ ft with Tag := otherTag }, ty) :: post) tvs)
          (record name (pre ++ ({ ft with Tag := otherTag }, ty) :: post) svs) keys merge
          opts).keys ∧
      (process (record name (pre ++ (ft, ty) :: post) tvs)
          (record name (pre ++ (ft, ty) :: post) svs) keys merge opts).exit =
        (process (record name (pre ++ ({ ft with Tag := otherTag }, ty) :: post) tvs)
          (record name (pre ++ ({ ft with Tag := otherTag }, ty) :: post) svs) keys merge
          opts).exit ∧
      recordFields (process (record name (pre ++ (ft, ty) :: post) tvs)
          (record name (pre ++ (ft, ty) :: post) svs) keys merge opts).target =
        recordFields (process (record name (pre ++ ({ ft with Tag := otherTag }, ty) :: post)
            tvs)
          (record name (pre ++ ({ ft with Tag := otherTag }, ty) :: post) svs) keys merge
          opts).target := by
    intro merge
    have h := processStructs_embedded_tag (effectiveTag opts) keys merge ft
      { ft with Tag := otherTag } ty ha ha post pre tvs svs []
    unfold record
    rw [process_records, process_records, h]
    split <;> exact ⟨rfl, rfl, rfl⟩
  have hexit : ∀ (merge : Bool) (keys2 : KeyMap),
      (process (record name (pre ++ (ft, ty) :: post) tvs)
          (record name (pre ++ (ft, ty) :: post) svs) keys2 merge opts).exit =
        (process (record name (pre ++ (ft, ty) :: post) tvs)
          (record name (pre ++ (ft, ty) :: post) svs) keys merge opts).exit := by
    intro merge keys2
    rw [process_exit_records, process_exit_records]
    exact processStructs_exit_any _ _ _ _ _ _ tvs svs [] []
  exact ⟨⟨(main false).1, (main false).2.1⟩, main true,
    fun keys2 => ⟨hexit false keys2, hexit true keys2⟩⟩

/-- Witness for C27: the embedded `Anonym` carries the tag `json:"anon"`, the
filter is `{"anon"}` and the nested field `anonym_bool` differs; nothing is
reported under `anon`. -/
theorem embedded_field_tag_and_filter_play_no_part_witness :
    (Diff (record "test" (exStringField ++ (exTaggedAnonym, exAnonym) :: [])
          [.string "string_val", .struct [.bool true]])
        (record "test" (exStringField ++ (exTaggedAnonym, exAnonym) :: [])
          [.string "string_val", .struct [.bool false]]) (some ["anon"]) []).keys = some [] ∧
    (Merge (record "test" (exStringField ++ (exTaggedAnonym, exAnonym) :: [])
          [.string "string_val", .struct [.bool true]])
        (record "test" (exStringField ++ (exTaggedAnonym, exAnonym) :: [])
          [.string "string_val", .struct [.bool false]]) (some ["anon"]) []).keys = some [] :=
  ⟨((embedded_field_tag_and_filter_play_no_part "test" exStringField [] exTaggedAnonym
      exAnonym [.string "string_val", .struct [.bool true]]
      [.string "string_val", .struct [.bool false]] (some ["anon"]) [] [] rfl).1.1).trans
      (by decide),
    ((embedded_field_tag_and_filter_play_no_part "test" exStringField [] exTaggedAnonym
      exAnonym [.string "string_val", .struct [.bool true]]
      [.string "string_val", .struct [.bool false]] (some ["anon"]) [] [] rfl).2.1.1).trans
      (by decide)⟩

/-! ## The tag namespace -/

/-- C23: the field keys are read from the namespace `"json"` when no option is
passed and from the namespace given to `UseTag` when that option is passed (the
last one when several are).  The keys returned by a successful `Diff` or `Merge`
are those of the reported fields under that namespace; the key of a field is the
value stored under the namespace, cut at its first comma, and a non-embedded
field with no tag under the namespace has the empty key and is passed over. -/
theorem keys_are_read_from_the_selected_namespace (n : String)
    (fs : List (StructField × GoType)) (tvs svs : List Value) (keys : KeyMap) (t : String) :
    effectiveTag [] = "json" ∧
    (∀ opts : List Opt, effectiveTag (opts ++ [UseTag t]) = t) ∧
    ((Diff (record n fs tvs) (record n fs svs) keys []).exit = .ok →
      (Diff (record n fs tvs) (record n fs svs) keys []).keys =
        some (reportedKeys keys (leaves "json" fs tvs svs))) ∧
    ((Merge (record n fs tvs) (record n fs svs) keys []).exit = .ok →
      (Merge (record n fs tvs) (record n fs svs) keys []).keys =
        some (reportedKeys keys (leaves "json" fs tvs svs))) ∧
    ((Diff (record n fs tvs) (record n fs svs) keys [UseTag t]).exit = .ok →
      (Diff (record n fs tvs) (record n fs svs) keys [UseTag t]).keys =
        some (reportedKeys keys (leaves t fs tvs svs))) ∧
    ((Merge (record n fs tvs) (record n fs svs) keys [UseTag t]).exit = .ok →
      (Merge (record n fs tvs) (record n fs svs) keys [UseTag t]).keys =
        some (reportedKeys keys (leaves t fs tvs svs))) ∧
    (∀ (ft : StructField) (v : String) (before after : List (String × String)),
      ft.Tag = before ++ (t, v) :: after → (∀ p ∈ before, p.1 ≠ t) →
      fieldKey t ft = splitFirst v) ∧
    (∀ (ft : StructField) (ty : GoType) (tv sv : Value) (merge : Bool) (pk : List String),
      ft.Anonymous = false → (∀ p ∈ ft.Tag, p.1 ≠ t) →
      fieldKey t ft = "" ∧
        processStructs t keys merge [(ft, ty)] [tv] [sv] pk = ⟨[tv], pk, .ok⟩) := by
  refine ⟨rfl, ?_, ?_, ?_, ?_, ?_, ?_, ?_⟩
  · intro opts
    simp [effectiveTag, UseTag, List.foldl_append]
  · intro hok
    exact process_keys_of_ok n fs tvs svs keys false [] hok
  · intro hok
    exact process_keys_of_ok n fs tvs svs keys true [] hok
  · intro hok
    exact process_keys_of_ok n fs tvs svs keys false [UseTag t] hok
  · intro hok
    exact process_keys_of_ok n fs tvs svs keys true [UseTag t] hok
  · intro ft v before after htag hbefore
    unfold fieldKey StructTagGet
    have hfind : ft.Tag.find? (fun p => p.1 == t) = some (t, v) := by
      rw [htag, List.find?_append]
      have hnone : before.find? (fun p => p.1 == t) = none := by
        rw [List.find?_eq_none]
        intro p hp
        simpa using hbefore p hp
      rw [hnone]
      simp
    rw [hfind]
  · intro ft ty tv sv merge pk ha hno
    have hk : fieldKey t ft = "" := by
      unfold fieldKey
      rw [StructTagGet_missing ft.Tag t hno]
      rfl
    refine ⟨hk, ?_⟩
    rw [processStructs_single _ _ _ _ _ _ _ _ ha]
    simp [hk]

/-- Witness for C23, the two cases of `TestUseTag`: under `taga` the field
`String3`, tagged only under `tagb`, is passed over; under `tagb` the field
`String2` is. -/
theorem keys_are_read_from_the_selected_namespace_witness :
    (Merge (record "testWithTags" exTagFields
          [.string "string1", .string "string2", .string "string3"])
        (record "testWithTags" exTagFields [.string "test1", .string "test2", .string ""])
        none [UseTag "taga"]).keys = some ["taga_string1", "taga_string2"] ∧
    (Merge (record "testWithTags" exTagFields
          [.string "string1", .string "string2", .string "string3"])
        (record "testWithTags" exTagFields [.string "test1", .string "", .string "test3"])
        none [UseTag "tagb"]).keys = some ["tagb_string1", "tagb_string3"] :=
  ⟨((keys_are_read_from_the_selected_namespace "testWithTags" exTagFields
      [.string "string1", .string "string2", .string "string3"]
      [.string "test1", .string "test2", .string ""] none "taga").2.2.2.2.2.1
      (by decide)).trans (by decide),
    ((keys_are_read_from_the_selected_namespace "testWithTags" exTagFields
      [.string "string1", .string "string2", .string "string3"]
      [.string "test1", .string "", .string "test3"] none "tagb").2.2.2.2.2.1
      (by decide)).trans (by decide)⟩

/-! ## One changed field at any depth -/

theorem fullyPresentAnonym_shape {ty : GoType} {v : Value}
    (h : fullyPresentAnonym ty v = true) :
    (∃ n fs vs, ty = .struct n fs ∧ v = .struct vs ∧ fullyPresent fs vs = true) ∨
    (∃ n fs vs, ty = .ptr (.struct n fs) ∧ v = .ptr (.struct vs) ∧
      fullyPresent fs vs = true) := by
  cases ty with
  | bool => cases v <;> simp [fullyPresentAnonym] at h
  | int => cases v <;> simp [fullyPresentAnonym] at h
  | string => cases v <;> simp [fullyPresentAnonym] at h
  | float64 => cases v <;> simp [fullyPresentAnonym] at h
  | func => cases v <;> simp [fullyPresentAnonym] at h
  | struct n fs =>
    cases v with
    | struct vs => exact Or.inl ⟨n, fs, vs, rfl, rfl, by simpa [fullyPresentAnonym] using h⟩
    | bool b => simp [fullyPresentAnonym] at h
    | int b => simp [fullyPresentAnonym] at h
    | string b => simp [fullyPresentAnonym] at h
    | float64 b => simp [fullyPresentAnonym] at h
    | func b => simp [fullyPresentAnonym] at h
    | nil => simp [fullyPresentAnonym] at h
    | ptr x => simp [fullyPresentAnonym] at h
  | ptr e =>
    cases e with
    | struct n fs =>
      cases v with
      | ptr x =>
        cases x with
        | struct vs =>
          exact Or.inr ⟨n, fs, vs, rfl, rfl, by simpa [fullyPresentAnonym] using h⟩
        | bool b => simp [fullyPresentAnonym] at h
        | int b => simp [fullyPresentAnonym] at h
        | string b => simp [fullyPresentAnonym] at h
        | float64 b => simp [fullyPresentAnonym] at h
        | func b => simp [fullyPresentAnonym] at h
        | nil => simp [fullyPresentAnonym] at h
        | ptr y => simp [fullyPresentAnonym] at h
      | bool b => simp [fullyPresentAnonym] at h
      | int b => simp [fullyPresentAnonym] at h
      | string b => simp [fullyPresentAnonym] at h
      | float64 b => simp [fullyPresentAnonym] at h
      | func b => simp [fullyPresentAnonym] at h
      | nil => simp [fullyPresentAnonym] at h
      | struct vs => simp [fullyPresentAnonym] at h
    | bool => cases v <;> simp [fullyPresentAnonym] at h
    | int => cases v <;> simp [fullyPresentAnonym] at h
    | string => cases v <;> simp [fullyPresentAnonym] at h
    | float64 => cases v <;> simp [fullyPresentAnonym] at h
    | func => cases v <;> simp [fullyPresentAnonym] at h
    | ptr e2 => cases v <;> simp [fullyPresentAnonym] at h

theorem fullyPresent_cons (ft : StructField) (ty : GoType) (rest : List (StructField × GoType))
    (v : Value) (vs : List Value) :
    fullyPresent ((ft, ty) :: rest) (v :: vs) =
      ((if ft.Anonymous then fullyPresentAnonym ty v else true) && fullyPresent rest vs) := by
  rw [fullyPresent]

/-- When every embedded sub-record is present on both sides at every level, the
traversal ends normally. -/
theorem processStructs_ok_of_present (tag : String) (keys : KeyMap) (merge : Bool)
    (fs : List (StructField × GoType)) :
    ∀ (tvs svs : List Value) (pk : List String),
      fullyPresent fs tvs = true → fullyPresent fs svs = true →
      (processStructs tag keys merge fs tvs svs pk).exit = .ok := by
  induction fs using fields_induction with
  | hnil => intro tvs svs pk _ _; rw [processStructs_nil]
  | hcons ft ty rest ih1 ih2 ih =>
    intro tvs svs pk ht hs
    cases tvs with
    | nil => simp [fullyPresent] at ht
    | cons tv tvs =>
      cases svs with
      | nil => simp [fullyPresent] at hs
      | cons sv svs =>
        rw [fullyPresent_cons, Bool.and_eq_true] at ht hs
        rw [processStructs_cons_eq]
        have hstep : (fieldStep tag keys merge ft ty tv sv pk).2.2 = .ok := by
          cases ha : ft.Anonymous with
          | false =>
            rw [fieldStep_plain _ _ _ _ _ _ _ _ ha]
            split <;> rfl
          | true =>
            rw [fieldStep_anonym _ _ _ _ _ _ _ _ ha]
            have ht1 := ht.1
            have hs1 := hs.1
            rw [ha] at ht1 hs1
            simp only [if_true] at ht1 hs1
            rcases fullyPresentAnonym_shape ht1 with
              ⟨n, gs, tfs, rfl, rfl, htp⟩ | ⟨n, gs, tfs, rfl, rfl, htp⟩
            · rcases fullyPresentAnonym_shape hs1 with
                ⟨n2, gs2, sfs, h0, rfl, hsp⟩ | ⟨n2, gs2, sfs, h0, _, _⟩
              · cases h0
                rw [processAnonym_struct]
                exact ih1 n gs rfl tfs sfs pk htp hsp
              · cases h0
            · rcases fullyPresentAnonym_shape hs1 with
                ⟨n2, gs2, sfs, h0, _, _⟩ | ⟨n2, gs2, sfs, h0, rfl, hsp⟩
              · cases h0
              · cases h0
                rw [processAnonym_ptr]
                exact ih2 n gs rfl tfs sfs pk htp hsp
        rw [if_pos hstep]
        exact ih _ _ _ ht.2 hs.2

theorem reportedKeys_eq_nil (keys : KeyMap) (ls : List Leaf)
    (h : ∀ x ∈ ls, x.key = "" ∨ deepEqual x.target x.source = true) :
    reportedKeys keys ls = [] := by
  unfold reportedKeys
  rw [List.map_eq_nil_iff, List.filter_eq_nil_iff]
  intro x hx
  rcases h x hx with hk | he
  · simp [Leaf.reported, hk]
  · simp [Leaf.reported, he]

/-- C21: for two records of one struct type whose embedded sub-records are
present on both sides at every level and whose traversed fields differ in
exactly one keyed field, at whatever embedding depth that field lies, `Diff`
with a nil filter returns no error and exactly the one-element list holding that
field's key. -/
theorem diff_returns_the_single_changed_key (n : String) (fs : List (StructField × GoType))
    (tvs svs : List Value) (opts : List Opt) (before after : List Leaf) (l : Leaf)
    (hpt : fullyPresent fs tvs = true) (hps : fullyPresent fs svs = true)
    (hl : leaves (effectiveTag opts) fs tvs svs = before ++ l :: after)
    (hkey : l.key ≠ "") (hne : deepEqual l.target l.source = false)
    (hsame : ∀ x ∈ before ++ after, x.key = "" ∨ deepEqual x.target x.source = true) :
    (Diff (record n fs tvs) (record n fs svs) none opts).exit = .ok ∧
    (Diff (record n fs tvs) (record n fs svs) none opts).keys = some [l.key] := by
  have hok : (Diff (record n fs tvs) (record n fs svs) none opts).exit = .ok := by
    unfold Diff
    rw [process_exit_records]
    exact processStructs_ok_of_present _ _ _ fs tvs svs [] hpt hps
  refine ⟨hok, ?_⟩
  unfold Diff at hok ⊢
  rw [process_keys_of_ok _ _ _ _ _ _ _ hok, hl, reportedKeys_append]
  have hb : reportedKeys none before = [] :=
    reportedKeys_eq_nil none before (fun x hx => hsame x (List.mem_append_left _ hx))
  have ha : reportedKeys none after = [] :=
    reportedKeys_eq_nil none after (fun x hx => hsame x (List.mem_append_right _ hx))
  have hone : reportedKeys none (l :: after) = l.key :: reportedKeys none after := by
    unfold reportedKeys
    have hr : l.reported none = true := by
      simp [Leaf.reported, filteredOut, hkey, hne]
    simp [List.filter_cons, hr]
  rw [hb, hone, ha]
  rfl

/-- Witness for C21: two levels of embedded pointer records, all present, and
only the deepest field `anonym_ptr2_string` differs. -/
theorem diff_returns_the_single_changed_key_witness :
    (Diff (record "test" exDeepFields exDeepCurrent) (record "test" exDeepFields exDeepUpdate)
      none []).exit = .ok ∧
    (Diff (record "test" exDeepFields exDeepCurrent) (record "test" exDeepFields exDeepUpdate)
      none []).keys = some ["anonym_ptr2_string"] :=
  diff_returns_the_single_changed_key "test" exDeepFields exDeepCurrent exDeepUpdate []
    [⟨"string", .string "string_val", .string "string_val"⟩,
      ⟨"anonym_ptr_string", .string "anonym_ptr_string_val", .string "anonym_ptr_string_val"⟩]
    [] ⟨"anonym_ptr2_string", .string "anonym_ptr_string_val", .string "test2"⟩
    (by decide) (by decide) rfl (by decide) (by decide)
    (by
      intro x hx
      simp only [List.append_nil, List.mem_cons, List.mem_singleton, List.not_mem_nil,
        or_false] at hx
      rcases hx with rfl | rfl <;> exact Or.inr rfl)

/-! ## The traversal on the heap -/

theorem processStructsOnHeap_nil (tag : String) (keys : KeyMap) (merge : Bool)
    (T S : Loc) (i : Nat) (h : Heap) (pk : List String) :
    processStructsOnHeap tag keys merge [] T S i h pk = ⟨h, pk, .ok⟩ := by
  rw [processStructsOnHeap]

theorem processStructsOnHeap_cons_eq (tag : String) (keys : KeyMap) (merge : Bool)
    (ft : StructField) (ty : GoType) (rest : List (StructField × GoType))
    (T S : Loc) (i : Nat) (h : Heap) (pk : List String) :
    processStructsOnHeap tag keys merge ((ft, ty) :: rest) T S i h pk =
      if (fieldStepOnHeap tag keys merge ft ty T S i h pk).exit = .ok then
        processStructsOnHeap tag keys merge rest T S (i + 1)
          (fieldStepOnHeap tag keys merge ft ty T S i h pk).heap
          (fieldStepOnHeap tag keys merge ft ty T S i h pk).processedKeys
      else fieldStepOnHeap tag keys merge ft ty T S i h pk := by
  rw [processStructsOnHeap]
  change (match (fieldStepOnHeap tag keys merge ft ty T S i h pk).exit with
    | .ok => processStructsOnHeap tag keys merge rest T S (i + 1)
          (fieldStepOnHeap tag keys merge ft ty T S i h pk).heap
          (fieldStepOnHeap tag keys merge ft ty T S i h pk).processedKeys
    | _ => fieldStepOnHeap tag keys merge ft ty T S i h pk) = _
  cases hx : (fieldStepOnHeap tag keys merge ft ty T S i h pk).exit <;> simp

theorem processAnonymOnHeap_struct (tag : String) (keys : KeyMap) (merge : Bool) (n : String)
    (fs : List (StructField × GoType)) (d u : Loc) (h : Heap) (pk : List String) :
    processAnonymOnHeap tag keys merge (.struct n fs) d u h pk =
      processStructsOnHeap tag keys merge fs d u 0 h pk := rfl

theorem processAnonymOnHeap_ptr (tag : String) (keys : KeyMap) (merge : Bool) (n : String)
    (fs : List (StructField × GoType)) (d u : Loc) (h : Heap) (pk : List String) :
    processAnonymOnHeap tag keys merge (.ptr (.struct n fs)) d u h pk =
      if (GoType.ptr (.struct n fs)).Kind = .Ptr ∧
          elemKindAt h (.ptr (.struct n fs)) d = .Struct then
        if isNilAt h u then ⟨h, pk, .ok⟩
        else
          processStructsOnHeap tag keys merge fs
            (elemAt (if isNilAt h d then
              store (h ++ [zeroHValue (.struct n fs)]) d (.ptr h.length) else h) d)
            (elemAt (if isNilAt h d then
              store (h ++ [zeroHValue (.struct n fs)]) d (.ptr h.length) else h) u) 0
            (if isNilAt h d then
              store (h ++ [zeroHValue (.struct n fs)]) d (.ptr h.length) else h) pk
      else ⟨h, pk, .error errAnonym⟩ := rfl

theorem elemKindAt_struct {h : Heap} {ty : GoType} {d : Loc}
    (hk : elemKindAt h ty d = .Struct) :
    ∃ n fs a, ty = .ptr (.struct n fs) ∧ load h d = some (.ptr a) := by
  unfold elemKindAt at hk
  split at hk
  · rename_i e a hl
    cases e <;> simp [GoType.Kind] at hk
    exact ⟨_, _, _, rfl, hl⟩
  · cases hk

theorem isNilAt_ptr {h : Heap} {d : Loc} {a : Nat} (hl : load h d = some (.ptr a)) :
    isNilAt h d = false := by
  simp [isNilAt, hl]

/-- The possible courses of the embedded-field branch on the heap: the traversal
of an embedded struct, the traversal of the referents of two embedded pointers,
or an end without any write, either the `continue` for a nil source pointer or
the error for an unsupported embedded field. -/
theorem processAnonymOnHeap_course (tag : String) (ty : GoType) (d u : Loc) (h : Heap) :
    (∃ n fs, ty = .struct n fs ∧
      ∀ keys merge pk, processAnonymOnHeap tag keys merge ty d u h pk =
        processStructsOnHeap tag keys merge fs d u 0 h pk) ∨
    (∃ n fs, ty = .ptr (.struct n fs) ∧
      ∀ keys merge pk, processAnonymOnHeap tag keys merge ty d u h pk =
        processStructsOnHeap tag keys merge fs (elemAt h d) (elemAt h u) 0 h pk) ∨
    (∃ e, (e = .ok ∨ e = .error errAnonym) ∧
      ∀ keys merge pk, processAnonymOnHeap tag keys merge ty d u h pk = ⟨h, pk, e⟩) := by
  cases ty with
  | bool => exact Or.inr (Or.inr ⟨_, Or.inr rfl, fun _ _ _ => rfl⟩)
  | int => exact Or.inr (Or.inr ⟨_, Or.inr rfl, fun _ _ _ => rfl⟩)
  | string => exact Or.inr (Or.inr ⟨_, Or.inr rfl, fun _ _ _ => rfl⟩)
  | float64 => exact Or.inr (Or.inr ⟨_, Or.inr rfl, fun _ _ _ => rfl⟩)
  | func => exact Or.inr (Or.inr ⟨_, Or.inr rfl, fun _ _ _ => rfl⟩)
  | struct n fs => exact Or.inl ⟨n, fs, rfl, fun _ _ _ => rfl⟩
  | ptr e =>
    by_cases hk : elemKindAt h (.ptr e) d = .Struct
    · obtain ⟨n, fs, a, hty, hl⟩ := elemKindAt_struct hk
      cases hty
      by_cases hn : isNilAt h u = true
      · refine Or.inr (Or.inr ⟨_, Or.inl rfl, fun keys merge pk => ?_⟩)
        rw [processAnonymOnHeap_ptr, if_pos ⟨rfl, hk⟩, if_pos hn]
      · refine Or.inr (Or.inl ⟨n, fs, rfl, fun keys merge pk => ?_⟩)
        rw [processAnonymOnHeap_ptr, if_pos ⟨rfl, hk⟩, if_neg hn]
        simp only [isNilAt_ptr hl, Bool.false_eq_true, if_false]
    · refine Or.inr (Or.inr ⟨_, Or.inr rfl, fun keys merge pk => ?_⟩)
      cases e with
      | struct n fs => rw [processAnonymOnHeap_ptr, if_neg (fun hc => hk hc.2)]
      | bool =>
        show (if _ ∧ elemKindAt h (.ptr .bool) d = Kind.Struct then _ else _) = _
        rw [if_neg (fun hc => hk hc.2)]
      | int =>
        show (if _ ∧ elemKindAt h (.ptr .int) d = Kind.Struct then _ else _) = _
        rw [if_neg (fun hc => hk hc.2)]
      | string =>
        show (if _ ∧ elemKindAt h (.ptr .string) d = Kind.Struct then _ else _) = _
        rw [if_neg (fun hc => hk hc.2)]
      | float64 =>
        show (if _ ∧ elemKindAt h (.ptr .float64) d = Kind.Struct then _ else _) = _
        rw [if_neg (fun hc => hk hc.2)]
      | func =>
        show (if _ ∧ elemKindAt h (.ptr .func) d = Kind.Struct then _ else _) = _
        rw [if_neg (fun hc => hk hc.2)]
      | ptr e2 =>
        show (if _ ∧ elemKindAt h (.ptr (.ptr e2)) d = Kind.Struct then _ else _) = _
        rw [if_neg (fun hc => hk hc.2)]

theorem fieldStepOnHeap_anonym (tag : String) (keys : KeyMap) (merge : Bool)
    (ft : StructField) (ty : GoType) (T S : Loc) (i : Nat) (h : Heap) (pk : List String)
    (ha : ft.Anonymous = true) :
    fieldStepOnHeap tag keys merge ft ty T S i h pk =
      processAnonymOnHeap tag keys merge ty (T.Field i) (S.Field i) h pk := by
  simp [fieldStepOnHeap, ha]

theorem fieldStepOnHeap_diff_heap (tag : String) (keys : KeyMap) (ft : StructField)
    (ty : GoType) (T S : Loc) (i : Nat) (h : Heap) (pk : List String)
    (ih1 : ∀ n fs, ty = .struct n fs → ∀ T S i h pk,
      (processStructsOnHeap tag keys false fs T S i h pk).heap = h)
    (ih2 : ∀ n fs, ty = .ptr (.struct n fs) → ∀ T S i h pk,
      (processStructsOnHeap tag keys false fs T S i h pk).heap = h) :
    (fieldStepOnHeap tag keys false ft ty T S i h pk).heap = h := by
  cases ha : ft.Anonymous with
  | false =>
    simp only [fieldStepOnHeap, ha, Bool.false_eq_true, if_false]
    repeat' split
    all_goals rfl
  | true =>
    rw [fieldStepOnHeap_anonym _ _ _ _ _ _ _ _ _ _ ha]
    rcases processAnonymOnHeap_course tag ty (T.Field i) (S.Field i) h with
      ⟨n, fs, rfl, hc⟩ | ⟨n, fs, rfl, hc⟩ | ⟨e, _, hc⟩
    · rw [hc]; exact ih1 n fs rfl _ _ _ _ _
    · rw [hc]; exact ih2 n fs rfl _ _ _ _ _
    · rw [hc]

/-- `Diff` never writes to the heap. -/
theorem processStructsOnHeap_diff_heap (tag : String) (keys : KeyMap)
    (fs : List (StructField × GoType)) :
    ∀ (T S : Loc) (i : Nat) (h : Heap) (pk : List String),
      (processStructsOnHeap tag keys false fs T S i h pk).heap = h := by
  induction fs using fields_induction with
  | hnil => intro T S i h pk; rw [processStructsOnHeap_nil]
  | hcons ft ty rest ih1 ih2 ih =>
    intro T S i h pk
    rw [processStructsOnHeap_cons_eq]
    have hs := fieldStepOnHeap_diff_heap tag keys ft ty T S i h pk ih1 ih2
    split
    · rw [ih, hs]
    · exact hs

theorem fieldStepOnHeap_filter (tag : String) (F : List String) (ft : StructField)
    (ty : GoType) (T S : Loc) (i : Nat) (h : Heap) (pk pkF : List String)
    (ih1 : ∀ n fs, ty = .struct n fs → ∀ T S i h pk pkF,
      (processStructsOnHeap tag none false fs T S i h pk).exit.isPanic = false →
      (processStructsOnHeap tag (some F) false fs T S i h pkF).exit =
        (processStructsOnHeap tag none false fs T S i h pk).exit ∧
      ∃ ks, (processStructsOnHeap tag none false fs T S i h pk).processedKeys = pk ++ ks ∧
        (processStructsOnHeap tag (some F) false fs T S i h pkF).processedKeys =
          pkF ++ ks.filter (fun k => decide (k ∈ F)))
    (ih2 : ∀ n fs, ty = .ptr (.struct n fs) → ∀ T S i h pk pkF,
      (processStructsOnHeap tag none false fs T S i h pk).exit.isPanic = false →
      (processStructsOnHeap tag (some F) false fs T S i h pkF).exit =
        (processStructsOnHeap tag none false fs T S i h pk).exit ∧
      ∃ ks, (processStructsOnHeap tag none false fs T S i h pk).processedKeys = pk ++ ks ∧
        (processStructsOnHeap tag (some F) false fs T S i h pkF).processedKeys =
          pkF ++ ks.filter (fun k => decide (k ∈ F)))
    (hnp : (fieldStepOnHeap tag none false ft ty T S i h pk).exit.isPanic = false) :
    (fieldStepOnHeap tag (some F) false ft ty T S i h pkF).exit =
      (fieldStepOnHeap tag none false ft ty T S i h pk).exit ∧
    ∃ ks, (fieldStepOnHeap tag none false ft ty T S i h pk).processedKeys = pk ++ ks ∧
      (fieldStepOnHeap tag (some F) false ft ty T S i h pkF).processedKeys =
        pkF ++ ks.filter (fun k => decide (k ∈ F)) := by
  cases ha : ft.Anonymous with
  | false =>
    simp only [fieldStepOnHeap, ha, filteredOut, Bool.false_eq_true, if_false] at hnp ⊢
    generalize splitFirst (StructTagGet ft.Tag tag) = key at hnp ⊢
    generalize load h (T.Field i) = tv at hnp ⊢
    generalize load h (S.Field i) = sv at hnp ⊢
    by_cases h1 : key = ""
    · simp [h1]
    · by_cases h2 : ft.IsExported = true
      · by_cases h3 : key ∈ F
        · rcases tv with _ | tv <;> rcases sv with _ | sv <;>
            simp [h1, h2, h3, Exit.isPanic] at hnp ⊢
          by_cases h4 : deepEqualOnHeap h ty tv sv = true
          · simp [h4]
          · simp [h4, h3]
        · rcases tv with _ | tv <;> rcases sv with _ | sv <;>
            simp [h1, h2, h3, Exit.isPanic] at hnp ⊢
          by_cases h4 : deepEqualOnHeap h ty tv sv = true
          · simp [h4]
          · simp [h4, h3]
      · simp [h1, h2, Exit.isPanic] at hnp
  | true =>
    rw [fieldStepOnHeap_anonym _ _ _ _ _ _ _ _ _ _ ha] at hnp ⊢
    rw [fieldStepOnHeap_anonym _ _ _ _ _ _ _ _ _ _ ha]
    rcases processAnonymOnHeap_course tag ty (T.Field i) (S.Field i) h with
      ⟨n, fs, rfl, hc⟩ | ⟨n, fs, rfl, hc⟩ | ⟨e, _, hc⟩
    · rw [hc] at hnp ⊢
      rw [hc]
      exact ih1 n fs rfl _ _ _ _ _ _ hnp
    · rw [hc] at hnp ⊢
      rw [hc]
      exact ih2 n fs rfl _ _ _ _ _ _ hnp
    · rw [hc, hc]
      exact ⟨rfl, [], by simp, by simp⟩

/-- Under a non-nil filter `F` a comparing traversal ends the way the traversal
with a nil filter ends, and collects the keys that traversal collects restricted
to the members of `F`, provided the traversal with a nil filter does not
panic. -/
theorem processStructsOnHeap_filter (tag : String) (F : List String)
    (fs : List (StructField × GoType)) :
    ∀ (T S : Loc) (i : Nat) (h : Heap) (pk pkF : List String),
      (processStructsOnHeap tag none false fs T S i h pk).exit.isPanic = false →
      (processStructsOnHeap tag (some F) false fs T S i h pkF).exit =
        (processStructsOnHeap tag none false fs T S i h pk).exit ∧
      ∃ ks, (processStructsOnHeap tag none false fs T S i h pk).processedKeys = pk ++ ks ∧
        (processStructsOnHeap tag (some F) false fs T S i h pkF).processedKeys =
          pkF ++ ks.filter (fun k => decide (k ∈ F)) := by
  induction fs using fields_induction with
  | hnil =>
    intro T S i h pk pkF _
    rw [processStructsOnHeap_nil, processStructsOnHeap_nil]
    exact ⟨rfl, [], by simp, by simp⟩
  | hcons ft ty rest ih1 ih2 ih =>
    intro T S i h pk pkF hnp
    rw [processStructsOnHeap_cons_eq] at hnp ⊢
    rw [processStructsOnHeap_cons_eq]
    by_cases hok : (fieldStepOnHeap tag none false ft ty T S i h pk).exit = .ok
    · rw [if_pos hok] at hnp ⊢
      obtain ⟨he, ks1, hk1, hk2⟩ := fieldStepOnHeap_filter tag F ft ty T S i h pk pkF ih1 ih2
        (by rw [hok]; rfl)
      rw [if_pos (he.trans hok)]
      have hh1 := fieldStepOnHeap_diff_heap tag none ft ty T S i h pk
        (fun n fs _ => processStructsOnHeap_diff_heap tag none fs)
        (fun n fs _ => processStructsOnHeap_diff_heap tag none fs)
      have hh2 := fieldStepOnHeap_diff_heap tag (some F) ft ty T S i h pkF
        (fun n fs _ => processStructsOnHeap_diff_heap tag (some F) fs)
        (fun n fs _ => processStructsOnHeap_diff_heap tag (some F) fs)
      rw [hh1] at hnp ⊢
      rw [hh2]
      obtain ⟨he2, ks2, hk3, hk4⟩ := ih T S (i + 1) h _
        (fieldStepOnHeap tag (some F) false ft ty T S i h pkF).processedKeys hnp
      refine ⟨he2, ks1 ++ ks2, ?_, ?_⟩
      · rw [hk3, hk1, List.append_assoc]
      · rw [hk4, hk2, List.filter_append, List.append_assoc]
    · rw [if_neg hok] at hnp ⊢
      obtain ⟨he, ks1, hk1, hk2⟩ := fieldStepOnHeap_filter tag F ft ty T S i h pk pkF ih1 ih2
        hnp
      rw [if_neg (fun hc => hok (he ▸ hc))]
      exact ⟨he, ks1, hk1, hk2⟩

theorem processOnHeap_exit (fs : List (StructField × GoType)) (h : Heap) (target source : Nat)
    (keys : KeyMap) (merge : Bool) (opts : List Opt) :
    (processOnHeap fs h target source keys merge opts).exit =
      (processStructsOnHeap (effectiveTag opts) keys merge fs ⟨target, []⟩ ⟨source, []⟩ 0 h
        []).exit := by
  unfold processOnHeap effectiveTag
  simp only
  split
  · rename_i hx; rw [hx]
  · rfl

theorem processOnHeap_keys_of_ok (fs : List (StructField × GoType)) (h : Heap)
    (target source : Nat) (keys : KeyMap) (merge : Bool) (opts : List Opt)
    (hok : (processOnHeap fs h target source keys merge opts).exit = .ok) :
    (processOnHeap fs h target source keys merge opts).keys =
      some (processStructsOnHeap (effectiveTag opts) keys merge fs ⟨target, []⟩ ⟨source, []⟩ 0
        h []).processedKeys := by
  rw [processOnHeap_exit] at hok
  unfold processOnHeap effectiveTag at *
  simp only
  split
  · rfl
  · rename_i hne
    exact absurd hok hne

/-- On the example records of type `test` the traversal on the heap returns the
keys the traversal of the two trees returns, for `Diff` and for `Merge`. -/
theorem heap_and_tree_agree_on_example :
    (DiffOnHeap exFields exHeap 0 1 none []).keys =
      (Diff (record "test" exFields exCurrent) (record "test" exFields exUpdate) none []).keys ∧
    (MergeOnHeap exFields exHeap 0 1 none []).keys =
      (Merge (record "test" exFields exCurrent) (record "test" exFields exUpdate) none
        []).keys := by
  decide

/-- C15, counterexample: with `type A struct { X int "json:x" }` and
`type T struct { *A; P *A "json:p" }`, dest `T{&a1, &a3}` and update
`T{&a2, &a1}`, where `a1 = A{1}`, `a2 = A{2}` and `a3 = A{2}`, the field `P` of
update points to the record embedded in dest.  `Merge` assigns `a1.X = 2` before
it compares the fields `P`, finds them deeply equal and returns `[x]`; `Diff` on
the same inputs returns `[x, p]`. -/
theorem merge_and_diff_differ_on_shared_referent :
    (MergeOnHeap exSharedFields exSharedHeap 0 1 none []).exit = .ok ∧
    (MergeOnHeap exSharedFields exSharedHeap 0 1 none []).keys = some ["x"] ∧
    (DiffOnHeap exSharedFields exSharedHeap 0 1 none []).exit = .ok ∧
    (DiffOnHeap exSharedFields exSharedHeap 0 1 none []).keys = some ["x", "p"] := by
  decide

/-- C26, counterexample: on `type P struct { x int "json:x" }` with the records
`P{1}` and `P{2}`, `Diff` with a nil filter panics when it calls `Interface` on
the unexported field, while `Diff` with the non-nil filter `{"y"}` passes over
the field and returns the empty list with no error. -/
theorem unexported_field_panics_only_without_filter :
    (DiffOnHeap exUnexportedFields exUnexportedHeap 0 1 none []).exit =
      .panic panicInterface ∧
    (DiffOnHeap exUnexportedFields exUnexportedHeap 0 1 (some ["y"]) []).exit = .ok ∧
    (DiffOnHeap exUnexportedFields exUnexportedHeap 0 1 (some ["y"]) []).keys = some [] := by
  decide

/-- C26, amended: for every pair of records of one struct type on the heap on
which `Diff` with a nil filter does not panic, every non-nil key filter `F` and
every option list, `Diff` with the filter `F` ends the way `Diff` with a nil
filter ends, and when they return no error the list returned with `F` is the
list returned with a nil filter restricted, in order, to the members of `F`. -/
theorem filter_restricts_the_unfiltered_list_unless_panic
    (fs : List (StructField × GoType)) (h : Heap) (first second : Nat) (F : List String)
    (opts : List Opt)
    (hnp : (DiffOnHeap fs h first second none opts).exit.isPanic = false) :
    (DiffOnHeap fs h first second (some F) opts).exit =
      (DiffOnHeap fs h first second none opts).exit ∧
    ((DiffOnHeap fs h first second none opts).exit = .ok →
      ∃ ks, (DiffOnHeap fs h first second none opts).keys = some ks ∧
        (DiffOnHeap fs h first second (some F) opts).keys =
          some (ks.filter (fun k => decide (k ∈ F)))) := by
  unfold DiffOnHeap at hnp ⊢
  rw [processOnHeap_exit] at hnp
  obtain ⟨he, ks, hk1, hk2⟩ := processStructsOnHeap_filter (effectiveTag opts) F fs
    ⟨first, []⟩ ⟨second, []⟩ 0 h [] [] hnp
  have hexit : (processOnHeap fs h first second (some F) false opts).exit =
      (processOnHeap fs h first second none false opts).exit := by
    rw [processOnHeap_exit, processOnHeap_exit]
    exact he
  refine ⟨hexit, fun hok => ?_⟩
  rw [processOnHeap_keys_of_ok _ _ _ _ _ _ _ hok,
    processOnHeap_keys_of_ok _ _ _ _ _ _ _ (hexit.trans hok), hk1, hk2]
  exact ⟨ks, by simp, by simp⟩

/-- Witness for C26 on the heap of the records that share a referent: the nil
filter gives `[x, p]`, the filter `{"p"}` keeps `p`. -/
theorem filter_restricts_the_unfiltered_list_unless_panic_witness :
    (DiffOnHeap exSharedFields exSharedHeap 0 1 (some ["p"]) []).exit =
      (DiffOnHeap exSharedFields exSharedHeap 0 1 none []).exit ∧
    ((DiffOnHeap exSharedFields exSharedHeap 0 1 none []).exit = .ok →
      ∃ ks, (DiffOnHeap exSharedFields exSharedHeap 0 1 none []).keys = some ks ∧
        (DiffOnHeap exSharedFields exSharedHeap 0 1 (some ["p"]) []).keys =
          some (ks.filter (fun k => decide (k ∈ ["p"])))) :=
  filter_restricts_the_unfiltered_list_unless_panic exSharedFields exSharedHeap 0 1 ["p"] []
    (by decide)

/-! ## Merge and Diff on records that share nothing -/

theorem sub_update_of_incomparable : ∀ (p q : List Nat) (c v : HValue),
    ¬ p <+: q → ¬ q <+: p → (c.update p v).sub q = c.sub q := by
  intro p
  induction p with
  | nil => intro q c v h1 _; exact absurd (List.nil_prefix) h1
  | cons i p ih =>
    intro q c v h1 h2
    cases q with
    | nil => exact absurd (List.nil_prefix) h2
    | cons j q =>
      cases c with
      | struct fs =>
        cases hfi : fs[i]? with
        | none => simp [HValue.update, hfi]
        | some f =>
          simp only [HValue.update, hfi, HValue.sub]
          by_cases hij : i = j
          · subst hij
            have hlt : i < fs.length := by
              rcases List.getElem?_eq_some_iff.1 hfi with ⟨hl, _⟩
              exact hl
            have h1' : ¬ p <+: q := fun hc => h1 (List.cons_prefix_cons.2 ⟨rfl, hc⟩)
            have h2' : ¬ q <+: p := fun hc => h2 (List.cons_prefix_cons.2 ⟨rfl, hc⟩)
            simp only [List.getElem?_set_self, hlt, hfi]
            exact ih q f v h1' h2'
          · rw [List.getElem?_set_ne hij]
      | bool b => simp [HValue.update]
      | int b => simp [HValue.update]
      | string b => simp [HValue.update]
      | nil => simp [HValue.update]
      | ptr b => simp [HValue.update]
      | float64 b => simp [HValue.update]
      | func b => simp [HValue.update]

theorem store_length (h : Heap) (w : Loc) (v : HValue) : (store h w v).length = h.length := by
  unfold store
  split
  · simp
  · rfl

theorem load_store_of_not_overlaps (h : Heap) (w l : Loc) (v : HValue)
    (hno : w.overlaps l = false) : load (store h w v) l = load h l := by
  unfold store
  cases hw : h[w.addr]? with
  | none => rfl
  | some c =>
    simp only
    unfold load
    by_cases ha : w.addr = l.addr
    · simp only [Loc.overlaps, ha, decide_True, Bool.true_and, Bool.or_eq_false_iff,
        decide_eq_false_iff_not] at hno
      have hlt : l.addr < h.length := by
        rcases List.getElem?_eq_some_iff.1 hw with ⟨hl, _⟩
        exact ha ▸ hl
      rw [ha] at hw ⊢
      simp only [List.getElem?_set_self, hlt, hw]
      exact sub_update_of_incomparable _ _ _ _ hno.1 hno.2
    · rw [List.getElem?_set_ne ha]

theorem reach_frame (h h2 : Heap) (ty : GoType) :
    ∀ x, (∀ a ∈ reach h ty x, h2[a]? = h[a]?) → reach h2 ty x = reach h ty x := by
  refine @GoType.rec
    (fun ty => ∀ x, (∀ a ∈ reach h ty x, h2[a]? = h[a]?) → reach h2 ty x = reach h ty x)
    (fun fs => ∀ xs, (∀ a ∈ reachFields h fs xs, h2[a]? = h[a]?) →
      reachFields h2 fs xs = reachFields h fs xs)
    (fun p => ∀ x, (∀ a ∈ reach h p.2 x, h2[a]? = h[a]?) → reach h2 p.2 x = reach h p.2 x)
    ?_ ?_ ?_ ?_ ?_ ?_ ?_ ?_ ?_ ?_ ty
  · intro x _; cases x <;> rfl
  · intro x _; cases x <;> rfl
  · intro x _; cases x <;> rfl
  · intro e ih x hx
    cases x with
    | ptr a =>
      simp only [reach] at hx ⊢
      have ha := hx a (List.mem_cons_self _ _)
      rw [ha]
      cases hc : h[a]? with
      | none => rfl
      | some c =>
        simp only [hc] at hx ⊢
        rw [ih c (fun b hb => hx b (List.mem_cons_of_mem _ hb))]
    | bool b => rfl
    | int b => rfl
    | string b => rfl
    | nil => rfl
    | struct b => rfl
    | float64 b => rfl
    | func b => rfl
  · intro n fs ih x hx
    cases x with
    | struct xs =>
      simp only [reach] at hx ⊢
      exact ih xs hx
    | bool b => rfl
    | int b => rfl
    | string b => rfl
    | nil => rfl
    | ptr b => rfl
    | float64 b => rfl
    | func b => rfl
  · intro x _; cases x <;> rfl
  · intro x _; cases x <;> rfl
  · intro xs _; rfl
  · intro head tail ihh iht xs hx
    obtain ⟨f, t⟩ := head
    cases xs with
    | nil => rfl
    | cons x xs =>
      simp only [reachFields] at hx ⊢
      rw [ihh x (fun a ha => hx a (List.mem_append_left _ ha)),
        iht xs (fun a ha => hx a (List.mem_append_right _ ha))]
  · intro f t ih
    exact ih

theorem deepEqualOnHeap_frame (h h2 : Heap) (ty : GoType) :
    ∀ x y, (∀ a ∈ reach h ty x ++ reach h ty y, h2[a]? = h[a]?) →
      deepEqualOnHeap h2 ty x y = deepEqualOnHeap h ty x y := by
  refine @GoType.rec
    (fun ty => ∀ x y, (∀ a ∈ reach h ty x ++ reach h ty y, h2[a]? = h[a]?) →
      deepEqualOnHeap h2 ty x y = deepEqualOnHeap h ty x y)
    (fun fs => ∀ xs ys, (∀ a ∈ reachFields h fs xs ++ reachFields h fs ys, h2[a]? = h[a]?) →
      deepEqualFieldsOnHeap h2 fs xs ys = deepEqualFieldsOnHeap h fs xs ys)
    (fun p => ∀ x y, (∀ a ∈ reach h p.2 x ++ reach h p.2 y, h2[a]? = h[a]?) →
      deepEqualOnHeap h2 p.2 x y = deepEqualOnHeap h p.2 x y)
    ?_ ?_ ?_ ?_ ?_ ?_ ?_ ?_ ?_ ?_ ty
  · intro x y _; cases x <;> cases y <;> rfl
  · intro x y _; cases x <;> cases y <;> rfl
  · intro x y _; cases x <;> cases y <;> rfl
  · intro e ih x y hx
    cases x <;> cases y <;> try rfl
    rename_i a b
    simp only [reach, List.mem_append, List.mem_cons] at hx
    have ha := hx a (Or.inl (Or.inl rfl))
    have hb := hx b (Or.inr (Or.inl rfl))
    simp only [deepEqualOnHeap, ha, hb]
    cases hca : h[a]? with
    | none => rfl
    | some ca =>
      cases hcb : h[b]? with
      | none => rfl
      | some cb =>
        simp only
        rw [ih ca cb]
        intro c hc
        rcases List.mem_append.1 hc with hc | hc
        · exact hx c (Or.inl (Or.inr (by simpa [hca] using hc)))
        · exact hx c (Or.inr (Or.inr (by simpa [hcb] using hc)))
  · intro n fs ih x y hx
    cases x <;> cases y <;> try rfl
    rename_i xs ys
    simp only [reach] at hx
    simp only [deepEqualOnHeap]
    exact ih xs ys hx
  · intro x y _; cases x <;> cases y <;> rfl
  · intro x y _; cases x <;> cases y <;> rfl
  · intro xs ys _
    cases xs <;> cases ys <;> rfl
  · intro head tail ihh iht xs ys hx
    obtain ⟨f, t⟩ := head
    cases xs with
    | nil => cases ys <;> rfl
    | cons x xs =>
      cases ys with
      | nil => rfl
      | cons y ys =>
        simp only [reachFields, List.mem_append] at hx
        simp only [deepEqualFieldsOnHeap]
        rw [ihh x y (fun a ha => by
            rcases List.mem_append.1 ha with ha | ha
            · exact hx a (Or.inl (Or.inl ha))
            · exact hx a (Or.inr (Or.inl ha))),
          iht xs ys (fun a ha => by
            rcases List.mem_append.1 ha with ha | ha
            · exact hx a (Or.inl (Or.inr ha))
            · exact hx a (Or.inr (Or.inr ha)))]
  · intro f t ih
    exact ih

theorem readLocs_cons (h : Heap) (ft : StructField) (ty : GoType)
    (rest : List (StructField × GoType)) (T S : Loc) (i : Nat) :
    readLocs h ((ft, ty) :: rest) T S i =
      stepReadLocs h ft ty T S i ++ readLocs h rest T S (i + 1) := by
  rw [readLocs]
  rfl

theorem writeLocs_cons (h : Heap) (ft : StructField) (ty : GoType)
    (rest : List (StructField × GoType)) (T : Loc) (i : Nat) :
    writeLocs h ((ft, ty) :: rest) T i =
      stepWriteLocs h ft ty T i ++ writeLocs h rest T (i + 1) := by
  rw [writeLocs]
  rfl

theorem separate_cons (h : Heap) (ft : StructField) (ty : GoType)
    (rest : List (StructField × GoType)) (T S : Loc) (i : Nat) :
    separate h ((ft, ty) :: rest) T S i =
      ((if ft.Anonymous then separateAnonym h ty (T.Field i) (S.Field i) else true) &&
        ((stepWriteLocs h ft ty T i).all
          (fun w => (readLocs h rest T S (i + 1)).all (fun r => !w.overlaps r))) &&
        separate h rest T S (i + 1)) := by
  rw [separate]
  rfl

theorem load_cell (h : Heap) (c : Nat) : load h ⟨c, []⟩ = h[c]? := by
  unfold load
  cases h[c]? <;> simp [HValue.sub]

theorem elemAt_frame {h h2 : Heap} (hlen : h2.length = h.length) {l : Loc}
    (hl : load h2 l = load h l) : elemAt h2 l = elemAt h l := by
  unfold elemAt
  rw [hl, hlen]

theorem elemKindAt_frame {h h2 : Heap} {l : Loc} (ty : GoType)
    (hl : load h2 l = load h l) : elemKindAt h2 ty l = elemKindAt h ty l := by
  unfold elemKindAt
  rw [hl]

theorem isNilAt_frame {h h2 : Heap} {l : Loc}
    (hl : load h2 l = load h l) : isNilAt h2 l = isNilAt h l := by
  unfold isNilAt
  rw [hl]

theorem reachAt_frame {h h2 : Heap} (ty : GoType) {l : Loc}
    (hl : load h2 l = load h l) (hc : ∀ r ∈ reachAt h ty l, load h2 r = load h r) :
    reachAt h2 ty l = reachAt h ty l := by
  unfold reachAt at hc ⊢
  rw [hl]
  cases hv : load h l with
  | none => rfl
  | some v =>
    simp only [hv] at hc ⊢
    rw [reach_frame h h2 ty v]
    intro a ha
    have := hc ⟨a, []⟩ (List.mem_map.2 ⟨a, ha, rfl⟩)
    rwa [load_cell, load_cell] at this

theorem processAnonymOnHeap_ptr_eq (tag : String) (keys : KeyMap) (merge : Bool) (n : String)
    (fs : List (StructField × GoType)) (d u : Loc) (h : Heap) (pk : List String) :
    processAnonymOnHeap tag keys merge (.ptr (.struct n fs)) d u h pk =
      if elemKindAt h (.ptr (.struct n fs)) d = .Struct then
        if isNilAt h u then ⟨h, pk, .ok⟩
        else processStructsOnHeap tag keys merge fs (elemAt h d) (elemAt h u) 0 h pk
      else ⟨h, pk, .error errAnonym⟩ := by
  rw [processAnonymOnHeap_ptr]
  by_cases hk : elemKindAt h (.ptr (.struct n fs)) d = .Struct
  · obtain ⟨_, _, a, _, hl⟩ := elemKindAt_struct hk
    rw [if_pos ⟨rfl, hk⟩, if_pos hk]
    simp only [isNilAt_ptr hl, Bool.false_eq_true, if_false]
  · rw [if_neg (fun hc => hk hc.2), if_neg hk]

theorem processAnonymOnHeap_other (tag : String) (keys : KeyMap) (merge : Bool)
    (ty : GoType) (d u : Loc) (h : Heap) (pk : List String)
    (h1 : ∀ n fs, ty ≠ .struct n fs) (h2 : ∀ n fs, ty ≠ .ptr (.struct n fs)) :
    processAnonymOnHeap tag keys merge ty d u h pk = ⟨h, pk, .error errAnonym⟩ := by
  rcases processAnonymOnHeap_course tag ty d u h with
    ⟨n, fs, rfl, _⟩ | ⟨n, fs, rfl, _⟩ | ⟨e, _, hc⟩
  · exact absurd rfl (h1 n fs)
  · exact absurd rfl (h2 n fs)
  · cases ty with
    | struct n fs => exact absurd rfl (h1 n fs)
    | bool => rfl
    | int => rfl
    | string => rfl
    | float64 => rfl
    | func => rfl
    | ptr e2 =>
      have hk : elemKindAt h (.ptr e2) d ≠ .Struct := by
        intro hk
        obtain ⟨n, fs, _, hty, _⟩ := elemKindAt_struct hk
        exact h2 n fs hty
      cases e2 with
      | struct n fs => exact absurd rfl (h2 n fs)
      | bool =>
        show (if _ ∧ elemKindAt h (.ptr .bool) d = Kind.Struct then _ else _) = _
        rw [if_neg (fun hc => hk hc.2)]
      | int =>
        show (if _ ∧ elemKindAt h (.ptr .int) d = Kind.Struct then _ else _) = _
        rw [if_neg (fun hc => hk hc.2)]
      | string =>
        show (if _ ∧ elemKindAt h (.ptr .string) d = Kind.Struct then _ else _) = _
        rw [if_neg (fun hc => hk hc.2)]
      | float64 =>
        show (if _ ∧ elemKindAt h (.ptr .float64) d = Kind.Struct then _ else _) = _
        rw [if_neg (fun hc => hk hc.2)]
      | func =>
        show (if _ ∧ elemKindAt h (.ptr .func) d = Kind.Struct then _ else _) = _
        rw [if_neg (fun hc => hk hc.2)]
      | ptr e3 =>
        show (if _ ∧ elemKindAt h (.ptr (.ptr e3)) d = Kind.Struct then _ else _) = _
        rw [if_neg (fun hc => hk hc.2)]

theorem fieldStepOnHeap_diff_heap_eq (tag : String) (keys : KeyMap) (ft : StructField)
    (ty : GoType) (T S : Loc) (i : Nat) (h : Heap) (pk : List String) :
    (fieldStepOnHeap tag keys false ft ty T S i h pk).heap = h :=
  fieldStepOnHeap_diff_heap tag keys ft ty T S i h pk
    (fun _ fs _ => processStructsOnHeap_diff_heap tag keys fs)
    (fun _ fs _ => processStructsOnHeap_diff_heap tag keys fs)

theorem sameReadingStep_of_agree (h h2 : Heap) (hlen : h2.length = h.length)
    (ft : StructField) (ty : GoType) (T S : Loc) (i : Nat)
    (ih1 : ∀ n fs, ty = .struct n fs → ∀ T S i,
      (∀ r ∈ readLocs h fs T S i, load h2 r = load h r) → sameReading h h2 fs T S i)
    (ih2 : ∀ n fs, ty = .ptr (.struct n fs) → ∀ T S i,
      (∀ r ∈ readLocs h fs T S i, load h2 r = load h r) → sameReading h h2 fs T S i)
    (hag : ∀ r ∈ stepReadLocs h ft ty T S i, load h2 r = load h r) :
    sameReadingStep h h2 ft ty T S i := by
  cases ha : ft.Anonymous with
  | false =>
    simp only [stepReadLocs, ha, Bool.false_eq_true, if_false, List.mem_cons,
      List.mem_append] at hag
    have hT := hag (T.Field i) (Or.inl rfl)
    have hS := hag (S.Field i) (Or.inr (Or.inl rfl))
    have hcT : ∀ r ∈ reachAt h ty (T.Field i), load h2 r = load h r :=
      fun r hr => hag r (Or.inr (Or.inr (Or.inl hr)))
    have hcS : ∀ r ∈ reachAt h ty (S.Field i), load h2 r = load h r :=
      fun r hr => hag r (Or.inr (Or.inr (Or.inr hr)))
    refine ⟨?_, ?_, ?_, ?_⟩
    · simp only [stepReadLocs, ha, Bool.false_eq_true, if_false]
      rw [reachAt_frame ty hT hcT, reachAt_frame ty hS hcS]
    · simp only [stepWriteLocs, ha, Bool.false_eq_true, if_false]
    · simp only [ha, Bool.false_eq_true, if_false]
    · intro tag keys pk
      simp only [fieldStepOnHeap, ha, Bool.false_eq_true, if_false, hT, hS]
      cases hlt : load h (T.Field i) with
      | none =>
        by_cases k1 : splitFirst (StructTagGet ft.Tag tag) = "" <;>
          by_cases k2 : filteredOut keys (splitFirst (StructTagGet ft.Tag tag)) = true <;>
          by_cases k3 : ft.IsExported = true <;>
          simp [k1, k2, k3]
      | some tv =>
        cases hls : load h (S.Field i) with
        | none =>
          by_cases k1 : splitFirst (StructTagGet ft.Tag tag) = "" <;>
            by_cases k2 : filteredOut keys (splitFirst (StructTagGet ft.Tag tag)) = true <;>
            by_cases k3 : ft.IsExported = true <;>
            simp [k1, k2, k3]
        | some sv =>
          have hde : deepEqualOnHeap h2 ty tv sv = deepEqualOnHeap h ty tv sv := by
            apply deepEqualOnHeap_frame
            intro a ha2
            rcases List.mem_append.1 ha2 with ha2 | ha2
            · have := hcT ⟨a, []⟩ (by
                unfold reachAt; rw [hlt]; exact List.mem_map.2 ⟨a, ha2, rfl⟩)
              rwa [load_cell, load_cell] at this
            · have := hcS ⟨a, []⟩ (by
                unfold reachAt; rw [hls]; exact List.mem_map.2 ⟨a, ha2, rfl⟩)
              rwa [load_cell, load_cell] at this
          simp only [hde]
          by_cases k1 : splitFirst (StructTagGet ft.Tag tag) = "" <;>
            by_cases k2 : filteredOut keys (splitFirst (StructTagGet ft.Tag tag)) = true <;>
            by_cases k3 : ft.IsExported = true <;>
            by_cases k4 : deepEqualOnHeap h ty tv sv = true <;>
            simp [k1, k2, k3, k4]
  | true =>
    simp only [stepReadLocs, ha, if_true] at hag
    unfold sameReadingStep
    simp only [stepReadLocs, stepWriteLocs, ha, if_true]
    cases ty with
    | struct n fs =>
      obtain ⟨r1, r2, r3, r4⟩ := ih1 n fs rfl (T.Field i) (S.Field i) 0 hag
      refine ⟨r1, r2, r3, fun tag keys pk => ?_⟩
      rw [fieldStepOnHeap_anonym _ _ _ _ _ _ _ _ _ _ ha,
        fieldStepOnHeap_anonym _ _ _ _ _ _ _ _ _ _ ha]
      exact r4 tag keys pk
    | ptr e =>
      by_cases he : ∃ n fs, e = .struct n fs
      · obtain ⟨n, fs, rfl⟩ := he
        have hag2 : ∀ r ∈ T.Field i :: S.Field i ::
            readLocs h fs (elemAt h (T.Field i)) (elemAt h (S.Field i)) 0,
            load h2 r = load h r := hag
        have hd := hag2 (T.Field i) (List.mem_cons_self _ _)
        have hu := hag2 (S.Field i) (List.mem_cons_of_mem _ (List.mem_cons_self _ _))
        obtain ⟨r1, r2, r3, r4⟩ := ih2 n fs rfl (elemAt h (T.Field i)) (elemAt h (S.Field i)) 0
          (fun r hr => hag2 r (List.mem_cons_of_mem _ (List.mem_cons_of_mem _ hr)))
        have ed := elemAt_frame hlen hd
        have eu := elemAt_frame hlen hu
        refine ⟨?_, ?_, ?_, fun tag keys pk => ?_⟩
        · show T.Field i :: S.Field i ::
              readLocs h2 fs (elemAt h2 (T.Field i)) (elemAt h2 (S.Field i)) 0 =
            T.Field i :: S.Field i ::
              readLocs h fs (elemAt h (T.Field i)) (elemAt h (S.Field i)) 0
          rw [ed, eu, r1]
        · show writeLocs h2 fs (elemAt h2 (T.Field i)) 0 =
            writeLocs h fs (elemAt h (T.Field i)) 0
          rw [ed, r2]
        · show separate h2 fs (elemAt h2 (T.Field i)) (elemAt h2 (S.Field i)) 0 =
            separate h fs (elemAt h (T.Field i)) (elemAt h (S.Field i)) 0
          rw [ed, eu, r3]
        · rw [fieldStepOnHeap_anonym _ _ _ _ _ _ _ _ _ _ ha,
            fieldStepOnHeap_anonym _ _ _ _ _ _ _ _ _ _ ha,
            processAnonymOnHeap_ptr_eq, processAnonymOnHeap_ptr_eq,
            elemKindAt_frame _ hd, isNilAt_frame hu, ed, eu]
          by_cases hk : elemKindAt h (.ptr (.struct n fs)) (T.Field i) = .Struct
          · rw [if_pos hk, if_pos hk]
            by_cases hn : isNilAt h (S.Field i) = true
            · rw [if_pos hn, if_pos hn]
              exact ⟨rfl, rfl⟩
            · rw [if_neg hn, if_neg hn]
              exact r4 tag keys pk
          · rw [if_neg hk, if_neg hk]
            exact ⟨rfl, rfl⟩
      · have o1 : ∀ n fs, GoType.ptr e ≠ .struct n fs := by
          intro _ _ hc; cases hc
        have o2 : ∀ n fs, GoType.ptr e ≠ .ptr (.struct n fs) := by
          intro n fs hc; cases hc; exact he ⟨n, fs, rfl⟩
        refine ⟨?_, ?_, ?_, fun tag keys pk => ?_⟩
        · cases e with
          | struct n fs => exact absurd ⟨n, fs, rfl⟩ he
          | bool => rfl
          | int => rfl
          | string => rfl
          | float64 => rfl
          | func => rfl
          | ptr e3 => rfl
        · cases e with
          | struct n fs => exact absurd ⟨n, fs, rfl⟩ he
          | bool => rfl
          | int => rfl
          | string => rfl
          | float64 => rfl
          | func => rfl
          | ptr e3 => rfl
        · cases e with
          | struct n fs => exact absurd ⟨n, fs, rfl⟩ he
          | bool => rfl
          | int => rfl
          | string => rfl
          | float64 => rfl
          | func => rfl
          | ptr e3 => rfl
        · rw [fieldStepOnHeap_anonym _ _ _ _ _ _ _ _ _ _ ha,
            fieldStepOnHeap_anonym _ _ _ _ _ _ _ _ _ _ ha,
            processAnonymOnHeap_other _ _ _ _ _ _ _ _ o1 o2,
            processAnonymOnHeap_other _ _ _ _ _ _ _ _ o1 o2]
          exact ⟨rfl, rfl⟩
    | bool =>
      refine ⟨rfl, rfl, rfl, fun tag keys pk => ?_⟩
      rw [fieldStepOnHeap_anonym _ _ _ _ _ _ _ _ _ _ ha,
        fieldStepOnHeap_anonym _ _ _ _ _ _ _ _ _ _ ha]
      exact ⟨rfl, rfl⟩
    | int =>
      refine ⟨rfl, rfl, rfl, fun tag keys pk => ?_⟩
      rw [fieldStepOnHeap_anonym _ _ _ _ _ _ _ _ _ _ ha,
        fieldStepOnHeap_anonym _ _ _ _ _ _ _ _ _ _ ha]
      exact ⟨rfl, rfl⟩
    | string =>
      refine ⟨rfl, rfl, rfl, fun tag keys pk => ?_⟩
      rw [fieldStepOnHeap_anonym _ _ _ _ _ _ _ _ _ _ ha,
        fieldStepOnHeap_anonym _ _ _ _ _ _ _ _ _ _ ha]
      exact ⟨rfl, rfl⟩
    | float64 =>
      refine ⟨rfl, rfl, rfl, fun tag keys pk => ?_⟩
      rw [fieldStepOnHeap_anonym _ _ _ _ _ _ _ _ _ _ ha,
        fieldStepOnHeap_anonym _ _ _ _ _ _ _ _ _ _ ha]
      exact ⟨rfl, rfl⟩
    | func =>
      refine ⟨rfl, rfl, rfl, fun tag keys pk => ?_⟩
      rw [fieldStepOnHeap_anonym _ _ _ _ _ _ _ _ _ _ ha,
        fieldStepOnHeap_anonym _ _ _ _ _ _ _ _ _ _ ha]
      exact ⟨rfl, rfl⟩

/-- Two heaps of one length that agree on every location the traversal may read
are heaps on which the traversal reads the same. -/
theorem sameReading_of_agree (h h2 : Heap) (hlen : h2.length = h.length)
    (fs : List (StructField × GoType)) :
    ∀ (T S : Loc) (i : Nat),
      (∀ r ∈ readLocs h fs T S i, load h2 r = load h r) → sameReading h h2 fs T S i := by
  induction fs using fields_induction with
  | hnil =>
    intro T S i _
    refine ⟨rfl, rfl, rfl, fun tag keys pk => ?_⟩
    rw [processStructsOnHeap_nil, processStructsOnHeap_nil]
    exact ⟨rfl, rfl⟩
  | hcons ft ty rest ih1 ih2 ih =>
    intro T S i hag
    rw [readLocs_cons] at hag
    obtain ⟨s1, s2, s3, s4⟩ := sameReadingStep_of_agree h h2 hlen ft ty T S i ih1 ih2
      (fun r hr => hag r (List.mem_append_left _ hr))
    obtain ⟨r1, r2, r3, r4⟩ := ih T S (i + 1) (fun r hr => hag r (List.mem_append_right _ hr))
    refine ⟨?_, ?_, ?_, fun tag keys pk => ?_⟩
    · rw [readLocs_cons, readLocs_cons, s1, r1]
    · rw [writeLocs_cons, writeLocs_cons, s2, r2]
    · rw [separate_cons, separate_cons, s3, s2, r1, r3]
    · rw [processStructsOnHeap_cons_eq, processStructsOnHeap_cons_eq]
      obtain ⟨t1, t2⟩ := s4 tag keys pk
      by_cases hok : (fieldStepOnHeap tag keys false ft ty T S i h pk).exit = .ok
      · rw [if_pos hok, if_pos (t2.trans hok), fieldStepOnHeap_diff_heap_eq,
          fieldStepOnHeap_diff_heap_eq, t1]
        exact r4 tag keys _
      · rw [if_neg hok, if_neg (fun hc => hok (t2 ▸ hc))]
        exact ⟨t1, t2⟩

theorem fieldStepOnHeap_merge (tag : String) (keys : KeyMap) (ft : StructField)
    (ty : GoType) (T S : Loc) (i : Nat) (h : Heap) (pk : List String)
    (ih1 : ∀ n fs, ty = .struct n fs → ∀ T S i h pk,
      separate h fs T S i = true → mergesLikeDiff tag keys fs T S i h pk)
    (ih2 : ∀ n fs, ty = .ptr (.struct n fs) → ∀ T S i h pk,
      separate h fs T S i = true → mergesLikeDiff tag keys fs T S i h pk)
    (hsep : (if ft.Anonymous then separateAnonym h ty (T.Field i) (S.Field i) else true) =
      true) :
    (fieldStepOnHeap tag keys true ft ty T S i h pk).processedKeys =
      (fieldStepOnHeap tag keys false ft ty T S i h pk).processedKeys ∧
    (fieldStepOnHeap tag keys true ft ty T S i h pk).exit =
      (fieldStepOnHeap tag keys false ft ty T S i h pk).exit ∧
    (fieldStepOnHeap tag keys true ft ty T S i h pk).heap.length = h.length ∧
    ∀ l : Loc, (∀ w ∈ stepWriteLocs h ft ty T i, w.overlaps l = false) →
      load (fieldStepOnHeap tag keys true ft ty T S i h pk).heap l = load h l := by
  cases ha : ft.Anonymous with
  | false =>
    simp only [fieldStepOnHeap, stepWriteLocs, ha, Bool.false_eq_true, if_false, if_true,
      List.mem_singleton, forall_eq]
    by_cases k1 : splitFirst (StructTagGet ft.Tag tag) = ""
    · simp [k1]
    · by_cases k2 : filteredOut keys (splitFirst (StructTagGet ft.Tag tag)) = true
      · simp [k1, k2]
      · by_cases k3 : ft.IsExported = true
        · cases hlt : load h (T.Field i) with
          | none => simp [k1, k2, k3]
          | some tv =>
            cases hls : load h (S.Field i) with
            | none => simp [k1, k2, k3]
            | some sv =>
              by_cases k4 : deepEqualOnHeap h ty tv sv = true
              · simp [k1, k2, k3, k4]
              · simp only [k1, k2, k3, k4, Bool.not_true, Bool.false_eq_true, if_false]
                exact ⟨trivial, trivial, store_length _ _ _,
                  fun l hl => load_store_of_not_overlaps _ _ _ _ hl⟩
        · simp [k1, k2, k3]
  | true =>
    simp only [ha, if_true] at hsep
    simp only [stepWriteLocs, ha, if_true]
    rw [fieldStepOnHeap_anonym _ _ _ _ _ _ _ _ _ _ ha,
      fieldStepOnHeap_anonym _ _ _ _ _ _ _ _ _ _ ha]
    by_cases h1 : ∃ n fs, ty = .struct n fs
    · obtain ⟨n, fs, rfl⟩ := h1
      exact ih1 n fs rfl (T.Field i) (S.Field i) 0 h pk hsep
    · by_cases h2 : ∃ n fs, ty = .ptr (.struct n fs)
      · obtain ⟨n, fs, rfl⟩ := h2
        rw [processAnonymOnHeap_ptr_eq, processAnonymOnHeap_ptr_eq]
        by_cases hk : elemKindAt h (.ptr (.struct n fs)) (T.Field i) = .Struct
        · rw [if_pos hk, if_pos hk]
          by_cases hn : isNilAt h (S.Field i) = true
          · rw [if_pos hn, if_pos hn]
            exact ⟨rfl, rfl, rfl, fun _ _ => rfl⟩
          · rw [if_neg hn, if_neg hn]
            exact ih2 n fs rfl (elemAt h (T.Field i)) (elemAt h (S.Field i)) 0 h pk hsep
        · rw [if_neg hk, if_neg hk]
          exact ⟨rfl, rfl, rfl, fun _ _ => rfl⟩
      · rw [processAnonymOnHeap_other _ _ _ _ _ _ _ _
            (fun n fs hc => h1 ⟨n, fs, hc⟩) (fun n fs hc => h2 ⟨n, fs, hc⟩),
          processAnonymOnHeap_other _ _ _ _ _ _ _ _
            (fun n fs hc => h1 ⟨n, fs, hc⟩) (fun n fs hc => h2 ⟨n, fs, hc⟩)]
        exact ⟨rfl, rfl, rfl, fun _ _ => rfl⟩

/-- On a heap on which no location that the traversal may assign to at one field
overlaps a location that it may read at a later field, the merging traversal
collects the keys the comparing traversal collects and ends the same way. -/
theorem processStructsOnHeap_merge (tag : String) (keys : KeyMap)
    (fs : List (StructField × GoType)) :
    ∀ (T S : Loc) (i : Nat) (h : Heap) (pk : List String),
      separate h fs T S i = true → mergesLikeDiff tag keys fs T S i h pk := by
  induction fs using fields_induction with
  | hnil =>
    intro T S i h pk _
    unfold mergesLikeDiff
    rw [processStructsOnHeap_nil, processStructsOnHeap_nil]
    exact ⟨rfl, rfl, rfl, fun _ _ => rfl⟩
  | hcons ft ty rest ih1 ih2 ih =>
    intro T S i h pk hsep
    rw [separate_cons] at hsep
    simp only [Bool.and_eq_true, List.all_eq_true, Bool.not_eq_true'] at hsep
    obtain ⟨⟨hs1, hs2⟩, hs3⟩ := hsep
    obtain ⟨a1, a2, a3, a4⟩ := fieldStepOnHeap_merge tag keys ft ty T S i h pk ih1 ih2 hs1
    unfold mergesLikeDiff
    rw [processStructsOnHeap_cons_eq, processStructsOnHeap_cons_eq, writeLocs_cons]
    by_cases hok : (fieldStepOnHeap tag keys false ft ty T S i h pk).exit = .ok
    · rw [if_pos hok, if_pos (a2.trans hok), fieldStepOnHeap_diff_heap_eq]
      have hag : ∀ r ∈ readLocs h rest T S (i + 1),
          load (fieldStepOnHeap tag keys true ft ty T S i h pk).heap r = load h r :=
        fun r hr => a4 r (fun w hw => hs2 w hw r hr)
      obtain ⟨_, r2, r3, r4⟩ := sameReading_of_agree h _ a3 rest T S (i + 1) hag
      obtain ⟨b1, b2, b3, b4⟩ := ih T S (i + 1)
        (fieldStepOnHeap tag keys true ft ty T S i h pk).heap
        (fieldStepOnHeap tag keys true ft ty T S i h pk).processedKeys (r3.trans hs3)
      obtain ⟨c1, c2⟩ := r4 tag keys (fieldStepOnHeap tag keys true ft ty T S i h pk).processedKeys
      refine ⟨?_, ?_, b3.trans a3, fun l hl => ?_⟩
      · rw [b1, c1, a1]
      · rw [b2, c2, a1]
      · rw [b4 l (fun w hw => hl w (List.mem_append_right _ (r2 ▸ hw)))]
        exact a4 l (fun w hw => hl w (List.mem_append_left _ hw))
    · rw [if_neg hok, if_neg (fun hc => hok (a2 ▸ hc))]
      exact ⟨a1, a2, a3, fun l hl => a4 l (fun w hw => hl w (List.mem_append_left _ hw))⟩

theorem processOnHeap_keys (fs : List (StructField × GoType)) (h : Heap) (target source : Nat)
    (keys : KeyMap) (merge : Bool) (opts : List Opt) :
    (processOnHeap fs h target source keys merge opts).keys =
      if (processStructsOnHeap (effectiveTag opts) keys merge fs ⟨target, []⟩ ⟨source, []⟩ 0 h
          []).exit = .ok then
        some (processStructsOnHeap (effectiveTag opts) keys merge fs ⟨target, []⟩ ⟨source, []⟩
          0 h []).processedKeys
      else none := by
  unfold processOnHeap effectiveTag
  simp only
  split
  · rename_i hx
    rw [if_pos hx]
  · rename_i hx
    rw [if_neg hx]

/-- The condition `separate` fails on the heap of the counterexample, where the
field `P` of update points to the record embedded in dest, and holds on the heap
of the example records, which share nothing. -/
theorem separate_on_the_examples :
    separate exSharedHeap exSharedFields ⟨0, []⟩ ⟨1, []⟩ 0 = false ∧
    separate exHeap exFields ⟨0, []⟩ ⟨1, []⟩ 0 = true := by
  decide

/-- C15, amended: for every target and source on the heap in which no location
that `Merge` may assign to at one field overlaps a location that the traversal
may read at a later field, every key filter and option list, `Merge` and `Diff`
return the same key list and end the same way (both with no error, both with the
same error, or both with the same panic): the assignments `Merge` makes to the
target change no later comparison of the call. -/
theorem merge_and_diff_return_the_same_keys_when_separate
    (fs : List (StructField × GoType)) (h : Heap) (target source : Nat) (keys : KeyMap)
    (opts : List Opt)
    (hsep : separate h fs ⟨target, []⟩ ⟨source, []⟩ 0 = true) :
    (MergeOnHeap fs h target source keys opts).keys =
      (DiffOnHeap fs h target source keys opts).keys ∧
    (MergeOnHeap fs h target source keys opts).exit =
      (DiffOnHeap fs h target source keys opts).exit := by
  obtain ⟨h1, h2, _, _⟩ := processStructsOnHeap_merge (effectiveTag opts) keys fs
    ⟨target, []⟩ ⟨source, []⟩ 0 h [] hsep
  unfold MergeOnHeap DiffOnHeap
  rw [processOnHeap_keys, processOnHeap_keys, processOnHeap_exit, processOnHeap_exit, h1, h2]
  exact ⟨rfl, rfl⟩

/-- Witness for C15 on the heap of the example records of type `test`. -/
theorem merge_and_diff_return_the_same_keys_when_separate_witness :
    (MergeOnHeap exFields exHeap 0 1 none []).keys =
      (DiffOnHeap exFields exHeap 0 1 none []).keys ∧
    (MergeOnHeap exFields exHeap 0 1 none []).exit =
      (DiffOnHeap exFields exHeap 0 1 none []).exit :=
  merge_and_diff_return_the_same_keys_when_separate exFields exHeap 0 1 none [] (by decide)

end Shallow
